import Mathlib

/-!
# ads_bot: distribution round scheduler and sequential payment worker

A shallow embedding of `src/index.js` (`clampCooldown`, the `/setup` handler, the modal submit
handler, `serverEligible`, `shuffle`, `runDistributionRound`, `runPaymentWorker`),
`src/database.js` (the table helpers) and `src/coinApi.js` (`payFromCard`).

Modelling conventions.
* The SQLite file is the record `DB`: one list of rows per table, in insertion order, and the two
  `sqlite_sequence` counters of the AUTOINCREMENT queues.
* JavaScript numbers that hold integers are `Int`; `sec | 0` is the explicit 32-bit wrap `toInt32`,
  and `row.times - 1` is the subtraction of doubles `jsSub`, exact up to 2^53 and rounded to the
  nearest double above it.
* A nullable column is an `Option`; JavaScript truthiness of a nullable text is `truthy`.
* `nowSec()` and `Math.random()` are read from the round input `RoundIn`; the result of the charge
  request is the oracle `ChargeOutcome`.
* Storage calls are assumed to succeed (no rejected promise), and a round or a worker iteration
  runs to completion without another task writing in between. The calls started together by
  `Promise.all` (lines 311 and 314) are applied one after the other, in array order.
* The worker is modelled twice: `runPaymentWorkerBody` is one complete pass of its loop, and
  `workerStep` is one step of a pass, with a stop and restart possible between steps
  (`runPass_eq` relates the two).
* The tables carry their PRIMARY KEYs as the predicates `ServersKeyed`, `UsersKeyed` and
  `QueuesKeyed`. Two further predicates describe what the writers of the repository store:
  `CooldownsStored` (a cooldown went through `clampCooldown` in `/setup`) and `BarFree` (ids are
  Discord snowflakes, or a snowflake, a colon and a timestamp, so they hold no `|`). All five
  are kept by every round and worker pass (`step_keeps_wf`); the writer of `users`, the modal
  submit handler, keeps `UsersKeyed` and `BarFree` (`submitAd_wf`).
-/

namespace AdsBot

/-! ## Tables (`initSchema`) -/

/-- Row of table `servers`. -/
structure Server where
  ID : String
  Owner : Option String
  Panel : Option String
  channel : Option String
  cooldown : Option Int
  latest : Option Int
deriving DecidableEq

/-- Row of table `users` (one campaign of one advertiser). -/
structure UserAd where
  ID : String
  ADS_ID : String
  times : Option Int
  card : String
deriving DecidableEq

/-- Row of table `adsmeta`. -/
structure AdMeta where
  AD_ID : String
  User : String
  ad : String
  link : Option String
  msg : Option String
deriving DecidableEq

/-- Row of table `adsqueue`. -/
structure AdsRow where
  queue : Nat
  AD_ID : String
  User : String
  ad : String
  link : Option String
  msg : Option String
  Server : String
deriving DecidableEq

/-- Row of table `paymentqueue`. -/
structure PayRow where
  queue : Nat
  AD_ID : String
  PayID : Option String
  ID : String
  card : String
  server_owner_id : Option String
deriving DecidableEq

/-- Object pushed on `toAdsQueue` (index.js 288-295). -/
structure AdJob where
  AD_ID : String
  User : String
  ad : String
  link : Option String
  msg : Option String
  Server : String
deriving DecidableEq

/-- Object pushed on `toPayQueue` (index.js 297-302). -/
structure PayJob where
  AD_ID : String
  ID : String
  card : String
  server_owner_id : Option String
deriving DecidableEq

/-- The database file. -/
structure DB where
  servers : List Server
  users : List UserAd
  adsmeta : List AdMeta
  adsqueue : List AdsRow
  paymentqueue : List PayRow
  adsSeq : Nat
  paySeq : Nat
deriving DecidableEq

/-! ## Helpers of index.js -/

/-- JavaScript `x | 0` on an integer: wrap into the signed 32-bit range. -/
def toInt32 (x : Int) : Int := (x + 2147483648) % 4294967296 - 2147483648

/-- Line 106: `Math.max(300, Math.min(86400, sec | 0))`. -/
def clampCooldown (sec : Int) : Int := max 300 (min 86400 (toInt32 sec))

/-- JavaScript `v || d` on a nullable integer column (`null` and `0` are falsy). -/
def orDefault (v : Option Int) (d : Int) : Int :=
  match v with
  | some x => if x = 0 then d else x
  | none => d

/-- JavaScript truthiness of a nullable text column (`null` and the empty text are falsy). -/
def truthy (v : Option String) : Bool :=
  match v with
  | some s => decide (s ≠ "")
  | none => false

/-! ## database.js -/

/-- Query of `getServer`: `SELECT * FROM servers WHERE ID = ?`. -/
def getServer (st : DB) (guildId : String) : Option Server :=
  st.servers.find? (fun s => s.ID == guildId)

/-- Statement of `setLatest`: `UPDATE servers SET latest = ? WHERE ID = ?`. -/
def setLatest (guildId : String) (ts : Int) (st : DB) : DB :=
  let upd : Server → Server := fun s => if s.ID = guildId then { s with latest := some ts } else s
  { st with servers := st.servers.map upd }

/-- The power of two by which integers of the size of `a` are spaced in binary64: 1 below
2^53, doubled for every further bit. The magnitude of a finite double has fewer than 1024
bits, so 1100 doublings of `fuel` suffice. -/
def ulpOf : Nat → Nat → Nat
  | 0, _ => 1
  | fuel + 1, a => if a < 9007199254740992 then 1 else 2 * ulpOf fuel (a / 2)

/-- The binary64 number nearest to an integer, ties going to the even significand: the value a
JavaScript arithmetic result takes. Integers of magnitude up to 2^53 are kept exactly; the
result of an operation on finite doubles that stays finite is this rounding of the exact
result. -/
def toDouble (x : Int) : Int :=
  let a := x.natAbs
  if a ≤ 9007199254740992 then x
  else
    let u := ulpOf 1100 a
    let q := a / u
    let r := a % u
    let q1 := if 2 * r < u then q else if u < 2 * r then q + 1 else if q % 2 = 0 then q else q + 1
    if 0 ≤ x then ((q1 * u : Nat) : Int) else -((q1 * u : Nat) : Int)

/-- JavaScript `a - b` on integer-valued numbers. -/
def jsSub (a b : Int) : Int := toDouble (a - b)

/-- Function `decrementTimes` (database.js 117-131); `row.times - 1` is a subtraction of
doubles. -/
def decrementTimes (userId adsId : String) (st : DB) : DB :=
  match st.users.find? (fun u => u.ID == userId && u.ADS_ID == adsId) with
  | none => st
  | some row =>
    match row.times with
    | none => st
    | some t =>
      let next := jsSub t 1
      if next ≤ 0 then
        { st with users := st.users.filter (fun u => !(u.ID == userId && u.ADS_ID == adsId)) }
      else
        let upd : UserAd → UserAd := fun u =>
          if u.ID == userId && u.ADS_ID == adsId then { u with times := some next } else u
        { st with users := st.users.map upd }

/-- Query of `getAdMeta`: `SELECT ad, link, msg FROM adsmeta WHERE AD_ID = ?`. -/
def getAdMeta (st : DB) (adId : String) : Option AdMeta :=
  st.adsmeta.find? (fun m => m.AD_ID == adId)

/-- Largest rowid present in a table (0 for the empty table). -/
def maxQueue (qs : List Nat) : Nat := qs.foldr max 0

/-- The rowid an AUTOINCREMENT insert takes: one more than the larger of the `sqlite_sequence`
entry and the largest rowid in the table. -/
def nextRowid (seq : Nat) (qs : List Nat) : Nat := max seq (maxQueue qs) + 1

/-- One `stmt.run` of `addToAdsQueue`. -/
def insertAdsRow (st : DB) (r : AdJob) : DB :=
  let q := nextRowid st.adsSeq (st.adsqueue.map (fun x => x.queue))
  { st with
    adsqueue := st.adsqueue ++ [{ queue := q, AD_ID := r.AD_ID, User := r.User, ad := r.ad,
                                  link := r.link, msg := r.msg, Server := r.Server }]
    adsSeq := q }

/-- Function `addToAdsQueue` (database.js 161-169). -/
def addToAdsQueue (rows : List AdJob) (st : DB) : DB := rows.foldl insertAdsRow st

/-- One `stmt.run` of `addToPaymentQueue` (`PayID` is not written and stays NULL). -/
def insertPayRow (st : DB) (r : PayJob) : DB :=
  let q := nextRowid st.paySeq (st.paymentqueue.map (fun x => x.queue))
  { st with
    paymentqueue := st.paymentqueue ++ [{ queue := q, AD_ID := r.AD_ID, PayID := none, ID := r.ID,
                                          card := r.card, server_owner_id := r.server_owner_id }]
    paySeq := q }

/-- Function `addToPaymentQueue` (database.js 196-204). -/
def addToPaymentQueue (rows : List PayJob) (st : DB) : DB := rows.foldl insertPayRow st

/-- Semantics of `ORDER BY queue ASC LIMIT 1`: the row with the least rowid. -/
def oldestBy {α : Type} (q : α → Nat) : List α → Option α
  | [] => none
  | x :: xs =>
    match oldestBy q xs with
    | none => some x
    | some y => if q x ≤ q y then some x else some y

/-- Function `popNextPayment` (database.js 206-213); it reads, it does not delete. -/
def popNextPayment (st : DB) : Option PayRow := oldestBy (fun p => p.queue) st.paymentqueue

/-- Function `deletePayment`: `DELETE FROM paymentqueue WHERE queue = ?`. -/
def deletePayment (queueId : Nat) (st : DB) : DB :=
  { st with paymentqueue := st.paymentqueue.filter (fun p => p.queue != queueId) }

/-- Function `deleteAdsQueue`: `DELETE FROM adsqueue WHERE queue = ?`. -/
def deleteAdsQueue (queueId : Nat) (st : DB) : DB :=
  { st with adsqueue := st.adsqueue.filter (fun a => a.queue != queueId) }

/-- Function `cleanupSequencesIfEmpty` (database.js 222-240). -/
def cleanupSequencesIfEmpty (st : DB) : DB :=
  if st.adsqueue.length = 0 ∧ st.paymentqueue.length = 0 then
    { st with adsSeq := 0, paySeq := 0 }
  else st

/-- SQL `COALESCE(a, b)`. -/
def coalesce {α : Type} (a b : Option α) : Option α :=
  match a with
  | some x => some x
  | none => b

/-- Function `upsertServer` (database.js 84-98): insert a row with `latest` 0, or on a conflict
on `ID` overwrite the columns for which a value is given. -/
def upsertServer (ID : String) (Owner Panel channel : Option String) (cooldown : Option Int)
    (st : DB) : DB :=
  match st.servers.find? (fun s => s.ID == ID) with
  | none =>
    { st with servers := st.servers ++ [{ ID := ID, Owner := Owner, Panel := Panel,
                                          channel := channel, cooldown := cooldown,
                                          latest := some 0 }] }
  | some _ =>
    let upd : Server → Server := fun s =>
      if s.ID = ID then
        { s with Owner := coalesce Owner s.Owner, Panel := coalesce Panel s.Panel,
                 channel := coalesce channel s.channel, cooldown := coalesce cooldown s.cooldown }
      else s
    { st with servers := st.servers.map upd }

/-- The `/setup` handler up to its storage call (index.js 165-178): the owner option is
`getString('ownerid') || null`, and a given cooldown passes `clampCooldown`. -/
def setupCommand (guildId : String) (ownerid panel channel : Option String)
    (cooldown : Option Int) (st : DB) : DB :=
  let owner := if truthy ownerid then ownerid else none
  let cd := cooldown.map clampCooldown
  upsertServer guildId owner panel channel cd st

/-- Statement of `insertUserAd` (database.js 107-115), `INSERT OR REPLACE INTO users`: a row
with the same `(ID, ADS_ID)` is deleted, then the new row is inserted. -/
def insertUserAd (userId adsId : String) (times : Option Int) (card : String) (st : DB) : DB :=
  { st with users :=
      st.users.filter (fun u => !(u.ID == userId && u.ADS_ID == adsId)) ++
        [{ ID := userId, ADS_ID := adsId, times := times, card := card }] }

/-- Function `upsertAdMeta` (database.js 134-148): insert, or on a conflict on `AD_ID` overwrite
the other columns. -/
def upsertAdMeta (AD_ID User ad : String) (link msg : Option String) (st : DB) : DB :=
  match st.adsmeta.find? (fun m => m.AD_ID == AD_ID) with
  | none =>
    { st with adsmeta := st.adsmeta ++
        [{ AD_ID := AD_ID, User := User, ad := ad, link := link, msg := msg }] }
  | some _ =>
    let upd : AdMeta → AdMeta := fun m =>
      if m.AD_ID = AD_ID then { m with User := User, ad := ad, link := link, msg := msg } else m
    { st with adsmeta := st.adsmeta.map upd }

/-- What lines 224-225 make of the text of the `maxtimes` field: it is empty or blank, or
`Number(text)` is not an integer (NaN, an infinity, a fraction), or `Number(text)` is the
integer-valued double `n`; `Number("18014398509481984")` is 2^54. -/
inductive MaxTimes where
  | blank
  | notInteger
  | integer (n : Int)
deriving DecidableEq

/-- The test `/^https?:\/\//i` of line 219. -/
def linkOk (link : String) : Bool :=
  let l := link.data.map Char.toLower
  l.take 7 == "http://".data || l.take 8 == "https://".data

/-- The modal submit handler (index.js 209-240): `userId` is `itx.user.id` and `nowMs` is
`Date.now()`; a refused submission leaves the database as it is. -/
def submitAd (guildId userId : String) (nowMs : Nat) (content link word card : String)
    (maxtimes : MaxTimes) (st : DB) : DB :=
  if !(linkOk link) then st
  else
    match (match maxtimes with
      | .blank => some (none : Option Int)
      | .notInteger => none
      | .integer n => if n ≤ 0 then none else some (some n)) with
    | none => st
    | some times =>
      match getServer st guildId with
      | none => st
      | some server =>
        if !(truthy server.Owner) || !(truthy server.channel) then st
        else
          let adsId := userId ++ ":" ++ toString nowMs
          upsertAdMeta adsId userId content (some link) (some word)
            (insertUserAd userId adsId times card st)

/-- A Discord id: a text of decimal digits. -/
def Snowflake (s : String) : Prop := ∀ c ∈ s.data, c.isDigit = true

/-! ## Eligibility and shuffle (index.js 243-258) -/

/-- Function `serverEligible`; `nowSec` is the clock value read on line 248. -/
def serverEligible (st : DB) (nowSec : Int) (guildId : String) : Bool :=
  match getServer st guildId with
  | none => false
  | some s =>
    if !(truthy s.channel) || !(truthy s.Owner) then false
    else
      let last := orDefault s.latest 0
      let cd := clampCooldown (orDefault s.cooldown 300)
      decide (nowSec - last ≥ cd)

/-- The exchange `[a[i], a[j]] = [a[j], a[i]]`. -/
def swapAt {α : Type} (a : List α) (i j : Nat) : List α :=
  match a[i]?, a[j]? with
  | some x, some y => (a.set i y).set j x
  | _, _ => a

/-- The loop of `shuffle` from index `i` down to 1; `rnd i` is the draw made at index `i`, and
`Math.floor(Math.random() * (i + 1))` is `rnd i % (i + 1)`. -/
def shuffleLoop {α : Type} (rnd : Nat → Nat) : Nat → List α → List α
  | 0, a => a
  | i + 1, a => shuffleLoop rnd i (swapAt a (i + 1) (rnd (i + 1) % (i + 2)))

/-- Function `shuffle` (index.js 251-258). -/
def shuffle {α : Type} (rnd : Nat → Nat) (arr : List α) : List α :=
  shuffleLoop rnd (arr.length - 1) arr

/-! ## The distribution round (index.js 261-321) -/

/-- What one run of `runDistributionRound` reads from outside the database: `clk g` is the value
of `nowSec()` inside `serverEligible(g)`, `now` the value of `nowSec()` on line 310, and `rndS`,
`rndA` the draws of `shuffle(eligibles)` and `shuffle(ads)`. -/
structure RoundIn where
  clk : String → Int
  now : Int
  rndS : Nat → Nat
  rndA : Nat → Nat

/-- One pass of the loop body, lines 281-302, at index `i` with `server = shuffledServers[i]`;
`acc` holds `toAdsQueue` and `toPayQueue`. -/
def pairStep (st : DB) (shuffledAds : List UserAd) (i : Nat) (server : Server)
    (acc : List AdJob × List PayJob) : List AdJob × List PayJob :=
  match shuffledAds[i % shuffledAds.length]? with
  | none => acc
  | some ad =>
    if (match ad.times with | some t => decide (t ≤ 0) | none => false) then acc
    else
      match getAdMeta st ad.ADS_ID with
      | none => acc
      | some copy =>
        (acc.1 ++ [{ AD_ID := ad.ADS_ID, User := ad.ID, ad := copy.ad, link := copy.link,
                     msg := copy.msg, Server := server.ID }],
         acc.2 ++ [{ AD_ID := ad.ADS_ID, ID := ad.ID, card := ad.card,
                     server_owner_id := server.Owner }])

/-- The loop of lines 280-303 from index `i` on; the list is `shuffledServers.slice(i)`. -/
def pairLoop (st : DB) (shuffledAds : List UserAd) :
    Nat → List Server → List AdJob × List PayJob → List AdJob × List PayJob
  | _, [], acc => acc
  | i, server :: rest, acc =>
    pairLoop st shuffledAds (i + 1) rest (pairStep st shuffledAds i server acc)

/-- The text of a `Set` key on line 313. -/
def adKey (x : AdJob) : String := x.User ++ "|" ++ x.AD_ID

/-- JavaScript `key.split('|')` on the characters of a text. -/
def splitBar : List Char → List (List Char)
  | [] => [[]]
  | c :: cs =>
    if c = '|' then [] :: splitBar cs
    else
      match splitBar cs with
      | [] => [[c]]
      | p :: ps => (c :: p) :: ps

/-- JavaScript `key.split('|')`. -/
def jsSplit (key : String) : List String := (splitBar key.data).map String.mk

/-- The members of `new Set(xs)` in iteration order: first occurrences, in order. -/
def jsSet : List String → List String
  | [] => []
  | x :: xs => x :: (jsSet xs).filter (fun y => y != x)

/-- Lines 315-316 for one key: `[uid, aid] = key.split('|')`, then `decrementTimes(uid, aid)`. -/
def decrementKey (st : DB) (key : String) : DB :=
  let parts := jsSplit key
  decrementTimes (parts.getD 0 "") (parts.getD 1 "") st

/-- The servers kept on line 267. -/
def roundEligibles (r : RoundIn) (st : DB) : List Server :=
  st.servers.filter (fun s => serverEligible st (r.clk s.ID) s.ID)

/-- Function `runDistributionRound` (index.js 261-321). -/
def runDistributionRound (r : RoundIn) (st : DB) : DB :=
  let servers := st.servers
  let eligibles := servers.filter (fun s => serverEligible st (r.clk s.ID) s.ID)
  if eligibles.length = 0 then st
  else
    let ads := st.users
    if ads.length = 0 then st
    else
      let shuffledServers := shuffle r.rndS eligibles
      let shuffledAds := shuffle r.rndA ads
      let batch := pairLoop st shuffledAds 0 shuffledServers ([], [])
      let toAdsQueue := batch.1
      let toPayQueue := batch.2
      if toAdsQueue.length = 0 then st
      else
        let st1 := addToAdsQueue toAdsQueue st
        let st2 := addToPaymentQueue toPayQueue st1
        let now := r.now
        let st3 := toAdsQueue.foldl (fun s q => setLatest q.Server now s) st2
        let usedByAdsId := jsSet (toAdsQueue.map adKey)
        usedByAdsId.foldl decrementKey st3

/-- The values of `toAdsQueue` and `toPayQueue` a round builds (both empty when the round
returns on line 268 or 273). -/
def roundBatch (r : RoundIn) (st : DB) : List AdJob × List PayJob :=
  if (roundEligibles r st).length = 0 then ([], [])
  else if st.users.length = 0 then ([], [])
  else pairLoop st (shuffle r.rndA st.users) 0 (shuffle r.rndS (roundEligibles r st)) ([], [])

/-! ## The payment worker (index.js 324-368, coinApi.js 17-27) -/

/-- What the HTTP request of `payFromCard` does: it throws, or it answers with `success`. -/
inductive ChargeOutcome where
  | transportError
  | response (success : Bool)
deriving DecidableEq

/-- Method `CoinAPI.payFromCard`: it returns only for an answer with `success`, else it throws. -/
def payFromCard (o : ChargeOutcome) : Except String Unit :=
  match o with
  | .transportError => .error "request failed"
  | .response success => if !success then .error "CoinAPI: pagamento falhou" else .ok ()

/-- Calls the worker makes to its collaborators: the charge request and `postAd(serverId,
adsRow)`. Whether a posted row reaches its channel is decided inside `postAd` and is not
modelled. -/
inductive Call where
  | charge (cardCode : String) (toId : Option String)
  | postAd (serverId : String) (adsRow : AdsRow)
deriving DecidableEq

/-- One pass of the `while (true)` body of `runPaymentWorker` (lines 326-362), with the calls it
made; `o` is what the charge request of this pass does. -/
def runPaymentWorkerBody (o : ChargeOutcome) (st : DB) : DB × List Call :=
  match popNextPayment st with
  | none => (cleanupSequencesIfEmpty st, [])
  | some job =>
    let ok : Bool := match payFromCard o with
      | .ok _ => true
      | .error _ => false
    let st1 := deletePayment job.queue st
    let adsRow := oldestBy (fun a => a.queue) (st1.adsqueue.filter (fun a => a.AD_ID == job.AD_ID))
    if !ok then
      match adsRow with
      | some row => (deleteAdsQueue row.queue st1, [Call.charge job.card job.server_owner_id])
      | none => (st1, [Call.charge job.card job.server_owner_id])
    else
      match adsRow with
      | some row => (deleteAdsQueue row.queue st1,
                     [Call.charge job.card job.server_owner_id, Call.postAd row.Server row])
      | none => (st1, [Call.charge job.card job.server_owner_id])

/-- The posting calls among a list of calls. -/
def postCalls (cs : List Call) : List (String × AdsRow) :=
  cs.filterMap (fun c => match c with
    | .postAd g row => some (g, row)
    | .charge _ _ => none)

/-! ## Runs of the two tasks -/

/-- A complete round or a complete worker pass. -/
inductive Event where
  | round (r : RoundIn)
  | worker (o : ChargeOutcome)

/-- Effect of one event on the database. -/
def stepEvent (st : DB) (e : Event) : DB :=
  match e with
  | .round r => runDistributionRound r st
  | .worker o => (runPaymentWorkerBody o st).1

/-- Effect of a sequence of events. -/
def runEvents (es : List Event) (st : DB) : DB := es.foldl stepEvent st

/-! ## Well-formed databases -/

/-- Column `servers.ID` is a PRIMARY KEY. -/
def ServersKeyed (st : DB) : Prop := (st.servers.map (fun s => s.ID)).Nodup

/-- The pair `(users.ID, users.ADS_ID)` is a PRIMARY KEY. -/
def UsersKeyed (st : DB) : Prop := (st.users.map (fun u => (u.ID, u.ADS_ID))).Nodup

/-- Columns `adsqueue.queue` and `paymentqueue.queue` are PRIMARY KEYs. -/
def QueuesKeyed (st : DB) : Prop :=
  (st.adsqueue.map (fun a => a.queue)).Nodup ∧ (st.paymentqueue.map (fun p => p.queue)).Nodup

/-- No advertiser id and no campaign id holds the separator of line 313: advertiser ids are
Discord snowflakes (digits) and campaign ids are made on line 235 from one, a colon and
`Date.now()`. -/
def BarFree (st : DB) : Prop :=
  ∀ u ∈ st.users, '|' ∉ u.ID.data ∧ '|' ∉ u.ADS_ID.data

/-- The mathematical clamp of the cooldown to the interval from 300 to 86400. -/
def clamp (x lo hi : Int) : Int := min hi (max lo x)

/-! ## Reading a round back from its result -/

/-- The job a row of `adsqueue` was inserted from. -/
def AdsRow.job (a : AdsRow) : AdJob :=
  { AD_ID := a.AD_ID, User := a.User, ad := a.ad, link := a.link, msg := a.msg, Server := a.Server }

/-- The job a row of `paymentqueue` was inserted from. -/
def PayRow.job (p : PayRow) : PayJob :=
  { AD_ID := p.AD_ID, ID := p.ID, card := p.card, server_owner_id := p.server_owner_id }

/-- The rows a round appended to `adsqueue`: what follows the rows that were there before. -/
def appendedAds (r : RoundIn) (st : DB) : List AdsRow :=
  (runDistributionRound r st).adsqueue.drop st.adsqueue.length

/-- The rows a round appended to `paymentqueue`. -/
def appendedPay (r : RoundIn) (st : DB) : List PayRow :=
  (runDistributionRound r st).paymentqueue.drop st.paymentqueue.length

/-- What the loop body pushes at index `i` for `server`, if anything. -/
def pairOf (st : DB) (shuffledAds : List UserAd) (i : Nat) (server : Server) :
    Option (AdJob × PayJob) :=
  match shuffledAds[i % shuffledAds.length]? with
  | none => none
  | some ad =>
    if (match ad.times with | some t => decide (t ≤ 0) | none => false) then none
    else
      match getAdMeta st ad.ADS_ID with
      | none => none
      | some copy =>
        some ({ AD_ID := ad.ADS_ID, User := ad.ID, ad := copy.ad, link := copy.link,
                msg := copy.msg, Server := server.ID },
              { AD_ID := ad.ADS_ID, ID := ad.ID, card := ad.card,
                server_owner_id := server.Owner })

/-- The pushes of the loop from index `i` on, in order. -/
def pairsFrom (st : DB) (shuffledAds : List UserAd) : Nat → List Server → List (AdJob × PayJob)
  | _, [] => []
  | i, server :: rest =>
    (pairOf st shuffledAds i server).toList ++ pairsFrom st shuffledAds (i + 1) rest

/-- The pairings a round makes, in order (none when the round returns on line 268 or 273). -/
def roundPairs (r : RoundIn) (st : DB) : List (AdJob × PayJob) :=
  if (roundEligibles r st).length = 0 then []
  else if st.users.length = 0 then []
  else pairsFrom st (shuffle r.rndA st.users) 0 (shuffle r.rndS (roundEligibles r st))

/-- The row `decrementTimes` leaves in place of the row it reads (database.js 122-128), if
any. -/
def decRow (u : UserAd) : Option UserAd :=
  match u.times with
  | none => some u
  | some t => if jsSub t 1 ≤ 0 then none else some { u with times := some (jsSub t 1) }

/-- Whether a batch holds a job of this campaign: same advertiser id and same campaign id. -/
def selectedIn (jobs : List AdJob) (u : UserAd) : Bool :=
  jobs.any (fun j => j.User == u.ID && j.AD_ID == u.ADS_ID)

/-- The budget rule in the words of the specification: a campaign selected in the round has its
budget lowered by one, once, and its row is deleted when the new value is 0; an unlimited
campaign and a campaign that was not selected keep their row as it is. -/
def specAfterRound (jobs : List AdJob) (u : UserAd) : Option UserAd :=
  if selectedIn jobs u then
    match u.times with
    | none => some u
    | some t => if t - 1 = 0 then none else some { u with times := some (t - 1) }
  else some u

/-- The `Set` key of a campaign row. -/
def userKey (u : UserAd) : String := u.ID ++ "|" ++ u.ADS_ID

/-- The servers that are the target of a job of the round. -/
def roundTargets (r : RoundIn) (st : DB) : List String :=
  (roundBatch r st).1.map (fun j => j.Server)

/-- What `setLatest(g, ts)` makes of a row when `g` ranges over `targets`. -/
def stamp (targets : List String) (ts : Int) (s : Server) : Server :=
  if s.ID ∈ targets then { s with latest := some ts } else s

/-- The clock never runs backwards along a run that starts at reading `t`: inside a round every
reading of `serverEligible` is at least the last reading before it and at most the reading of
line 310. -/
def ClockFrom (t : Int) : List Event → Prop
  | [] => True
  | .worker _ :: es => ClockFrom t es
  | .round r :: es => (∀ g, t ≤ r.clk g) ∧ (∀ g, r.clk g ≤ r.now) ∧ ClockFrom r.now es

/-- The campaign `(uid, aid)` has a row, with remaining budget `t`. -/
def HasBudget (st : DB) (uid aid : String) (t : Int) : Prop :=
  ∃ u ∈ st.users, u.ID = uid ∧ u.ADS_ID = aid ∧ u.times = some t

/-- The campaign `(uid, aid)` has no row. -/
def Absent (st : DB) (uid aid : String) : Prop :=
  ∀ u ∈ st.users, ¬ (u.ID = uid ∧ u.ADS_ID = aid)

/-- The campaign `(uid, aid)` is selected by the round: it is in at least one job of its
batch. -/
def selectedBy (r : RoundIn) (st : DB) (uid aid : String) : Bool :=
  (roundBatch r st).1.any (fun j => j.User == uid && j.AD_ID == aid)

/-- Number of rounds of a run in which the campaign `(uid, aid)` is selected. -/
def selectedRounds (uid aid : String) : List Event → DB → Nat
  | [], _ => 0
  | .worker o :: es, st => selectedRounds uid aid es (stepEvent st (.worker o))
  | .round r :: es, st =>
    (if selectedBy r st uid aid then 1 else 0) + selectedRounds uid aid es (stepEvent st (.round r))

/-- Every stored cooldown fits in 32 bits. The only writer of the column is `/setup`, which
stores `clampCooldown(cooldown)` or NULL (index.js 168-178), so stored values lie between 300
and 86400. -/
def CooldownsStored (st : DB) : Prop :=
  ∀ s ∈ st.servers, ∀ c ∈ s.cooldown, -2147483648 ≤ c ∧ c < 2147483648

instance (st : DB) : Decidable (CooldownsStored st) := by
  unfold CooldownsStored; infer_instance

instance (st : DB) : Decidable (ServersKeyed st) := by
  unfold ServersKeyed; infer_instance

instance (st : DB) : Decidable (UsersKeyed st) := by
  unfold UsersKeyed; infer_instance

instance (st : DB) : Decidable (QueuesKeyed st) := by
  unfold QueuesKeyed; infer_instance

instance (st : DB) : Decidable (BarFree st) := by
  unfold BarFree; infer_instance

/-! ## Sample data -/

/-- A configured server. -/
def sampleServer (g : String) (cooldown latest : Option Int) : Server :=
  { ID := g, Owner := some "owner-1", Panel := none, channel := some "chan-1",
    cooldown := cooldown, latest := latest }

/-- Two configured servers, both past their cooldown at time 1000, and one campaign with a
budget of one impression. -/
def sampleDb : DB :=
  { servers := [sampleServer "g1" (some 300) (some 699), sampleServer "g2" none (some 0)]
    users := [{ ID := "u1", ADS_ID := "u1:1", times := some 1, card := "card-1" }]
    adsmeta := [{ AD_ID := "u1:1", User := "u1", ad := "hello", link := none, msg := none }]
    adsqueue := []
    paymentqueue := []
    adsSeq := 0
    paySeq := 0 }

/-- A round at time 1000 whose shuffles draw 0 every time. -/
def sampleRound : RoundIn :=
  { clk := fun _ => 1000, now := 1000, rndS := fun _ => 0, rndA := fun _ => 0 }

/-- One configured server, last served at 699 with cooldown 300, and one unlimited campaign
with content; both queues are empty. -/
def sampleDbUnlimited : DB :=
  { servers := [sampleServer "g1" (some 300) (some 699)]
    users := [{ ID := "u1", ADS_ID := "u1:1", times := none, card := "card-1" }]
    adsmeta := [{ AD_ID := "u1:1", User := "u1", ad := "hello", link := none, msg := none }]
    adsqueue := []
    paymentqueue := []
    adsSeq := 0
    paySeq := 0 }

/-- A round at time 1300 whose shuffles draw 0 every time. -/
def sampleRoundLater : RoundIn :=
  { clk := fun _ => 1300, now := 1300, rndS := fun _ => 0, rndA := fun _ => 0 }

/-- An empty database. -/
def emptyDb : DB :=
  { servers := [], users := [], adsmeta := [], adsqueue := [], paymentqueue := [],
    adsSeq := 0, paySeq := 0 }

/-! ## The worker, step by step -/

/-- Where the worker stands inside one pass of its loop, with the local variables it holds:
after `popNextPayment` (`popped`), after `payFromCard` (`charged`), after `deletePayment`
(`paid`), after the `SELECT` of line 351 (`found`), after `postAd` (`posted`). -/
inductive WorkerPc where
  | idle
  | popped (job : PayRow)
  | charged (job : PayRow) (ok : Bool)
  | paid (job : PayRow) (ok : Bool)
  | found (job : PayRow) (ok : Bool) (adsRow : Option AdsRow)
  | posted (job : PayRow) (adsRow : AdsRow)
deriving DecidableEq

/-- The worker between two steps: the database, its place in the loop, and what it has done to
the outside so far: the charge requests it made, each with whether the card was debited, and
the rows it posted. -/
structure WorkerState where
  db : DB
  pc : WorkerPc
  charged : List (PayRow × Bool)
  posted : List AdsRow
deriving DecidableEq

/-- One step of `runPaymentWorker` (index.js 327-362); `o` is what a charge request made in
this step does. -/
def workerStep (o : ChargeOutcome) (w : WorkerState) : WorkerState :=
  match w.pc with
  | .idle =>
    match popNextPayment w.db with
    | none => { w with db := cleanupSequencesIfEmpty w.db }
    | some job => { w with pc := .popped job }
  | .popped job =>
    let ok : Bool := match payFromCard o with
      | .ok _ => true
      | .error _ => false
    { w with pc := .charged job ok, charged := w.charged ++ [(job, ok)] }
  | .charged job ok => { w with db := deletePayment job.queue w.db, pc := .paid job ok }
  | .paid job ok =>
    let adsRow := oldestBy (fun a => a.queue) (w.db.adsqueue.filter (fun a => a.AD_ID == job.AD_ID))
    { w with pc := .found job ok adsRow }
  | .found _ _ none => { w with pc := .idle }
  | .found _ false (some row) => { w with db := deleteAdsQueue row.queue w.db, pc := .idle }
  | .found job true (some row) => { w with pc := .posted job row, posted := w.posted ++ [row] }
  | .posted _ row => { w with db := deleteAdsQueue row.queue w.db, pc := .idle }

/-- What happens to the worker next: it takes a step, or the process stops and is started
again. -/
inductive WorkerAction where
  | step (o : ChargeOutcome)
  | stop
deriving DecidableEq

/-- A stop and restart keeps the database and what was done to the outside, loses the local
variables, and enters the loop at its top (index.js 102). -/
def actWorker (w : WorkerState) (a : WorkerAction) : WorkerState :=
  match a with
  | .step o => workerStep o w
  | .stop => { w with pc := .idle }

/-- The worker after a sequence of steps and stops. -/
def runWorker (acts : List WorkerAction) (w : WorkerState) : WorkerState :=
  acts.foldl actWorker w

/-- The worker as it starts on a database: nothing charged, nothing posted. -/
def startWorker (db : DB) : WorkerState :=
  { db := db, pc := .idle, charged := [], posted := [] }

/-- Whether the worker is at the top of its loop. -/
def isIdle (pc : WorkerPc) : Bool :=
  match pc with
  | .idle => true
  | _ => false

/-- Steps are taken until the worker is back at the top of its loop, at most `fuel` of them. -/
def runPass (o : ChargeOutcome) : Nat → WorkerState → WorkerState
  | 0, w => w
  | fuel + 1, w =>
    if isIdle (workerStep o w).pc then workerStep o w else runPass o fuel (workerStep o w)

/-- A stop at this place loses nothing that was done to the outside: the worker is not between
a charge and `deletePayment`, nor between `postAd` and `deleteAdsQueue`. -/
def StopSafe (pc : WorkerPc) : Prop :=
  match pc with
  | .charged _ _ => False
  | .posted _ _ => False
  | _ => True

instance (pc : WorkerPc) : Decidable (StopSafe pc) := by
  unfold StopSafe; split <;> infer_instance

/-- Every stop of the run falls at a place where `StopSafe` holds. -/
def StopsSafe : List WorkerAction → WorkerState → Prop
  | [], _ => True
  | .stop :: rest, w => StopSafe w.pc ∧ StopsSafe rest (actWorker w .stop)
  | .step o :: rest, w => StopsSafe rest (actWorker w (.step o))

/-- The only charged payment row still in `paymentqueue` is the one the worker holds and
deletes in its next step, and the only posted delivery row still in `adsqueue` is the one the
worker deletes in its next step. -/
def InFlightOnly (w : WorkerState) : Prop :=
  (∀ p ∈ w.db.paymentqueue, p ∈ w.charged.map Prod.fst → ∃ ok, w.pc = .charged p ok) ∧
  (∀ a ∈ w.db.adsqueue, a ∈ w.posted → ∃ job, w.pc = .posted job a)

/-- The row the worker is about to charge is in `paymentqueue`, and the row it is about to post
is in `adsqueue`. -/
def HoldsRows (w : WorkerState) : Prop :=
  (∀ job, w.pc = .popped job → job ∈ w.db.paymentqueue) ∧
  (∀ job row, w.pc = .found job true (some row) → row ∈ w.db.adsqueue)

/-- The database after the sample round: two delivery rows and two payment rows of the one
campaign. -/
def sampleQueued : DB := runDistributionRound sampleRound sampleDb

/-- A step whose charge request, if it makes one, succeeds. -/
def stepOk : WorkerAction := .step (.response true)

/-! ## Alignment of the two queues -/

/-- A delivery row and a payment row of the same pairing: same campaign id, same advertiser id,
and the payout destination of the payment row is the owner of the server the delivery row is
for. -/
def PairedRows (st : DB) (a : AdsRow) (p : PayRow) : Prop :=
  a.AD_ID = p.AD_ID ∧ a.User = p.ID ∧
    ∃ s ∈ st.servers, s.ID = a.Server ∧ s.Owner = p.server_owner_id

/-- In both queues the rows stand in the order of their `queue` numbers, oldest first. -/
def QueuesSorted (st : DB) : Prop :=
  st.adsqueue.Pairwise (fun a b => a.queue < b.queue) ∧
  st.paymentqueue.Pairwise (fun a b => a.queue < b.queue)

/-- The two queues are aligned: equally long, and row by row of the same pairing. -/
def Aligned (st : DB) : Prop :=
  List.Forall₂ (PairedRows st) st.adsqueue st.paymentqueue

/-- One server configured through `/setup` with cooldown 300, and one campaign submitted through
the modal by user `111` at time 1 with Max Times 18014398509481984, which is 2^54. -/
def sampleBig : DB :=
  submitAd "g1" "111" 1 "hello" "https://example.org" "more" "card-1"
    (MaxTimes.integer 18014398509481984)
    (setupCommand "g1" (some "owner-1") (some "panel-1") (some "chan-1") (some 300) emptyDb)

/-- The round of a run made at time `t`, its shuffles drawing 0. -/
def roundAt (t : Int) : RoundIn :=
  { clk := fun _ => t, now := t, rndS := fun _ => 0, rndA := fun _ => 0 }

end AdsBot

namespace AdsBot

/-! ## The loop of the round -/

theorem pairStep_eq (st : DB) (ads : List UserAd) (i : Nat) (server : Server)
    (acc : List AdJob × List PayJob) :
    pairStep st ads i server acc =
      (acc.1 ++ ((pairOf st ads i server).toList.map Prod.fst),
       acc.2 ++ ((pairOf st ads i server).toList.map Prod.snd)) := by
  unfold pairStep pairOf
  cases ads[i % ads.length]? with
  | none => simp
  | some ad =>
    simp only
    split
    · simp
    · cases getAdMeta st ad.ADS_ID with
      | none => simp
      | some copy => simp

theorem pairLoop_eq (st : DB) (ads : List UserAd) (ss : List Server) :
    ∀ (i : Nat) (acc : List AdJob × List PayJob),
      pairLoop st ads i ss acc =
        (acc.1 ++ (pairsFrom st ads i ss).map Prod.fst,
         acc.2 ++ (pairsFrom st ads i ss).map Prod.snd) := by
  induction ss with
  | nil => intro i acc; simp [pairLoop, pairsFrom]
  | cons s rest ih =>
    intro i acc
    simp [pairLoop, pairsFrom, ih, pairStep_eq, List.append_assoc]

end AdsBot

namespace AdsBot

/-- The round, written over its batch. -/
theorem runDistributionRound_eq (r : RoundIn) (st : DB) :
    runDistributionRound r st =
      if (roundBatch r st).1.length = 0 then st
      else
        (jsSet ((roundBatch r st).1.map adKey)).foldl decrementKey
          ((roundBatch r st).1.foldl (fun s q => setLatest q.Server r.now s)
            (addToPaymentQueue (roundBatch r st).2 (addToAdsQueue (roundBatch r st).1 st))) := by
  unfold runDistributionRound roundBatch roundEligibles
  by_cases h1 : (st.servers.filter (fun s => serverEligible st (r.clk s.ID) s.ID)).length = 0
  · simp [h1]
  · by_cases h2 : st.users.length = 0
    · simp [h1, h2]
    · simp only [h1, h2, if_false]

theorem roundBatch_eq (r : RoundIn) (st : DB) :
    roundBatch r st =
      if (roundEligibles r st).length = 0 then ([], [])
      else if st.users.length = 0 then ([], [])
      else
        ((pairsFrom st (shuffle r.rndA st.users) 0 (shuffle r.rndS (roundEligibles r st))).map Prod.fst,
         (pairsFrom st (shuffle r.rndA st.users) 0 (shuffle r.rndS (roundEligibles r st))).map Prod.snd) := by
  unfold roundBatch
  split
  · rfl
  · split
    · rfl
    · rw [pairLoop_eq]; simp

/-! ## Frame lemmas of the table helpers -/

theorem insertAdsRow_fields (st : DB) (j : AdJob) :
    (insertAdsRow st j).servers = st.servers ∧ (insertAdsRow st j).users = st.users ∧
    (insertAdsRow st j).adsmeta = st.adsmeta ∧
    (insertAdsRow st j).paymentqueue = st.paymentqueue ∧
    (insertAdsRow st j).paySeq = st.paySeq := by
  simp [insertAdsRow]

theorem addToAdsQueue_fields (rows : List AdJob) :
    ∀ st : DB, (addToAdsQueue rows st).servers = st.servers ∧
      (addToAdsQueue rows st).users = st.users ∧
      (addToAdsQueue rows st).adsmeta = st.adsmeta ∧
      (addToAdsQueue rows st).paymentqueue = st.paymentqueue ∧
      (addToAdsQueue rows st).paySeq = st.paySeq := by
  induction rows with
  | nil => intro st; simp [addToAdsQueue]
  | cons j rest ih =>
    intro st
    have h := ih (insertAdsRow st j)
    have h2 := insertAdsRow_fields st j
    simp only [addToAdsQueue, List.foldl_cons] at h ⊢
    refine ⟨h.1.trans h2.1, h.2.1.trans h2.2.1, h.2.2.1.trans h2.2.2.1,
      h.2.2.2.1.trans h2.2.2.2.1, h.2.2.2.2.trans h2.2.2.2.2⟩

theorem addToAdsQueue_adsqueue (rows : List AdJob) :
    ∀ st : DB, ∃ R : List AdsRow, (addToAdsQueue rows st).adsqueue = st.adsqueue ++ R ∧
      R.map AdsRow.job = rows := by
  induction rows with
  | nil => intro st; exact ⟨[], by simp [addToAdsQueue]⟩
  | cons j rest ih =>
    intro st
    obtain ⟨R, hR, hmap⟩ := ih (insertAdsRow st j)
    simp only [addToAdsQueue, List.foldl_cons] at hR ⊢
    refine ⟨⟨nextRowid st.adsSeq (st.adsqueue.map (fun x => x.queue)), j.AD_ID, j.User, j.ad,
      j.link, j.msg, j.Server⟩ :: R, ?_, ?_⟩
    · rw [hR]; simp only [insertAdsRow, List.append_assoc, List.singleton_append]
    · simp [hmap, AdsRow.job]

theorem insertPayRow_fields (st : DB) (j : PayJob) :
    (insertPayRow st j).servers = st.servers ∧ (insertPayRow st j).users = st.users ∧
    (insertPayRow st j).adsmeta = st.adsmeta ∧
    (insertPayRow st j).adsqueue = st.adsqueue ∧
    (insertPayRow st j).adsSeq = st.adsSeq := by
  simp [insertPayRow]

theorem addToPaymentQueue_fields (rows : List PayJob) :
    ∀ st : DB, (addToPaymentQueue rows st).servers = st.servers ∧
      (addToPaymentQueue rows st).users = st.users ∧
      (addToPaymentQueue rows st).adsmeta = st.adsmeta ∧
      (addToPaymentQueue rows st).adsqueue = st.adsqueue ∧
      (addToPaymentQueue rows st).adsSeq = st.adsSeq := by
  induction rows with
  | nil => intro st; simp [addToPaymentQueue]
  | cons j rest ih =>
    intro st
    have h := ih (insertPayRow st j)
    have h2 := insertPayRow_fields st j
    simp only [addToPaymentQueue, List.foldl_cons] at h ⊢
    refine ⟨h.1.trans h2.1, h.2.1.trans h2.2.1, h.2.2.1.trans h2.2.2.1,
      h.2.2.2.1.trans h2.2.2.2.1, h.2.2.2.2.trans h2.2.2.2.2⟩

theorem addToPaymentQueue_paymentqueue (rows : List PayJob) :
    ∀ st : DB, ∃ R : List PayRow, (addToPaymentQueue rows st).paymentqueue = st.paymentqueue ++ R ∧
      R.map PayRow.job = rows := by
  induction rows with
  | nil => intro st; exact ⟨[], by simp [addToPaymentQueue]⟩
  | cons j rest ih =>
    intro st
    obtain ⟨R, hR, hmap⟩ := ih (insertPayRow st j)
    simp only [addToPaymentQueue, List.foldl_cons] at hR ⊢
    refine ⟨⟨nextRowid st.paySeq (st.paymentqueue.map (fun x => x.queue)), j.AD_ID, none, j.ID,
      j.card, j.server_owner_id⟩ :: R, ?_, ?_⟩
    · rw [hR]; simp only [insertPayRow, List.append_assoc, List.singleton_append]
    · simp [hmap, PayRow.job]

theorem setLatest_fields (g : String) (ts : Int) (st : DB) :
    (setLatest g ts st).users = st.users ∧ (setLatest g ts st).adsmeta = st.adsmeta ∧
    (setLatest g ts st).adsqueue = st.adsqueue ∧
    (setLatest g ts st).paymentqueue = st.paymentqueue ∧
    (setLatest g ts st).adsSeq = st.adsSeq ∧ (setLatest g ts st).paySeq = st.paySeq := by
  simp [setLatest]

theorem foldl_setLatest_fields (ts : Int) (jobs : List AdJob) :
    ∀ st : DB,
      (jobs.foldl (fun s q => setLatest q.Server ts s) st).users = st.users ∧
      (jobs.foldl (fun s q => setLatest q.Server ts s) st).adsmeta = st.adsmeta ∧
      (jobs.foldl (fun s q => setLatest q.Server ts s) st).adsqueue = st.adsqueue ∧
      (jobs.foldl (fun s q => setLatest q.Server ts s) st).paymentqueue = st.paymentqueue ∧
      (jobs.foldl (fun s q => setLatest q.Server ts s) st).adsSeq = st.adsSeq ∧
      (jobs.foldl (fun s q => setLatest q.Server ts s) st).paySeq = st.paySeq := by
  induction jobs with
  | nil => intro st; simp
  | cons j rest ih =>
    intro st
    have h := ih (setLatest j.Server ts st)
    have h2 := setLatest_fields j.Server ts st
    simp only [List.foldl_cons]
    refine ⟨h.1.trans h2.1, h.2.1.trans h2.2.1, h.2.2.1.trans h2.2.2.1,
      h.2.2.2.1.trans h2.2.2.2.1, h.2.2.2.2.1.trans h2.2.2.2.2.1,
      h.2.2.2.2.2.trans h2.2.2.2.2.2⟩

theorem decrementTimes_fields (u a : String) (st : DB) :
    (decrementTimes u a st).servers = st.servers ∧ (decrementTimes u a st).adsmeta = st.adsmeta ∧
    (decrementTimes u a st).adsqueue = st.adsqueue ∧
    (decrementTimes u a st).paymentqueue = st.paymentqueue ∧
    (decrementTimes u a st).adsSeq = st.adsSeq ∧ (decrementTimes u a st).paySeq = st.paySeq := by
  unfold decrementTimes
  split
  · simp
  · split
    · simp
    · simp only
      split <;> simp

theorem foldl_decrementKey_fields (keys : List String) :
    ∀ st : DB,
      (keys.foldl decrementKey st).servers = st.servers ∧
      (keys.foldl decrementKey st).adsmeta = st.adsmeta ∧
      (keys.foldl decrementKey st).adsqueue = st.adsqueue ∧
      (keys.foldl decrementKey st).paymentqueue = st.paymentqueue ∧
      (keys.foldl decrementKey st).adsSeq = st.adsSeq ∧
      (keys.foldl decrementKey st).paySeq = st.paySeq := by
  induction keys with
  | nil => intro st; simp
  | cons k rest ih =>
    intro st
    have h := ih (decrementKey st k)
    have h2 := decrementTimes_fields ((jsSplit k).getD 0 "") ((jsSplit k).getD 1 "") st
    simp only [List.foldl_cons]
    simp only [decrementKey] at h ⊢
    refine ⟨h.1.trans h2.1, h.2.1.trans h2.2.1, h.2.2.1.trans h2.2.2.1,
      h.2.2.2.1.trans h2.2.2.2.1, h.2.2.2.2.1.trans h2.2.2.2.2.1,
      h.2.2.2.2.2.trans h2.2.2.2.2.2⟩

end AdsBot

namespace AdsBot

/-! ## What a round appends -/

theorem roundBatch_pairs (r : RoundIn) (st : DB) :
    roundBatch r st = ((roundPairs r st).map Prod.fst, (roundPairs r st).map Prod.snd) := by
  rw [roundBatch_eq]
  unfold roundPairs
  split
  · rfl
  · split <;> rfl

theorem pairOf_some {st : DB} {ads : List UserAd} {i : Nat} {server : Server}
    {x : AdJob × PayJob} (h : pairOf st ads i server = some x) :
    ∃ ad copy, ads[i % ads.length]? = some ad ∧
      (∀ t, ad.times = some t → 0 < t) ∧ getAdMeta st ad.ADS_ID = some copy ∧
      x.1 = { AD_ID := ad.ADS_ID, User := ad.ID, ad := copy.ad, link := copy.link,
              msg := copy.msg, Server := server.ID } ∧
      x.2 = { AD_ID := ad.ADS_ID, ID := ad.ID, card := ad.card,
              server_owner_id := server.Owner } := by
  unfold pairOf at h
  cases hq : ads[i % ads.length]? with
  | none => simp [hq] at h
  | some ad =>
    simp only [hq] at h
    split at h
    · simp at h
    · rename_i hskip
      cases hm : getAdMeta st ad.ADS_ID with
      | none => simp [hm] at h
      | some copy =>
        simp only [hm, Option.some.injEq] at h
        refine ⟨ad, copy, rfl, ?_, hm, ?_, ?_⟩
        · intro t ht
          simp only [ht, decide_eq_true_eq, not_le] at hskip
          exact hskip
        · rw [← h]
        · rw [← h]

theorem mem_pairsFrom {st : DB} {ads : List UserAd} {x : AdJob × PayJob} :
    ∀ (ss : List Server) (i : Nat), x ∈ pairsFrom st ads i ss →
      ∃ k s, ss[k]? = some s ∧ pairOf st ads (i + k) s = some x := by
  intro ss
  induction ss with
  | nil => intro i h; simp [pairsFrom] at h
  | cons s rest ih =>
    intro i h
    simp only [pairsFrom, List.mem_append, Option.mem_toList, Option.mem_def] at h
    rcases h with h | h
    · exact ⟨0, s, by simp, by simpa using h⟩
    · obtain ⟨k, s2, hk, hp⟩ := ih (i + 1) h
      refine ⟨k + 1, s2, by simpa using hk, ?_⟩
      have : i + (k + 1) = i + 1 + k := by omega
      rw [this]; exact hp

theorem mem_roundPairs_ids {r : RoundIn} {st : DB} {x : AdJob × PayJob}
    (h : x ∈ roundPairs r st) : x.1.AD_ID = x.2.AD_ID ∧ x.1.User = x.2.ID := by
  unfold roundPairs at h
  split at h
  · simp at h
  · split at h
    · simp at h
    · obtain ⟨k, s, _, hp⟩ := mem_pairsFrom _ _ h
      obtain ⟨ad, copy, _, _, _, h1, h2⟩ := pairOf_some hp
      rw [h1, h2]
      exact ⟨rfl, rfl⟩

theorem round_queues (r : RoundIn) (st : DB) :
    (runDistributionRound r st).adsqueue = st.adsqueue ++ appendedAds r st ∧
    (appendedAds r st).map AdsRow.job = (roundBatch r st).1 ∧
    (runDistributionRound r st).paymentqueue = st.paymentqueue ++ appendedPay r st ∧
    (appendedPay r st).map PayRow.job = (roundBatch r st).2 := by
  unfold appendedAds appendedPay
  rw [runDistributionRound_eq]
  by_cases h0 : (roundBatch r st).1.length = 0
  · have h1 : (roundBatch r st).1 = [] := List.length_eq_zero.mp h0
    have h2 : (roundBatch r st).2 = [] := by
      rw [roundBatch_pairs] at h1 ⊢
      simp only [List.map_eq_nil_iff] at h1 ⊢
      exact h1
    simp [h0, h1, h2]
  · simp only [h0, if_false]
    obtain ⟨RA, hRA, hmapA⟩ := addToAdsQueue_adsqueue (roundBatch r st).1 st
    obtain ⟨RP, hRP, hmapP⟩ :=
      addToPaymentQueue_paymentqueue (roundBatch r st).2 (addToAdsQueue (roundBatch r st).1 st)
    have hd := foldl_decrementKey_fields (jsSet ((roundBatch r st).1.map adKey))
      ((roundBatch r st).1.foldl (fun s q => setLatest q.Server r.now s)
        (addToPaymentQueue (roundBatch r st).2 (addToAdsQueue (roundBatch r st).1 st)))
    have hs := foldl_setLatest_fields r.now (roundBatch r st).1
      (addToPaymentQueue (roundBatch r st).2 (addToAdsQueue (roundBatch r st).1 st))
    have hp := addToPaymentQueue_fields (roundBatch r st).2 (addToAdsQueue (roundBatch r st).1 st)
    have ha := addToAdsQueue_fields (roundBatch r st).1 st
    have e1 : ((jsSet ((roundBatch r st).1.map adKey)).foldl decrementKey
      ((roundBatch r st).1.foldl (fun s q => setLatest q.Server r.now s)
        (addToPaymentQueue (roundBatch r st).2 (addToAdsQueue (roundBatch r st).1 st)))).adsqueue
        = st.adsqueue ++ RA := by
      rw [hd.2.2.1, hs.2.2.1, hp.2.2.2.1, hRA]
    have e2 : ((jsSet ((roundBatch r st).1.map adKey)).foldl decrementKey
      ((roundBatch r st).1.foldl (fun s q => setLatest q.Server r.now s)
        (addToPaymentQueue (roundBatch r st).2 (addToAdsQueue (roundBatch r st).1 st)))).paymentqueue
        = st.paymentqueue ++ RP := by
      rw [hd.2.2.2.1, hs.2.2.2.1, hRP, ha.2.2.2.1]
    rw [e1, e2]
    simp [hmapA, hmapP]

/-- C1: whatever the servers, campaigns, shuffle draws and content table, the rows a round
appends to `adsqueue` and to `paymentqueue` are equally many, and at every position `k` the
appended delivery row and the appended payment row carry the same campaign id and the same
advertiser id (`User` of the one is `ID` of the other). -/
theorem round_jobs_paired (r : RoundIn) (st : DB) :
    (runDistributionRound r st).adsqueue = st.adsqueue ++ appendedAds r st ∧
    (runDistributionRound r st).paymentqueue = st.paymentqueue ++ appendedPay r st ∧
    (appendedAds r st).length = (appendedPay r st).length ∧
    ∀ k : Nat, ((appendedAds r st)[k]?).map (fun a => (a.AD_ID, a.User)) =
      ((appendedPay r st)[k]?).map (fun p => (p.AD_ID, p.ID)) := by
  obtain ⟨h1, h2, h3, h4⟩ := round_queues r st
  have key : (appendedAds r st).map (fun a => (a.AD_ID, a.User)) =
      (appendedPay r st).map (fun p => (p.AD_ID, p.ID)) := by
    have e1 : (appendedAds r st).map (fun a => (a.AD_ID, a.User)) =
        ((appendedAds r st).map AdsRow.job).map (fun j => (j.AD_ID, j.User)) := by
      simp [AdsRow.job]
    have e2 : (appendedPay r st).map (fun p => (p.AD_ID, p.ID)) =
        ((appendedPay r st).map PayRow.job).map (fun j => (j.AD_ID, j.ID)) := by
      simp [PayRow.job]
    rw [e1, e2, h2, h4, roundBatch_pairs]
    simp only [List.map_map]
    apply List.map_congr_left
    intro x hx
    have := mem_roundPairs_ids hx
    simp [this.1, this.2]
  refine ⟨h1, h3, ?_, ?_⟩
  · have := congrArg List.length key
    simpa using this
  · intro k
    have := congrArg (fun l => l[k]?) key
    simpa using this

end AdsBot

namespace AdsBot

/-! ## Eligibility -/

theorem toInt32_of_fits (x : Int) (h1 : -2147483648 ≤ x) (h2 : x < 2147483648) :
    toInt32 x = x := by
  unfold toInt32; omega

theorem clampCooldown_of_fits (x : Int) (h1 : -2147483648 ≤ x) (h2 : x < 2147483648) :
    clampCooldown x = clamp x 300 86400 := by
  unfold clampCooldown clamp
  rw [toInt32_of_fits x h1 h2]
  omega

theorem clampCooldown_orDefault (c : Option Int)
    (h : ∀ x ∈ c, -2147483648 ≤ x ∧ x < 2147483648) :
    clampCooldown (orDefault c 300) = clamp (c.getD 300) 300 86400 := by
  cases c with
  | none => simp [orDefault, clampCooldown, clamp, toInt32]
  | some x =>
    obtain ⟨h1, h2⟩ := h x rfl
    simp only [orDefault, Option.getD_some]
    split
    · rename_i hx; subst hx; simp [clampCooldown, clamp, toInt32]
    · exact clampCooldown_of_fits x h1 h2

theorem orDefault_zero (v : Option Int) : orDefault v 0 = v.getD 0 := by
  cases v with
  | none => rfl
  | some x =>
    simp only [orDefault, Option.getD_some]
    split
    · rename_i h; exact h.symm
    · rfl

theorem getServer_mem {st : DB} {g : String} {s : Server} (h : getServer st g = some s) :
    s ∈ st.servers ∧ s.ID = g := by
  unfold getServer at h
  exact ⟨List.mem_of_find?_eq_some h, by simpa using List.find?_some h⟩

/-- C2: `serverEligible` answers true exactly when the recipient exists, has a payout
destination (`Owner`) and a delivery channel configured (neither NULL nor the empty text), and
`now - lastDeliveryAt >= clamp(cooldown, 300, 86400)`, a missing `latest` counting as 0 and a
missing `cooldown` as 300; in every other case, a missing field included, the answer is false
and never an error. Stored cooldowns are those `/setup` writes (`CooldownsStored`). -/
theorem serverEligible_iff (st : DB) (now : Int) (g : String) (hcd : CooldownsStored st) :
    serverEligible st now g = true ↔
      ∃ s, getServer st g = some s ∧ truthy s.Owner = true ∧ truthy s.channel = true ∧
        now - s.latest.getD 0 ≥ clamp (s.cooldown.getD 300) 300 86400 := by
  unfold serverEligible
  cases hs : getServer st g with
  | none => simp
  | some s =>
    have hfit := hcd s (getServer_mem hs).1
    simp only [Option.some.injEq, exists_eq_left']
    rw [clampCooldown_orDefault s.cooldown hfit, orDefault_zero]
    cases h1 : truthy s.channel <;> cases h2 : truthy s.Owner <;> simp

/-- Witness of C2 on the sample data: server `g1` was served at 699 with cooldown 300 and is
eligible at 1000. -/
theorem serverEligible_iff_witness :
    CooldownsStored sampleDb ∧ serverEligible sampleDb 1000 "g1" = true ∧
    (serverEligible sampleDb 1000 "g1" = true ↔
      ∃ s, getServer sampleDb "g1" = some s ∧ truthy s.Owner = true ∧ truthy s.channel = true ∧
        1000 - s.latest.getD 0 ≥ clamp (s.cooldown.getD 300) 300 86400) :=
  ⟨by decide, by decide, serverEligible_iff sampleDb 1000 "g1" (by decide)⟩

end AdsBot

namespace AdsBot

/-! ## The shuffle is a rearrangement -/

theorem swapAt_perm {α : Type} (a : List α) (i j : Nat) : (swapAt a i j).Perm a := by
  classical
  unfold swapAt
  cases hi : a[i]? with
  | none => simp
  | some x =>
    cases hj : a[j]? with
    | none => simp
    | some y =>
      simp only
      obtain ⟨hil, hix⟩ := List.getElem?_eq_some.mp hi
      obtain ⟨hjl, hjy⟩ := List.getElem?_eq_some.mp hj
      rw [List.perm_iff_count]
      intro b
      have hjl2 : j < (a.set i y).length := by simpa using hjl
      rw [List.count_set _ _ _ _ hjl2, List.count_set _ _ _ _ hil]
      have e1 : (a.set i y)[j] = y := by
        rw [List.getElem_set]
        split
        · rfl
        · exact hjy
      rw [e1, hix]
      have hx : (if (x == b) = true then 1 else 0) ≤ List.count b a := by
        split
        · rename_i h
          have hb : x = b := by simpa using h
          have : b ∈ a := by rw [← hb, ← hix]; exact List.getElem_mem hil
          exact List.count_pos_iff.mpr this
        · exact Nat.zero_le _
      omega

theorem shuffleLoop_perm {α : Type} (rnd : Nat → Nat) :
    ∀ (i : Nat) (a : List α), (shuffleLoop rnd i a).Perm a := by
  intro i
  induction i with
  | zero => intro a; exact List.Perm.refl _
  | succ n ih =>
    intro a
    simp only [shuffleLoop]
    exact (ih _).trans (swapAt_perm a _ _)

theorem shuffle_perm {α : Type} (rnd : Nat → Nat) (arr : List α) :
    (shuffle rnd arr).Perm arr :=
  shuffleLoop_perm rnd _ arr

theorem shuffle_length {α : Type} (rnd : Nat → Nat) (arr : List α) :
    (shuffle rnd arr).length = arr.length :=
  (shuffle_perm rnd arr).length_eq

theorem mem_shuffle {α : Type} (rnd : Nat → Nat) (arr : List α) (x : α) :
    x ∈ shuffle rnd arr ↔ x ∈ arr :=
  (shuffle_perm rnd arr).mem_iff

end AdsBot

namespace AdsBot

/-! ## The keys of line 313 -/

theorem splitBar_of_not_mem (l : List Char) (h : '|' ∉ l) : splitBar l = [l] := by
  induction l with
  | nil => rfl
  | cons c cs ih =>
    simp only [List.mem_cons, not_or] at h
    have hc : c ≠ '|' := fun e => h.1 e.symm
    simp [splitBar, hc, ih h.2]

theorem splitBar_append (a b : List Char) (h : '|' ∉ a) :
    splitBar (a ++ '|' :: b) = a :: splitBar b := by
  induction a with
  | nil => simp [splitBar]
  | cons c cs ih =>
    simp only [List.mem_cons, not_or] at h
    have hc : c ≠ '|' := fun e => h.1 e.symm
    simp [splitBar, hc, ih h.2]

theorem key_data (u a : String) : (u ++ "|" ++ a).data = u.data ++ '|' :: a.data := by
  simp

theorem jsSplit_key (u a : String) (hu : '|' ∉ u.data) (ha : '|' ∉ a.data) :
    jsSplit (u ++ "|" ++ a) = [u, a] := by
  unfold jsSplit
  rw [key_data, splitBar_append _ _ hu, splitBar_of_not_mem _ ha]
  rfl

theorem key_inj {u a v b : String} (hu : '|' ∉ u.data) (hv : '|' ∉ v.data)
    (h : u ++ "|" ++ a = v ++ "|" ++ b) : u = v ∧ a = b := by
  have hd : u.data ++ '|' :: a.data = v.data ++ '|' :: b.data := by
    rw [← key_data, ← key_data, h]
  have hs := congrArg splitBar hd
  rw [splitBar_append _ _ hu, splitBar_append _ _ hv] at hs
  have huv : u.data = v.data := (List.cons.inj hs).1
  have e1 : u = v := String.ext huv
  subst e1
  have hab : a.data = b.data := by
    have := List.append_cancel_left hd
    exact (List.cons.inj this).2
  exact ⟨rfl, String.ext hab⟩

theorem decrementKey_key (st : DB) (u a : String) (hu : '|' ∉ u.data) (ha : '|' ∉ a.data) :
    decrementKey st (u ++ "|" ++ a) = decrementTimes u a st := by
  unfold decrementKey
  rw [jsSplit_key u a hu ha]
  rfl

theorem mem_jsSet (l : List String) (x : String) : x ∈ jsSet l ↔ x ∈ l := by
  induction l with
  | nil => simp [jsSet]
  | cons y ys ih =>
    simp only [jsSet, List.mem_cons, List.mem_filter, ih]
    constructor
    · rintro (h | ⟨h, _⟩)
      · exact Or.inl h
      · exact Or.inr h
    · intro h
      by_cases hxy : x = y
      · exact Or.inl hxy
      · rcases h with h | h
        · exact Or.inl h
        · exact Or.inr ⟨h, by simpa using hxy⟩

theorem nodup_jsSet (l : List String) : (jsSet l).Nodup := by
  induction l with
  | nil => simp [jsSet]
  | cons y ys ih =>
    simp only [jsSet, List.nodup_cons, List.mem_filter]
    refine ⟨?_, ih.filter _⟩
    rintro ⟨_, h⟩
    simp at h

end AdsBot

namespace AdsBot

/-! ## Where the jobs of a round come from -/

theorem mem_roundPairs {r : RoundIn} {st : DB} {x : AdJob × PayJob} (h : x ∈ roundPairs r st) :
    ∃ k s ad copy, (shuffle r.rndS (roundEligibles r st))[k]? = some s ∧
      (shuffle r.rndA st.users)[k % (shuffle r.rndA st.users).length]? = some ad ∧
      (∀ t, ad.times = some t → 0 < t) ∧ getAdMeta st ad.ADS_ID = some copy ∧
      x.1 = { AD_ID := ad.ADS_ID, User := ad.ID, ad := copy.ad, link := copy.link,
              msg := copy.msg, Server := s.ID } ∧
      x.2 = { AD_ID := ad.ADS_ID, ID := ad.ID, card := ad.card, server_owner_id := s.Owner } := by
  unfold roundPairs at h
  split at h
  · simp at h
  · split at h
    · simp at h
    · obtain ⟨k, s, hk, hp⟩ := mem_pairsFrom _ _ h
      obtain ⟨ad, copy, h1, h2, h3, h4, h5⟩ := pairOf_some hp
      rw [Nat.zero_add] at h1
      exact ⟨k, s, ad, copy, hk, h1, h2, h3, h4, h5⟩

theorem mem_roundBatch_ads {r : RoundIn} {st : DB} {j : AdJob} (h : j ∈ (roundBatch r st).1) :
    ∃ s ∈ roundEligibles r st, ∃ ad ∈ st.users, (∀ t, ad.times = some t → 0 < t) ∧
      j.User = ad.ID ∧ j.AD_ID = ad.ADS_ID ∧ j.Server = s.ID := by
  rw [roundBatch_pairs] at h
  simp only [List.mem_map] at h
  obtain ⟨x, hx, rfl⟩ := h
  obtain ⟨k, s, ad, copy, hs, had, hpos, _, h1, _⟩ := mem_roundPairs hx
  refine ⟨s, ?_, ad, ?_, hpos, ?_, ?_, ?_⟩
  · exact (mem_shuffle _ _ _).mp (List.getElem?_mem hs)
  · exact (mem_shuffle _ _ _).mp (List.getElem?_mem had)
  · rw [h1]
  · rw [h1]
  · rw [h1]

/-! ## `decrementTimes` on a keyed table -/

theorem users_key_unique {st : DB} (hk : UsersKeyed st) {u v : UserAd} (hu : u ∈ st.users)
    (hv : v ∈ st.users) (h1 : u.ID = v.ID) (h2 : u.ADS_ID = v.ADS_ID) : u = v :=
  List.inj_on_of_nodup_map hk hu hv (by simp [h1, h2])

theorem decRow_ids {u v : UserAd} (h : decRow u = some v) : v.ID = u.ID ∧ v.ADS_ID = u.ADS_ID := by
  unfold decRow at h
  split at h
  · simp only [Option.some.injEq] at h; subst h; exact ⟨rfl, rfl⟩
  · split at h
    · simp at h
    · simp only [Option.some.injEq] at h; subst h; exact ⟨rfl, rfl⟩

theorem filterMap_self {α : Type} (f : α → Option α) (l : List α)
    (h : ∀ x ∈ l, f x = some x) : l.filterMap f = l := by
  induction l with
  | nil => rfl
  | cons x xs ih =>
    rw [List.filterMap_cons, h x (List.mem_cons_self _ _)]
    simp only
    rw [ih (fun y hy => h y (List.mem_cons_of_mem _ hy))]

theorem filterMap_pointwise {α β : Type} (f g : α → Option β) (l : List α)
    (h : ∀ x ∈ l, f x = g x) : l.filterMap f = l.filterMap g := by
  induction l with
  | nil => rfl
  | cons x xs ih =>
    rw [List.filterMap_cons, List.filterMap_cons, h x (List.mem_cons_self _ _),
      ih (fun y hy => h y (List.mem_cons_of_mem _ hy))]

theorem filter_as_filterMap {α : Type} (p : α → Bool) (l : List α) :
    l.filter p = l.filterMap (fun x => if p x then some x else none) := by
  induction l with
  | nil => rfl
  | cons x xs ih =>
    rw [List.filterMap_cons, List.filter_cons]
    cases p x <;> simp [ih]

theorem map_as_filterMap {α β : Type} (f : α → β) (l : List α) :
    l.map f = l.filterMap (fun x => some (f x)) := by
  induction l with
  | nil => rfl
  | cons x xs ih => rw [List.filterMap_cons, List.map_cons]; simp [ih]

theorem decrementTimes_users (uid aid : String) (st : DB) (hk : UsersKeyed st) :
    (decrementTimes uid aid st).users =
      st.users.filterMap (fun u => if u.ID = uid ∧ u.ADS_ID = aid then decRow u else some u) := by
  unfold decrementTimes
  cases hf : st.users.find? (fun u => u.ID == uid && u.ADS_ID == aid) with
  | none =>
    simp only
    rw [filterMap_self]
    intro x hx
    have := List.find?_eq_none.mp hf x hx
    simp only [Bool.and_eq_true, beq_iff_eq] at this
    simp [this]
  | some row =>
    have hmem : row ∈ st.users := List.mem_of_find?_eq_some hf
    have hmatch : row.ID = uid ∧ row.ADS_ID = aid := by
      simpa using List.find?_some hf
    have huniq : ∀ x ∈ st.users, x.ID = uid ∧ x.ADS_ID = aid → x = row := by
      intro x hx hxm
      exact users_key_unique hk hx hmem (hxm.1.trans hmatch.1.symm) (hxm.2.trans hmatch.2.symm)
    simp only
    cases ht : row.times with
    | none =>
      simp only
      rw [filterMap_self]
      intro x hx
      by_cases hxm : x.ID = uid ∧ x.ADS_ID = aid
      · rw [if_pos hxm, huniq x hx hxm]
        simp [decRow, ht]
      · rw [if_neg hxm]
    | some t =>
      simp only
      by_cases hle : jsSub t 1 ≤ 0
      · rw [if_pos hle]
        simp only
        rw [filter_as_filterMap]
        apply filterMap_pointwise
        intro x hx
        by_cases hxm : x.ID = uid ∧ x.ADS_ID = aid
        · rw [if_pos hxm, huniq x hx hxm]
          simp [decRow, ht, hle, hmatch.1, hmatch.2]
        · rw [if_neg hxm]
          have : (x.ID == uid && x.ADS_ID == aid) = false := by
            simpa using hxm
          simp [this]
      · rw [if_neg hle]
        simp only
        rw [map_as_filterMap]
        apply filterMap_pointwise
        intro x hx
        by_cases hxm : x.ID = uid ∧ x.ADS_ID = aid
        · rw [if_pos hxm, huniq x hx hxm]
          simp [decRow, ht, hle, hmatch.1, hmatch.2]
        · rw [if_neg hxm]
          have : (x.ID == uid && x.ADS_ID == aid) = false := by
            simpa using hxm
          simp [this]

end AdsBot

namespace AdsBot

/-! ## The decrements of a round -/

theorem filterMap_keys_sublist {α β : Type} (key : α → β) (f : α → Option α)
    (hf : ∀ x y, f x = some y → key y = key x) (l : List α) :
    ((l.filterMap f).map key).Sublist (l.map key) := by
  induction l with
  | nil => simp
  | cons x xs ih =>
    rw [List.filterMap_cons]
    cases hx : f x with
    | none => simp only [List.map_cons]; exact ih.cons _
    | some y =>
      simp only [List.map_cons]
      rw [hf x y hx]
      exact ih.cons₂ _

theorem decrementTimes_keyed (uid aid : String) (st : DB) (hk : UsersKeyed st) :
    UsersKeyed (decrementTimes uid aid st) := by
  unfold UsersKeyed
  rw [decrementTimes_users uid aid st hk]
  apply List.Nodup.sublist _ hk
  apply filterMap_keys_sublist
  intro x y h
  split at h
  · have := decRow_ids h; simp [this.1, this.2]
  · simp only [Option.some.injEq] at h; rw [h]

theorem decrementTimes_barFree (uid aid : String) (st : DB) (hk : UsersKeyed st)
    (hb : BarFree st) : BarFree (decrementTimes uid aid st) := by
  intro y hy
  rw [decrementTimes_users uid aid st hk, List.mem_filterMap] at hy
  obtain ⟨x, hx, hxy⟩ := hy
  split at hxy
  · have := decRow_ids hxy
    rw [this.1, this.2]; exact hb x hx
  · simp only [Option.some.injEq] at hxy; rw [← hxy]; exact hb x hx

theorem foldl_decrementKey_users (keys : List String) :
    ∀ st : DB, UsersKeyed st → BarFree st → keys.Nodup →
      (∀ k ∈ keys, ∃ u a : String, k = u ++ "|" ++ a ∧ '|' ∉ u.data ∧ '|' ∉ a.data) →
      (keys.foldl decrementKey st).users =
        st.users.filterMap (fun u => if userKey u ∈ keys then decRow u else some u) := by
  induction keys with
  | nil =>
    intro st _ _ _ _
    simp only [List.foldl_nil, List.not_mem_nil, if_false]
    exact (filterMap_self _ _ (fun _ _ => rfl)).symm
  | cons k ks ih =>
    intro st hk hb hnd hkeys
    obtain ⟨uid, aid, rfl, hu, ha⟩ := hkeys _ (List.mem_cons_self _ _)
    have hnd2 := List.nodup_cons.mp hnd
    rw [List.foldl_cons, decrementKey_key st uid aid hu ha]
    rw [ih _ (decrementTimes_keyed uid aid st hk) (decrementTimes_barFree uid aid st hk hb) hnd2.2
      (fun k hk2 => hkeys k (List.mem_cons_of_mem _ hk2))]
    rw [decrementTimes_users uid aid st hk, List.filterMap_filterMap]
    apply filterMap_pointwise
    intro x hx
    by_cases hxm : x.ID = uid ∧ x.ADS_ID = aid
    · have hkey : userKey x = uid ++ "|" ++ aid := by
        unfold userKey; rw [hxm.1, hxm.2]
      rw [if_pos hxm, if_pos (by rw [hkey]; exact List.mem_cons_self _ _)]
      cases hd : decRow x with
      | none => rfl
      | some v =>
        have hv := decRow_ids hd
        have hkv : userKey v = uid ++ "|" ++ aid := by
          unfold userKey; rw [hv.1, hv.2, hxm.1, hxm.2]
        simp only [Option.some_bind]
        rw [if_neg (by rw [hkv]; exact hnd2.1)]
    · rw [if_neg hxm]
      simp only [Option.some_bind]
      have hne : userKey x ≠ uid ++ "|" ++ aid := by
        intro e
        exact hxm (key_inj (hb x hx).1 hu e)
      by_cases hin : userKey x ∈ ks
      · rw [if_pos hin, if_pos (List.mem_cons_of_mem _ hin)]
      · rw [if_neg hin, if_neg]
        simp only [List.mem_cons, not_or]
        exact ⟨hne, hin⟩

theorem round_users_code (r : RoundIn) (st : DB) (hk : UsersKeyed st) (hb : BarFree st) :
    (runDistributionRound r st).users =
      st.users.filterMap
        (fun u => if selectedIn (roundBatch r st).1 u = true then decRow u else some u) := by
  have hsel : ∀ u ∈ st.users, (userKey u ∈ jsSet ((roundBatch r st).1.map adKey) ↔
      selectedIn (roundBatch r st).1 u = true) := by
    intro u hu
    rw [mem_jsSet]
    simp only [List.mem_map, selectedIn, List.any_eq_true, Bool.and_eq_true, beq_iff_eq]
    constructor
    · rintro ⟨j, hj, hkey⟩
      obtain ⟨_, _, ad, had, _, h1, _, _⟩ := mem_roundBatch_ads hj
      have hjb : '|' ∉ j.User.data := by rw [h1]; exact (hb ad had).1
      exact ⟨j, hj, key_inj hjb (hb u hu).1 hkey⟩
    · rintro ⟨j, hj, h1, h2⟩
      exact ⟨j, hj, by unfold adKey userKey; rw [h1, h2]⟩
  rw [runDistributionRound_eq]
  by_cases h0 : (roundBatch r st).1.length = 0
  · rw [if_pos h0]
    have h1 : (roundBatch r st).1 = [] := List.length_eq_zero.mp h0
    rw [h1]
    exact (filterMap_self _ _ (fun _ _ => by simp [selectedIn])).symm
  · rw [if_neg h0]
    have hs := foldl_setLatest_fields r.now (roundBatch r st).1
      (addToPaymentQueue (roundBatch r st).2 (addToAdsQueue (roundBatch r st).1 st))
    have hp := addToPaymentQueue_fields (roundBatch r st).2 (addToAdsQueue (roundBatch r st).1 st)
    have ha := addToAdsQueue_fields (roundBatch r st).1 st
    have husers : ((roundBatch r st).1.foldl (fun s q => setLatest q.Server r.now s)
        (addToPaymentQueue (roundBatch r st).2 (addToAdsQueue (roundBatch r st).1 st))).users
        = st.users := by
      rw [hs.1, hp.2.1, ha.2.1]
    rw [foldl_decrementKey_users _ _ (by unfold UsersKeyed; rw [husers]; exact hk)
      (by unfold BarFree; rw [husers]; exact hb) (nodup_jsSet _)]
    · rw [husers]
      apply filterMap_pointwise
      intro u hu
      by_cases hsu : selectedIn (roundBatch r st).1 u = true
      · rw [if_pos hsu, if_pos ((hsel u hu).mpr hsu)]
      · rw [if_neg hsu, if_neg (fun h => hsu ((hsel u hu).mp h))]
    · intro k hkm
      rw [mem_jsSet, List.mem_map] at hkm
      obtain ⟨j, hj, rfl⟩ := hkm
      obtain ⟨_, _, ad, had, _, h1, h2, _⟩ := mem_roundBatch_ads hj
      refine ⟨j.User, j.AD_ID, rfl, ?_, ?_⟩
      · rw [h1]; exact (hb ad had).1
      · rw [h2]; exact (hb ad had).2

theorem toDouble_exact (x : Int) (h1 : -9007199254740992 ≤ x) (h2 : x ≤ 9007199254740992) :
    toDouble x = x := by
  unfold toDouble
  simp only
  rw [if_pos (by omega)]

theorem jsSub_one_exact (t : Int) (h1 : 1 ≤ t) (h2 : t ≤ 9007199254740992) :
    jsSub t 1 = t - 1 := by
  unfold jsSub
  exact toDouble_exact _ (by omega) (by omega)

/-- Where the subtraction of line 123 is exact, the decrement follows the rule in the words of
the specification: given every finite budget lies between 1 and 2^53 (and the table is keyed by
advertiser and campaign id, ids free of the separator), the `users` table after the round is
the table before it with every selected finite campaign lowered by exactly 1, once, and deleted
when the new value is 0; unlimited campaigns and campaigns in no enqueued job keep their rows;
no stored budget is below 0. -/
theorem round_decrements_exact (r : RoundIn) (st : DB) (hk : UsersKeyed st) (hb : BarFree st)
    (hpos : ∀ u ∈ st.users, ∀ t ∈ u.times, 1 ≤ t ∧ t ≤ 9007199254740992) :
    (runDistributionRound r st).users =
        st.users.filterMap (specAfterRound (roundBatch r st).1) ∧
      ∀ u ∈ (runDistributionRound r st).users, ∀ t ∈ u.times, 0 ≤ t := by
  have hcode := round_users_code r st hk hb
  have heq : (runDistributionRound r st).users =
      st.users.filterMap (specAfterRound (roundBatch r st).1) := by
    rw [hcode]
    apply filterMap_pointwise
    intro u hu
    unfold specAfterRound decRow
    by_cases hsu : selectedIn (roundBatch r st).1 u = true
    · rw [if_pos hsu, if_pos hsu]
      cases ht : u.times with
      | none => rfl
      | some t =>
        have h1 := hpos u hu t (by rw [ht]; rfl)
        simp only
        rw [jsSub_one_exact t h1.1 h1.2]
        by_cases h0 : t - 1 = 0
        · rw [if_pos h0, if_pos (by omega)]
        · rw [if_neg h0, if_neg (by omega)]
    · rw [if_neg hsu, if_neg hsu]
  refine ⟨heq, ?_⟩
  intro u hu t ht
  rw [heq, List.mem_filterMap] at hu
  obtain ⟨x, hx, hxu⟩ := hu
  unfold specAfterRound at hxu
  split at hxu
  · split at hxu
    · simp only [Option.some.injEq] at hxu
      subst hxu
      rename_i hnone
      rw [hnone] at ht
      cases ht
    · rename_i t0 ht0
      have h1 := (hpos x hx t0 (by rw [ht0]; rfl)).1
      split at hxu
      · cases hxu
      · simp only [Option.some.injEq] at hxu
        subst hxu
        simp only [Option.mem_def, Option.some.injEq] at ht
        omega
  · simp only [Option.some.injEq] at hxu
    subst hxu
    have := (hpos _ hx t ht).1
    omega

end AdsBot

namespace AdsBot

/-! ## The timestamps of a round -/

theorem stamp_ID (targets : List String) (ts : Int) (s : Server) :
    (stamp targets ts s).ID = s.ID := by
  unfold stamp; split <;> rfl

theorem foldl_setLatest_servers (ts : Int) (jobs : List AdJob) :
    ∀ st : DB, (jobs.foldl (fun s q => setLatest q.Server ts s) st).servers =
      st.servers.map (stamp (jobs.map (fun j => j.Server)) ts) := by
  induction jobs with
  | nil =>
    intro st
    simp only [List.foldl_nil, List.map_nil]
    have : stamp [] ts = id := by funext s; simp [stamp]
    rw [this, List.map_id]
  | cons j rest ih =>
    intro st
    rw [List.foldl_cons, ih]
    simp only [setLatest, List.map_map, List.map_cons]
    apply List.map_congr_left
    intro s _
    simp only [Function.comp, stamp, List.mem_cons]
    by_cases h1 : s.ID = j.Server
    · simp [h1]
    · simp [h1]

theorem round_servers (r : RoundIn) (st : DB) :
    (runDistributionRound r st).servers = st.servers.map (stamp (roundTargets r st) r.now) := by
  rw [runDistributionRound_eq]
  unfold roundTargets
  by_cases h0 : (roundBatch r st).1.length = 0
  · rw [if_pos h0]
    have h1 : (roundBatch r st).1 = [] := List.length_eq_zero.mp h0
    rw [h1]
    simp only [List.map_nil]
    have : stamp [] r.now = id := by funext s; simp [stamp]
    rw [this, List.map_id]
  · rw [if_neg h0]
    rw [(foldl_decrementKey_fields _ _).1, foldl_setLatest_servers,
      (addToPaymentQueue_fields _ _).1, (addToAdsQueue_fields _ _).1]

theorem mem_roundTargets {r : RoundIn} {st : DB} {g : String} (h : g ∈ roundTargets r st) :
    serverEligible st (r.clk g) g = true := by
  unfold roundTargets at h
  rw [List.mem_map] at h
  obtain ⟨j, hj, rfl⟩ := h
  obtain ⟨s, hs, _, _, _, _, _, h3⟩ := mem_roundBatch_ads hj
  unfold roundEligibles at hs
  rw [List.mem_filter] at hs
  rw [h3]
  exact hs.2

theorem getServer_of_mem {st : DB} (hk : ServersKeyed st) {s : Server} (hs : s ∈ st.servers) :
    getServer st s.ID = some s := by
  cases h : getServer st s.ID with
  | none =>
    unfold getServer at h
    have := List.find?_eq_none.mp h s hs
    simp at this
  | some s2 =>
    obtain ⟨h1, h2⟩ := getServer_mem h
    have : s2 = s := List.inj_on_of_nodup_map hk h1 hs h2
    rw [this]

theorem serverEligible_gap {st : DB} {now : Int} {g : String}
    (h : serverEligible st now g = true) :
    ∃ s, getServer st g = some s ∧ truthy s.Owner = true ∧ truthy s.channel = true ∧
      now - orDefault s.latest 0 ≥ clampCooldown (orDefault s.cooldown 300) := by
  unfold serverEligible at h
  cases hs : getServer st g with
  | none => simp [hs] at h
  | some s =>
    simp only [hs] at h
    refine ⟨s, rfl, ?_⟩
    cases h1 : truthy s.channel <;> cases h2 : truthy s.Owner <;> simp [h1, h2] at h ⊢
    exact h

theorem clampCooldown_ge (x : Int) : 300 ≤ clampCooldown x := by
  unfold clampCooldown; omega

/-- C10: a round rewrites the `servers` table by stamping `latest = now` on exactly the rows
whose server is the target of a job enqueued in that round and leaves every other row as it
is; with a clock that does not run backwards inside the round the stamp is strictly greater
than the value it replaces (a missing value counting as 0); and a round whose batch is empty
returns the database unchanged: no server, no campaign and no queue is touched. -/
theorem round_stamps_targets (r : RoundIn) (st : DB) (hk : ServersKeyed st)
    (hclk : ∀ g, r.clk g ≤ r.now) :
    (runDistributionRound r st).servers = st.servers.map (stamp (roundTargets r st) r.now) ∧
    (∀ s ∈ st.servers, s.ID ∉ roundTargets r st → stamp (roundTargets r st) r.now s = s) ∧
    (∀ s ∈ st.servers, s.ID ∈ roundTargets r st →
      stamp (roundTargets r st) r.now s = { s with latest := some r.now } ∧
      s.latest.getD 0 < r.now) ∧
    ((roundBatch r st).1 = [] → runDistributionRound r st = st) := by
  refine ⟨round_servers r st, ?_, ?_, ?_⟩
  · intro s _ h
    unfold stamp; rw [if_neg h]
  · intro s hs h
    refine ⟨by unfold stamp; rw [if_pos h], ?_⟩
    obtain ⟨s2, h1, _, _, h4⟩ := serverEligible_gap (mem_roundTargets h)
    rw [getServer_of_mem hk hs] at h1
    cases h1
    have := clampCooldown_ge (orDefault s.cooldown 300)
    have := hclk s.ID
    rw [orDefault_zero] at h4
    omega
  · intro h
    rw [runDistributionRound_eq, h]
    rfl

end AdsBot

namespace AdsBot

/-! ## Cooldown across rounds -/

theorem pairsFrom_servers_sublist (st : DB) (ads : List UserAd) :
    ∀ (ss : List Server) (i : Nat),
      ((pairsFrom st ads i ss).map (fun x => x.1.Server)).Sublist (ss.map (fun s => s.ID)) := by
  intro ss
  induction ss with
  | nil => intro i; simp [pairsFrom]
  | cons s rest ih =>
    intro i
    simp only [pairsFrom, List.map_append, List.map_cons]
    cases hp : pairOf st ads i s with
    | none => simp only [Option.toList, List.map_nil, List.nil_append]; exact (ih (i + 1)).cons _
    | some x =>
      obtain ⟨_, _, _, _, _, h1, _⟩ := pairOf_some hp
      simp only [Option.toList, List.map_cons, List.map_nil, List.singleton_append]
      have : x.1.Server = s.ID := by rw [h1]
      rw [this]
      exact (ih (i + 1)).cons₂ _

theorem roundTargets_nodup (r : RoundIn) (st : DB) (hk : ServersKeyed st) :
    (roundTargets r st).Nodup := by
  unfold roundTargets
  rw [roundBatch_pairs]
  simp only [List.map_map]
  unfold roundPairs
  split
  · simp
  · split
    · simp
    · have hsub := pairsFrom_servers_sublist st (shuffle r.rndA st.users)
        (shuffle r.rndS (roundEligibles r st)) 0
      apply List.Nodup.sublist hsub
      have hperm : ((shuffle r.rndS (roundEligibles r st)).map (fun s => s.ID)).Perm
          ((roundEligibles r st).map (fun s => s.ID)) := (shuffle_perm _ _).map _
      rw [hperm.nodup_iff]
      unfold roundEligibles
      exact List.Nodup.sublist ((List.filter_sublist _).map _) hk

theorem getServer_round (r : RoundIn) (st : DB) (g : String) :
    getServer (runDistributionRound r st) g =
      (getServer st g).map (stamp (roundTargets r st) r.now) := by
  unfold getServer
  rw [round_servers, List.find?_map]
  have : ((fun s : Server => s.ID == g) ∘ stamp (roundTargets r st) r.now) =
      (fun s : Server => s.ID == g) := by
    funext s; simp [Function.comp, stamp_ID]
  rw [this]

theorem worker_fields (o : ChargeOutcome) (st : DB) :
    (runPaymentWorkerBody o st).1.servers = st.servers ∧
    (runPaymentWorkerBody o st).1.users = st.users ∧
    (runPaymentWorkerBody o st).1.adsmeta = st.adsmeta := by
  unfold runPaymentWorkerBody
  cases popNextPayment st with
  | none =>
    simp only [cleanupSequencesIfEmpty]
    split <;> simp
  | some job =>
    simp only
    split
    · split <;> simp [deleteAdsQueue, deletePayment]
    · split <;> simp [deleteAdsQueue, deletePayment]

/-- The row of `g` keeps cooldown `c` and holds a timestamp no older than `T`. -/
theorem served_step (T : Int) (c : Option Int) (g : String) (e : Event) (st : DB) (t0 : Int)
    (hT : T ≤ t0) (hclk : ClockFrom t0 [e])
    (hinv : ∃ s, getServer st g = some s ∧ s.cooldown = c ∧ ∃ v, s.latest = some v ∧ T ≤ v) :
    ∃ s, getServer (stepEvent st e) g = some s ∧ s.cooldown = c ∧
      ∃ v, s.latest = some v ∧ T ≤ v := by
  obtain ⟨s, hs, hc, v, hv, hTv⟩ := hinv
  cases e with
  | worker o =>
    refine ⟨s, ?_, hc, v, hv, hTv⟩
    simp only [stepEvent, getServer]
    rw [(worker_fields o st).1]
    exact hs
  | round r =>
    simp only [stepEvent]
    rw [getServer_round, hs]
    refine ⟨stamp (roundTargets r st) r.now s, rfl, ?_, ?_⟩
    · unfold stamp; split
      · exact hc
      · exact hc
    · unfold stamp
      split
      · refine ⟨r.now, rfl, ?_⟩
        simp only [ClockFrom] at hclk
        have h1 := hclk.1 g
        have h2 := hclk.2.1 g
        omega
      · exact ⟨v, hv, hTv⟩

theorem clockFrom_append (es : List Event) :
    ∀ (t : Int) (r : RoundIn), ClockFrom t (es ++ [Event.round r]) →
      ∃ t2, t ≤ t2 ∧ ClockFrom t es ∧ (∀ g, t2 ≤ r.clk g) ∧ (∀ g, r.clk g ≤ r.now) := by
  induction es with
  | nil =>
    intro t r h
    simp only [List.nil_append, ClockFrom] at h
    exact ⟨t, le_refl _, trivial, h.1, h.2.1⟩
  | cons e rest ih =>
    intro t r h
    cases e with
    | worker o =>
      simp only [List.cons_append, ClockFrom] at h ⊢
      exact ih t r h
    | round r0 =>
      simp only [List.cons_append, ClockFrom] at h ⊢
      obtain ⟨t2, h1, h2, h3, h4⟩ := ih r0.now r h.2.2
      have := h.1 ""
      have := h.2.1 ""
      exact ⟨t2, by omega, ⟨h.1, h.2.1, h2⟩, h3, h4⟩

theorem served_run (T : Int) (c : Option Int) (g : String) (es : List Event) :
    ∀ (st : DB) (t0 : Int), T ≤ t0 → ClockFrom t0 es →
      (∃ s, getServer st g = some s ∧ s.cooldown = c ∧ ∃ v, s.latest = some v ∧ T ≤ v) →
      ∃ s, getServer (runEvents es st) g = some s ∧ s.cooldown = c ∧
        ∃ v, s.latest = some v ∧ T ≤ v := by
  induction es with
  | nil => intro st t0 _ _ h; exact h
  | cons e rest ih =>
    intro st t0 hT hclk hinv
    simp only [runEvents, List.foldl_cons]
    cases e with
    | worker o =>
      have hstep := served_step T c g (Event.worker o) st t0 hT (by simp [ClockFrom]) hinv
      simp only [ClockFrom] at hclk
      exact ih _ t0 hT hclk hstep
    | round r =>
      simp only [ClockFrom] at hclk
      have hstep := served_step T c g (Event.round r) st t0 hT
        (by simp only [ClockFrom]; exact ⟨hclk.1, hclk.2.1, trivial⟩) hinv
      have h1 := hclk.1 g
      have h2 := hclk.2.1 g
      exact ih _ r.now (by omega) hclk.2.2 hstep

/-- C4: with `servers` keyed by id and cooldowns as `/setup` stores them, (1) in a single round
no server is the target of two jobs, and (2) along any run of complete rounds and worker passes
with a clock that never runs backwards, if a server is a target in round `r1` and again in a
later round `r2`, then the eligibility reading of `r2` for it, and so the timestamp of `r2`,
is at least `clamp(cooldown, 300, 86400)` seconds after the timestamp of `r1` (a run changes
no cooldown). -/
theorem cooldown_respected (st : DB) (hk : ServersKeyed st) (hcd : CooldownsStored st) :
    (∀ r : RoundIn, (roundTargets r st).Nodup) ∧
    (∀ (r1 r2 : RoundIn) (mid : List Event) (g : String) (s : Server),
      getServer st g = some s →
      ClockFrom r1.now (mid ++ [Event.round r2]) →
      g ∈ roundTargets r1 st →
      g ∈ roundTargets r2 (runEvents mid (runDistributionRound r1 st)) →
      r2.clk g - r1.now ≥ clamp (s.cooldown.getD 300) 300 86400 ∧
      r2.now - r1.now ≥ clamp (s.cooldown.getD 300) 300 86400) := by
  refine ⟨fun r => roundTargets_nodup r st hk, ?_⟩
  intro r1 r2 mid g s hs hclock h1 h2
  obtain ⟨t2, ht2, hmid, hr2a, hr2b⟩ := clockFrom_append mid r1.now r2 hclock
  have hinv1 : ∃ s1, getServer (runDistributionRound r1 st) g = some s1 ∧
      s1.cooldown = s.cooldown ∧ ∃ v, s1.latest = some v ∧ r1.now ≤ v := by
    rw [getServer_round, hs]
    refine ⟨stamp (roundTargets r1 st) r1.now s, rfl, ?_, r1.now, ?_, le_refl _⟩
    · unfold stamp; split <;> rfl
    · have hid : s.ID ∈ roundTargets r1 st := by rw [(getServer_mem hs).2]; exact h1
      unfold stamp; rw [if_pos hid]
  obtain ⟨s2, hs2, hc2, v, hv, hTv⟩ :=
    served_run r1.now s.cooldown g mid _ r1.now (le_refl _) hmid hinv1
  obtain ⟨s3, hs3, _, _, hgap⟩ := serverEligible_gap (mem_roundTargets h2)
  rw [hs2] at hs3
  cases hs3
  have hfit : ∀ x ∈ s.cooldown, -2147483648 ≤ x ∧ x < 2147483648 :=
    hcd s (getServer_mem hs).1
  rw [hc2, clampCooldown_orDefault s.cooldown hfit, orDefault_zero, hv] at hgap
  simp only [Option.getD_some] at hgap
  have := hr2b g
  constructor <;> omega

end AdsBot

namespace AdsBot

/-! ## The payment worker -/

theorem oldestBy_eq_none {α : Type} (q : α → Nat) (l : List α) :
    oldestBy q l = none ↔ l = [] := by
  cases l with
  | nil => simp [oldestBy]
  | cons x xs =>
    simp only [oldestBy, reduceCtorEq, iff_false]
    cases oldestBy q xs with
    | none => simp
    | some y => simp only; split <;> simp

theorem oldestBy_some {α : Type} (q : α → Nat) :
    ∀ (l : List α) (x : α), oldestBy q l = some x → x ∈ l ∧ ∀ y ∈ l, q x ≤ q y := by
  intro l
  induction l with
  | nil => intro x h; simp [oldestBy] at h
  | cons a rest ih =>
    intro x h
    simp only [oldestBy] at h
    cases hr : oldestBy q rest with
    | none =>
      have hnil := (oldestBy_eq_none q rest).mp hr
      simp only [hr, Option.some.injEq] at h
      subst h; subst hnil
      simp
    | some y =>
      obtain ⟨hy, hmin⟩ := ih y hr
      simp only [hr] at h
      by_cases hay : q a ≤ q y
      · rw [if_pos hay] at h
        simp only [Option.some.injEq] at h
        subst h
        refine ⟨List.mem_cons_self _ _, ?_⟩
        intro z hz
        rcases List.mem_cons.mp hz with rfl | hz
        · exact le_refl _
        · exact le_trans hay (hmin z hz)
      · rw [if_neg hay] at h
        simp only [Option.some.injEq] at h
        subst h
        refine ⟨List.mem_cons_of_mem _ hy, ?_⟩
        intro z hz
        rcases List.mem_cons.mp hz with rfl | hz
        · omega
        · exact hmin z hz

theorem filter_queue_ne {α : Type} [DecidableEq α] (q : α → Nat) (l : List α)
    (hnd : (l.map q).Nodup) (x : α) (hx : x ∈ l) :
    l.filter (fun y => q y != q x) = l.filter (fun y => decide (y ≠ x)) := by
  apply List.filter_congr
  intro y hy
  by_cases h : y = x
  · subst h; simp
  · have : q y ≠ q x := fun e => h (List.inj_on_of_nodup_map hnd hy hx e)
    simp [h, this]

/-- What one worker pass does to a database whose payment queue is not empty. -/
theorem worker_pass (o : ChargeOutcome) (st : DB) (hq : QueuesKeyed st)
    (hne : st.paymentqueue ≠ []) :
    ∃ job ∈ st.paymentqueue, (∀ p ∈ st.paymentqueue, job.queue ≤ p.queue) ∧
      popNextPayment st = some job ∧
      (runPaymentWorkerBody o st).1.paymentqueue =
        st.paymentqueue.filter (fun p => decide (p ≠ job)) ∧
      (runPaymentWorkerBody o st).1.servers = st.servers ∧
      (runPaymentWorkerBody o st).1.users = st.users ∧
      (runPaymentWorkerBody o st).1.adsmeta = st.adsmeta ∧
      (runPaymentWorkerBody o st).1.adsSeq = st.adsSeq ∧
      (runPaymentWorkerBody o st).1.paySeq = st.paySeq ∧
      (((∀ a ∈ st.adsqueue, a.AD_ID ≠ job.AD_ID) ∧
          (runPaymentWorkerBody o st).1.adsqueue = st.adsqueue ∧
          postCalls (runPaymentWorkerBody o st).2 = []) ∨
        (∃ row ∈ st.adsqueue, row.AD_ID = job.AD_ID ∧
          (∀ a ∈ st.adsqueue, a.AD_ID = job.AD_ID → row.queue ≤ a.queue) ∧
          (runPaymentWorkerBody o st).1.adsqueue =
            st.adsqueue.filter (fun a => decide (a ≠ row)) ∧
          postCalls (runPaymentWorkerBody o st).2 =
            if o = ChargeOutcome.response true then [(row.Server, row)] else [])) := by
  cases hpop : popNextPayment st with
  | none =>
    exact absurd ((oldestBy_eq_none _ _).mp hpop) hne
  | some job =>
    obtain ⟨hjob, hmin⟩ := oldestBy_some _ _ _ hpop
    refine ⟨job, hjob, hmin, rfl, ?_⟩
    have hpq := filter_queue_ne (fun p : PayRow => p.queue) st.paymentqueue hq.2 job hjob
    unfold runPaymentWorkerBody
    rw [hpop]
    simp only
    have hads1 : (deletePayment job.queue st).adsqueue = st.adsqueue := rfl
    rw [hads1]
    cases hrow : oldestBy (fun a : AdsRow => a.queue)
        (st.adsqueue.filter (fun a => a.AD_ID == job.AD_ID)) with
    | none =>
      have hnil := (oldestBy_eq_none _ _).mp hrow
      have hnone : ∀ a ∈ st.adsqueue, a.AD_ID ≠ job.AD_ID := by
        intro a ha e
        have : a ∈ st.adsqueue.filter (fun a => a.AD_ID == job.AD_ID) := by
          rw [List.mem_filter]; exact ⟨ha, by simpa using e⟩
        rw [hnil] at this
        exact List.not_mem_nil _ this
      simp only
      split
      · refine ⟨hpq, rfl, rfl, rfl, rfl, rfl, Or.inl ⟨hnone, rfl, rfl⟩⟩
      · refine ⟨hpq, rfl, rfl, rfl, rfl, rfl, Or.inl ⟨hnone, rfl, rfl⟩⟩
    | some row =>
      obtain ⟨hrmem, hrmin⟩ := oldestBy_some _ _ _ hrow
      rw [List.mem_filter] at hrmem
      have hrid : row.AD_ID = job.AD_ID := by simpa using hrmem.2
      have hrmin2 : ∀ a ∈ st.adsqueue, a.AD_ID = job.AD_ID → row.queue ≤ a.queue := by
        intro a ha e
        apply hrmin a
        rw [List.mem_filter]; exact ⟨ha, by simpa using e⟩
      have haq := filter_queue_ne (fun a : AdsRow => a.queue) st.adsqueue hq.1 row hrmem.1
      simp only
      cases o with
      | transportError =>
        simp only [payFromCard, Bool.not_false, if_true]
        refine ⟨hpq, rfl, rfl, rfl, rfl, rfl, Or.inr ⟨row, hrmem.1, hrid, hrmin2, haq, ?_⟩⟩
        simp [postCalls]
      | response success =>
        cases success with
        | false =>
          simp only [payFromCard, Bool.not_false, if_true]
          refine ⟨hpq, rfl, rfl, rfl, rfl, rfl, Or.inr ⟨row, hrmem.1, hrid, hrmin2, haq, ?_⟩⟩
          simp [postCalls]
        | true =>
          simp only [payFromCard, Bool.not_true, Bool.false_eq_true, if_false]
          refine ⟨hpq, rfl, rfl, rfl, rfl, rfl, Or.inr ⟨row, hrmem.1, hrid, hrmin2, haq, ?_⟩⟩
          simp [postCalls]

end AdsBot

namespace AdsBot

/-- C5: when the payment queue is not empty and the charge fails (the request throws or the
answer is unsuccessful), one worker pass removes the payment row with the least `queue`
number and nothing else from `paymentqueue`, removes from `adsqueue` the row with the least
`queue` number among those with the same campaign id, if there is one, and nothing else,
makes no posting call, and leaves every other table and counter as it was (queue numbers are
PRIMARY KEYs). -/
theorem failed_charge_discards (o : ChargeOutcome) (st : DB) (hq : QueuesKeyed st)
    (hne : st.paymentqueue ≠ [])
    (hfail : o = ChargeOutcome.transportError ∨ o = ChargeOutcome.response false) :
    ∃ job ∈ st.paymentqueue, (∀ p ∈ st.paymentqueue, job.queue ≤ p.queue) ∧
      (runPaymentWorkerBody o st).1.paymentqueue =
        st.paymentqueue.filter (fun p => decide (p ≠ job)) ∧
      postCalls (runPaymentWorkerBody o st).2 = [] ∧
      (runPaymentWorkerBody o st).1.servers = st.servers ∧
      (runPaymentWorkerBody o st).1.users = st.users ∧
      (runPaymentWorkerBody o st).1.adsmeta = st.adsmeta ∧
      (((∀ a ∈ st.adsqueue, a.AD_ID ≠ job.AD_ID) ∧
          (runPaymentWorkerBody o st).1.adsqueue = st.adsqueue) ∨
        (∃ row ∈ st.adsqueue, row.AD_ID = job.AD_ID ∧
          (∀ a ∈ st.adsqueue, a.AD_ID = job.AD_ID → row.queue ≤ a.queue) ∧
          (runPaymentWorkerBody o st).1.adsqueue =
            st.adsqueue.filter (fun a => decide (a ≠ row)))) := by
  obtain ⟨job, hjob, hmin, _, hpq, h1, h2, h3, _, _, hcases⟩ := worker_pass o st hq hne
  have hno : ¬ (o = ChargeOutcome.response true) := by
    rcases hfail with h | h <;> rw [h] <;> simp
  refine ⟨job, hjob, hmin, hpq, ?_, h1, h2, h3, ?_⟩
  · rcases hcases with ⟨_, _, hp⟩ | ⟨row, _, _, _, _, hp⟩
    · exact hp
    · rw [hp, if_neg hno]
  · rcases hcases with ⟨ha, hb, _⟩ | ⟨row, hr1, hr2, hr3, hr4, _⟩
    · exact Or.inl ⟨ha, hb⟩
    · exact Or.inr ⟨row, hr1, hr2, hr3, hr4⟩

/-! ## The scenario of one server and one unlimited campaign -/

theorem shuffle_singleton {α : Type} (rnd : Nat → Nat) (x : α) : shuffle rnd [x] = [x] := by
  simp [shuffle, shuffleLoop]

theorem one_one_batch (r : RoundIn) (st : DB) (s : Server) (ad : UserAd) (copy : AdMeta)
    (hservers : st.servers = [s]) (husers : st.users = [ad])
    (hOwner : truthy s.Owner = true) (hch : truthy s.channel = true)
    (hcd : s.cooldown = some 300) (hlat : s.latest = some (r.clk s.ID - 301))
    (htimes : ad.times = none) (hmeta : getAdMeta st ad.ADS_ID = some copy) :
    roundBatch r st =
      ([{ AD_ID := ad.ADS_ID, User := ad.ID, ad := copy.ad, link := copy.link, msg := copy.msg,
          Server := s.ID }],
       [{ AD_ID := ad.ADS_ID, ID := ad.ID, card := ad.card, server_owner_id := s.Owner }]) := by
  have hget : getServer st s.ID = some s := by simp [getServer, hservers]
  have helig : serverEligible st (r.clk s.ID) s.ID = true := by
    unfold serverEligible
    rw [hget]
    simp only [hOwner, hch, hcd, hlat, Bool.not_true, Bool.or_self, Bool.false_eq_true, if_false]
    have h1 : clampCooldown (orDefault (some 300) 300) = 300 := by decide
    rw [h1, orDefault_zero]
    simp only [Option.getD_some, decide_eq_true_eq]
    omega
  have hel : roundEligibles r st = [s] := by
    simp [roundEligibles, hservers, helig]
  rw [roundBatch_pairs]
  have hp : roundPairs r st =
      [({ AD_ID := ad.ADS_ID, User := ad.ID, ad := copy.ad, link := copy.link, msg := copy.msg,
          Server := s.ID },
        { AD_ID := ad.ADS_ID, ID := ad.ID, card := ad.card, server_owner_id := s.Owner })] := by
    unfold roundPairs
    rw [hel, husers, shuffle_singleton, shuffle_singleton]
    simp [pairsFrom, pairOf, htimes, hmeta]
  rw [hp]
  rfl

theorem one_one_scenario (r : RoundIn) (st : DB) (s : Server) (ad : UserAd) (copy : AdMeta)
    (hservers : st.servers = [s]) (husers : st.users = [ad])
    (hOwner : truthy s.Owner = true) (hch : truthy s.channel = true)
    (hcd : s.cooldown = some 300) (hlat : s.latest = some (r.clk s.ID - 301))
    (htimes : ad.times = none) (hmeta : getAdMeta st ad.ADS_ID = some copy)
    (hqa : st.adsqueue = []) (hqp : st.paymentqueue = []) :
    (runDistributionRound r st).adsqueue.length = 1 ∧
    (runDistributionRound r st).paymentqueue.length = 1 ∧
    (postCalls (runPaymentWorkerBody (ChargeOutcome.response true)
      (runDistributionRound r st)).2).length = 1 ∧
    (runPaymentWorkerBody (ChargeOutcome.response true) (runDistributionRound r st)).1.adsqueue
      = [] ∧
    (runPaymentWorkerBody (ChargeOutcome.response true)
      (runDistributionRound r st)).1.paymentqueue = [] := by
  have hb := one_one_batch r st s ad copy hservers husers hOwner hch hcd hlat htimes hmeta
  obtain ⟨h1, h2, h3, h4⟩ := round_queues r st
  rw [hb] at h2 h4
  rw [hqa, List.nil_append] at h1
  rw [hqp, List.nil_append] at h3
  obtain ⟨a, ha⟩ : ∃ a, appendedAds r st = [a] := by
    cases hl : appendedAds r st with
    | nil => rw [hl] at h2; simp at h2
    | cons a rest =>
      rw [hl] at h2
      simp only [List.map_cons, List.cons.injEq, List.map_eq_nil_iff] at h2
      rw [h2.2]; exact ⟨a, rfl⟩
  obtain ⟨p, hp⟩ : ∃ p, appendedPay r st = [p] := by
    cases hl : appendedPay r st with
    | nil => rw [hl] at h4; simp at h4
    | cons p rest =>
      rw [hl] at h4
      simp only [List.map_cons, List.cons.injEq, List.map_eq_nil_iff] at h4
      rw [h4.2]; exact ⟨p, rfl⟩
  rw [ha] at h1 h2
  rw [hp] at h3 h4
  have haid : a.AD_ID = p.AD_ID := by
    simp only [List.map_cons, List.map_nil, List.cons.injEq, and_true] at h2 h4
    have e1 : a.job.AD_ID = ad.ADS_ID := by rw [h2]
    have e2 : p.job.AD_ID = ad.ADS_ID := by rw [h4]
    exact e1.trans e2.symm
  refine ⟨by rw [h1]; rfl, by rw [h3]; rfl, ?_⟩
  have hpop : popNextPayment (runDistributionRound r st) = some p := by
    simp [popNextPayment, h3, oldestBy]
  unfold runPaymentWorkerBody
  rw [hpop]
  simp only [payFromCard, deletePayment, h1, h3, haid, Bool.not_true, Bool.false_eq_true,
    if_false, List.filter_cons, beq_self_eq_true, List.filter_nil, if_true, oldestBy, postCalls,
    deleteAdsQueue, bne_self_eq_false, List.filterMap_cons, List.filterMap_nil, List.length_cons,
    List.length_nil, and_self]

end AdsBot

namespace AdsBot

/-- C6: when the payment queue is not empty and the charge succeeds, one worker pass takes the
payment row with the least `queue` number (FIFO) and removes it and no other payment row; if
`adsqueue` holds a row with the same campaign id it makes exactly one posting call, for the
one of them with the least `queue` number and to the server of that row, and removes that row
and no other; if there is none it makes no posting call and `adsqueue` is unchanged. In the
scenario of a single configured server with cooldown 300 that was last served 301 seconds
before the round, a single unlimited campaign with content and empty queues, the round
enqueues one row in each queue and the worker pass with a successful charge makes exactly one
posting call and leaves both queues empty. -/
theorem successful_charge_posts :
    (∀ st : DB, QueuesKeyed st → st.paymentqueue ≠ [] →
      ∃ job ∈ st.paymentqueue, (∀ p ∈ st.paymentqueue, job.queue ≤ p.queue) ∧
        (runPaymentWorkerBody (ChargeOutcome.response true) st).1.paymentqueue =
          st.paymentqueue.filter (fun p => decide (p ≠ job)) ∧
        (runPaymentWorkerBody (ChargeOutcome.response true) st).1.servers = st.servers ∧
        (runPaymentWorkerBody (ChargeOutcome.response true) st).1.users = st.users ∧
        (runPaymentWorkerBody (ChargeOutcome.response true) st).1.adsmeta = st.adsmeta ∧
        (((∀ a ∈ st.adsqueue, a.AD_ID ≠ job.AD_ID) ∧
            (runPaymentWorkerBody (ChargeOutcome.response true) st).1.adsqueue = st.adsqueue ∧
            postCalls (runPaymentWorkerBody (ChargeOutcome.response true) st).2 = []) ∨
          (∃ row ∈ st.adsqueue, row.AD_ID = job.AD_ID ∧
            (∀ a ∈ st.adsqueue, a.AD_ID = job.AD_ID → row.queue ≤ a.queue) ∧
            (runPaymentWorkerBody (ChargeOutcome.response true) st).1.adsqueue =
              st.adsqueue.filter (fun a => decide (a ≠ row)) ∧
            postCalls (runPaymentWorkerBody (ChargeOutcome.response true) st).2 =
              [(row.Server, row)]))) ∧
    (∀ (r : RoundIn) (st : DB) (s : Server) (ad : UserAd) (copy : AdMeta),
      st.servers = [s] → st.users = [ad] →
      truthy s.Owner = true → truthy s.channel = true →
      s.cooldown = some 300 → s.latest = some (r.clk s.ID - 301) →
      ad.times = none → getAdMeta st ad.ADS_ID = some copy →
      st.adsqueue = [] → st.paymentqueue = [] →
      (runDistributionRound r st).adsqueue.length = 1 ∧
      (runDistributionRound r st).paymentqueue.length = 1 ∧
      (postCalls (runPaymentWorkerBody (ChargeOutcome.response true)
        (runDistributionRound r st)).2).length = 1 ∧
      (runPaymentWorkerBody (ChargeOutcome.response true)
        (runDistributionRound r st)).1.adsqueue = [] ∧
      (runPaymentWorkerBody (ChargeOutcome.response true)
        (runDistributionRound r st)).1.paymentqueue = []) := by
  constructor
  · intro st hq hne
    obtain ⟨job, hjob, hmin, _, hpq, h1, h2, h3, _, _, hcases⟩ :=
      worker_pass (ChargeOutcome.response true) st hq hne
    refine ⟨job, hjob, hmin, hpq, h1, h2, h3, ?_⟩
    rcases hcases with h | ⟨row, hr1, hr2, hr3, hr4, hp⟩
    · exact Or.inl h
    · rw [if_pos rfl] at hp
      exact Or.inr ⟨row, hr1, hr2, hr3, hr4, hp⟩
  · intro r st s ad copy h1 h2 h3 h4 h5 h6 h7 h8 h9 h10
    exact one_one_scenario r st s ad copy h1 h2 h3 h4 h5 h6 h7 h8 h9 h10

/-! ## Pairing by index -/

theorem pairOf_full {st : DB} {ads : List UserAd} (hne : ads ≠ [])
    (hsel : ∀ ad ∈ ads, (∀ t, ad.times = some t → 0 < t) ∧ (getAdMeta st ad.ADS_ID).isSome)
    (i : Nat) (s : Server) :
    ∃ ad copy, ads[i % ads.length]? = some ad ∧ getAdMeta st ad.ADS_ID = some copy ∧
      pairOf st ads i s =
        some ({ AD_ID := ad.ADS_ID, User := ad.ID, ad := copy.ad, link := copy.link,
                msg := copy.msg, Server := s.ID },
              { AD_ID := ad.ADS_ID, ID := ad.ID, card := ad.card, server_owner_id := s.Owner }) := by
  have hlen : 0 < ads.length := List.length_pos.mpr hne
  have hlt : i % ads.length < ads.length := Nat.mod_lt _ hlen
  have hget : ads[i % ads.length]? = some ads[i % ads.length] := List.getElem?_eq_getElem hlt
  obtain ⟨h1, h2⟩ := hsel _ (List.getElem_mem hlt)
  obtain ⟨copy, hcopy⟩ := Option.isSome_iff_exists.mp h2
  refine ⟨_, copy, hget, hcopy, ?_⟩
  unfold pairOf
  rw [hget]
  simp only [hcopy]
  rw [if_neg]
  cases ht : (ads[i % ads.length]).times with
  | none => simp
  | some t =>
    have := h1 t ht
    simp only [decide_eq_true_eq, not_le]
    exact this

theorem pairsFrom_full {st : DB} {ads : List UserAd} (hne : ads ≠ [])
    (hsel : ∀ ad ∈ ads, (∀ t, ad.times = some t → 0 < t) ∧ (getAdMeta st ad.ADS_ID).isSome) :
    ∀ (ss : List Server) (i k : Nat),
      (pairsFrom st ads i ss)[k]? = (ss[k]?).bind (fun s => pairOf st ads (i + k) s) := by
  intro ss
  induction ss with
  | nil => intro i k; simp [pairsFrom]
  | cons s rest ih =>
    intro i k
    obtain ⟨ad, copy, _, _, hp⟩ := pairOf_full hne hsel i s
    simp only [pairsFrom, hp, Option.toList, List.singleton_append]
    cases k with
    | zero => simp [hp]
    | succ k =>
      simp only [List.getElem?_cons_succ]
      rw [ih (i + 1) k]
      have : i + 1 + k = i + (k + 1) := by omega
      rw [this]

theorem pairsFrom_full_length {st : DB} {ads : List UserAd} (hne : ads ≠ [])
    (hsel : ∀ ad ∈ ads, (∀ t, ad.times = some t → 0 < t) ∧ (getAdMeta st ad.ADS_ID).isSome) :
    ∀ (ss : List Server) (i : Nat), (pairsFrom st ads i ss).length = ss.length := by
  intro ss
  induction ss with
  | nil => intro i; simp [pairsFrom]
  | cons s rest ih =>
    intro i
    obtain ⟨ad, copy, _, _, hp⟩ := pairOf_full hne hsel i s
    simp [pairsFrom, hp, ih (i + 1)]

end AdsBot

namespace AdsBot

theorem roundPairs_full (r : RoundIn) (st : DB)
    (hsel : ∀ ad ∈ st.users, (∀ t, ad.times = some t → 0 < t) ∧ (getAdMeta st ad.ADS_ID).isSome)
    (hne : st.users ≠ []) :
    (roundPairs r st).length = (roundEligibles r st).length ∧
    ∀ i, i < (roundEligibles r st).length →
      ∃ s ad copy, (shuffle r.rndS (roundEligibles r st))[i]? = some s ∧
        (shuffle r.rndA st.users)[i % st.users.length]? = some ad ∧
        getAdMeta st ad.ADS_ID = some copy ∧
        (roundPairs r st)[i]? =
          some ({ AD_ID := ad.ADS_ID, User := ad.ID, ad := copy.ad, link := copy.link,
                  msg := copy.msg, Server := s.ID },
                { AD_ID := ad.ADS_ID, ID := ad.ID, card := ad.card,
                  server_owner_id := s.Owner }) := by
  have hne2 : shuffle r.rndA st.users ≠ [] := by
    intro h
    have := shuffle_length r.rndA st.users
    rw [h] at this
    exact hne (List.length_eq_zero.mp this.symm)
  have hsel2 : ∀ ad ∈ shuffle r.rndA st.users,
      (∀ t, ad.times = some t → 0 < t) ∧ (getAdMeta st ad.ADS_ID).isSome :=
    fun ad h => hsel ad ((mem_shuffle _ _ _).mp h)
  have hu : st.users.length ≠ 0 := fun h => hne (List.length_eq_zero.mp h)
  by_cases hn : (roundEligibles r st).length = 0
  · refine ⟨by unfold roundPairs; rw [if_pos hn, hn]; rfl, ?_⟩
    intro i hi; omega
  · have hrp : roundPairs r st =
        pairsFrom st (shuffle r.rndA st.users) 0 (shuffle r.rndS (roundEligibles r st)) := by
      unfold roundPairs; rw [if_neg hn, if_neg hu]
    refine ⟨by rw [hrp, pairsFrom_full_length hne2 hsel2, shuffle_length], ?_⟩
    intro i hi
    have hi2 : i < (shuffle r.rndS (roundEligibles r st)).length := by
      rw [shuffle_length]; exact hi
    obtain ⟨ad, copy, h1, h2, h3⟩ :=
      pairOf_full hne2 hsel2 i (shuffle r.rndS (roundEligibles r st))[i]
    rw [shuffle_length] at h1
    refine ⟨_, ad, copy, List.getElem?_eq_getElem hi2, h1, h2, ?_⟩
    rw [hrp, pairsFrom_full hne2 hsel2, List.getElem?_eq_getElem hi2, Option.some_bind,
      Nat.zero_add, h3]

/-- C8: the pairing of a round is by index with wraparound. Every pair of jobs a round builds
comes from an index `i`: its server is the one at position `i` of the shuffled eligible
servers and its campaign the one at position `i mod m` of the shuffled campaigns. When there
is at least one campaign and every campaign is selectable and has content, the round enqueues
exactly `n` rows in each queue, `n` the number of eligible servers, and the `i`-th row is for
server `i` and campaign `i mod m`; so position `c` gets a job for each `i < n` with
`i mod m = c`, and no `i < n` reaches a position `c >= n`. -/
theorem pairing_by_index (r : RoundIn) (st : DB) :
    (∀ x ∈ roundPairs r st, ∃ i s ad,
      (shuffle r.rndS (roundEligibles r st))[i]? = some s ∧
      (shuffle r.rndA st.users)[i % st.users.length]? = some ad ∧
      x.1.Server = s.ID ∧ x.1.User = ad.ID ∧ x.1.AD_ID = ad.ADS_ID ∧
      x.2.server_owner_id = s.Owner ∧ x.2.ID = ad.ID ∧ x.2.AD_ID = ad.ADS_ID) ∧
    ((∀ ad ∈ st.users, (∀ t ∈ ad.times, 0 < t) ∧ (getAdMeta st ad.ADS_ID).isSome) →
      st.users ≠ [] →
      (appendedAds r st).length = (roundEligibles r st).length ∧
      (appendedPay r st).length = (roundEligibles r st).length ∧
      (∀ i, i < (roundEligibles r st).length →
        ∃ s ad, (shuffle r.rndS (roundEligibles r st))[i]? = some s ∧
          (shuffle r.rndA st.users)[i % st.users.length]? = some ad ∧
          ((appendedAds r st)[i]?).map (fun a => (a.Server, a.User, a.AD_ID)) =
            some (s.ID, ad.ID, ad.ADS_ID) ∧
          ((appendedPay r st)[i]?).map (fun p => (p.server_owner_id, p.ID, p.AD_ID)) =
            some (s.Owner, ad.ID, ad.ADS_ID)) ∧
      (∀ c i, (roundEligibles r st).length ≤ c → i < (roundEligibles r st).length →
        i % st.users.length ≠ c)) := by
  constructor
  · intro x hx
    obtain ⟨k, s, ad, copy, h1, h2, _, _, h5, h6⟩ := mem_roundPairs hx
    rw [shuffle_length] at h2
    refine ⟨k, s, ad, h1, h2, ?_⟩
    rw [h5, h6]
    exact ⟨rfl, rfl, rfl, rfl, rfl, rfl⟩
  · intro hsel hne
    obtain ⟨hlen, hidx⟩ := roundPairs_full r st hsel hne
    obtain ⟨_, hA, _, hP⟩ := round_queues r st
    rw [roundBatch_pairs] at hA hP
    refine ⟨?_, ?_, ?_, ?_⟩
    · have := congrArg List.length hA
      simp only [List.length_map] at this
      rw [this, hlen]
    · have := congrArg List.length hP
      simp only [List.length_map] at this
      rw [this, hlen]
    · intro i hi
      obtain ⟨s, ad, copy, h1, h2, _, h4⟩ := hidx i hi
      refine ⟨s, ad, h1, h2, ?_, ?_⟩
      · have := congrArg (fun l => (l[i]?).map (fun j : AdJob => (j.Server, j.User, j.AD_ID))) hA
        simp only [List.getElem?_map, Option.map_map, h4, Option.map_some'] at this
        rw [← this]
        rfl
      · have := congrArg
          (fun l => (l[i]?).map (fun j : PayJob => (j.server_owner_id, j.ID, j.AD_ID))) hP
        simp only [List.getElem?_map, Option.map_map, h4, Option.map_some'] at this
        rw [← this]
        rfl
    · intro c i hc hi
      have : i % st.users.length ≤ i := Nat.mod_le _ _
      omega

end AdsBot

namespace AdsBot

/-! ## Two servers, one campaign with one impression left -/

theorem pairsFrom_full_servers {st : DB} {ads : List UserAd} (hne : ads ≠ [])
    (hsel : ∀ ad ∈ ads, (∀ t, ad.times = some t → 0 < t) ∧ (getAdMeta st ad.ADS_ID).isSome) :
    ∀ (ss : List Server) (i : Nat),
      (pairsFrom st ads i ss).map (fun x => x.1.Server) = ss.map (fun s => s.ID) := by
  intro ss
  induction ss with
  | nil => intro i; simp [pairsFrom]
  | cons s rest ih =>
    intro i
    obtain ⟨ad, copy, _, _, hp⟩ := pairOf_full hne hsel i s
    simp [pairsFrom, hp, ih (i + 1)]

/-- The claim of C7 fails on the sample data: both servers are eligible, the only campaign has
one impression left and has content, and the round enqueues two delivery rows and two payment
rows, one for each server. -/
theorem budget_one_two_jobs :
    (roundEligibles sampleRound sampleDb).length = 2 ∧
    sampleDb.users.map (fun u => u.times) = [some 1] ∧
    (getAdMeta sampleDb "u1:1").isSome = true ∧
    roundTargets sampleRound sampleDb = ["g2", "g1"] ∧
    ¬ ((appendedAds sampleRound sampleDb).length = 1 ∧
       (appendedPay sampleRound sampleDb).length = 1) := by
  decide

/-- C7, amended: in a round with exactly 2 eligible servers and exactly 1 campaign, with one
impression left, content, and ids free of the separator, both servers receive a job of that
campaign (two delivery rows and two payment rows are enqueued, one per eligible server), and
the campaign row is removed by the round. -/
theorem budget_one_serves_both (r : RoundIn) (st : DB) (ad : UserAd) (copy : AdMeta)
    (hel : (roundEligibles r st).length = 2) (husers : st.users = [ad])
    (htimes : ad.times = some 1) (hmeta : getAdMeta st ad.ADS_ID = some copy)
    (hbar : '|' ∉ ad.ID.data ∧ '|' ∉ ad.ADS_ID.data) :
    (appendedAds r st).length = 2 ∧ (appendedPay r st).length = 2 ∧
    (roundTargets r st).Perm ((roundEligibles r st).map (fun s => s.ID)) ∧
    (∀ a ∈ appendedAds r st, a.User = ad.ID ∧ a.AD_ID = ad.ADS_ID) ∧
    (runDistributionRound r st).users = [] := by
  have hne : st.users ≠ [] := by rw [husers]; simp
  have hsel : ∀ x ∈ st.users,
      (∀ t, x.times = some t → 0 < t) ∧ (getAdMeta st x.ADS_ID).isSome := by
    intro x hx
    rw [husers, List.mem_singleton] at hx
    subst hx
    refine ⟨?_, by rw [hmeta]; rfl⟩
    intro t ht
    rw [htimes] at ht
    cases ht
    decide
  have hk : UsersKeyed st := by unfold UsersKeyed; rw [husers]; simp
  have hb : BarFree st := by
    intro u hu
    rw [husers, List.mem_singleton] at hu
    rw [hu]; exact hbar
  obtain ⟨hlen, _⟩ := roundPairs_full r st hsel hne
  obtain ⟨_, hA, _, hP⟩ := round_queues r st
  have hbatch := roundBatch_pairs r st
  have hlenA : (appendedAds r st).length = 2 := by
    have := congrArg List.length hA
    rw [hbatch] at this
    simp only [List.length_map] at this
    rw [this, hlen, hel]
  have hlenP : (appendedPay r st).length = 2 := by
    have := congrArg List.length hP
    rw [hbatch] at this
    simp only [List.length_map] at this
    rw [this, hlen, hel]
  have hjobs : ∀ j ∈ (roundBatch r st).1, j.User = ad.ID ∧ j.AD_ID = ad.ADS_ID := by
    intro j hj
    obtain ⟨_, _, x, hx, _, h1, h2, _⟩ := mem_roundBatch_ads hj
    rw [husers, List.mem_singleton] at hx
    rw [h1, h2, hx]
    exact ⟨rfl, rfl⟩
  refine ⟨hlenA, hlenP, ?_, ?_, ?_⟩
  · have hn : ¬ (roundEligibles r st).length = 0 := by omega
    have hu : ¬ st.users.length = 0 := fun h => hne (List.length_eq_zero.mp h)
    have hne2 : shuffle r.rndA st.users ≠ [] := by
      intro h
      have := shuffle_length r.rndA st.users
      rw [h] at this
      exact hne (List.length_eq_zero.mp this.symm)
    have hsel2 : ∀ x ∈ shuffle r.rndA st.users,
        (∀ t, x.times = some t → 0 < t) ∧ (getAdMeta st x.ADS_ID).isSome :=
      fun x h => hsel x ((mem_shuffle _ _ _).mp h)
    unfold roundTargets
    rw [hbatch]
    simp only [List.map_map]
    have : (roundPairs r st).map ((fun j : AdJob => j.Server) ∘ Prod.fst) =
        (shuffle r.rndS (roundEligibles r st)).map (fun s => s.ID) := by
      unfold roundPairs
      rw [if_neg hn, if_neg hu]
      exact pairsFrom_full_servers hne2 hsel2 _ 0
    rw [this]
    exact (shuffle_perm _ _).map _
  · intro a ha
    have : a.job ∈ (roundBatch r st).1 := by
      rw [← hA]; exact List.mem_map_of_mem _ ha
    exact hjobs _ this
  · rw [round_users_code r st hk hb, husers]
    have hsome : ∃ j, j ∈ (roundBatch r st).1 := by
      have hl : (roundBatch r st).1.length = 2 := by
        rw [← hA, List.length_map, hlenA]
      cases hb1 : (roundBatch r st).1 with
      | nil => rw [hb1] at hl; simp at hl
      | cons j rest => exact ⟨j, List.mem_cons_self _ _⟩
    obtain ⟨j, hj⟩ := hsome
    have hselIn : selectedIn (roundBatch r st).1 ad = true := by
      unfold selectedIn
      rw [List.any_eq_true]
      exact ⟨j, hj, by simp [(hjobs j hj).1, (hjobs j hj).2]⟩
    have h11 : jsSub 1 1 ≤ 0 := by decide
    simp [hselIn, decRow, htimes, h11]

end AdsBot

namespace AdsBot

/-! ## A finite budget over a run -/

theorem round_keeps_users_wf (r : RoundIn) (st : DB) (hk : UsersKeyed st) (hb : BarFree st) :
    UsersKeyed (runDistributionRound r st) ∧ BarFree (runDistributionRound r st) := by
  have hu := round_users_code r st hk hb
  constructor
  · unfold UsersKeyed
    rw [hu]
    apply List.Nodup.sublist _ hk
    apply filterMap_keys_sublist
    intro x y h
    split at h
    · have := decRow_ids h; simp [this.1, this.2]
    · simp only [Option.some.injEq] at h; rw [h]
  · intro y hy
    rw [hu, List.mem_filterMap] at hy
    obtain ⟨x, hx, hxy⟩ := hy
    split at hxy
    · have := decRow_ids hxy
      rw [this.1, this.2]; exact hb x hx
    · simp only [Option.some.injEq] at hxy; rw [← hxy]; exact hb x hx

theorem step_keeps_users_wf (e : Event) (st : DB) (hk : UsersKeyed st) (hb : BarFree st) :
    UsersKeyed (stepEvent st e) ∧ BarFree (stepEvent st e) := by
  cases e with
  | round r => exact round_keeps_users_wf r st hk hb
  | worker o =>
    have := (worker_fields o st).2.1
    simp only [stepEvent]
    constructor
    · unfold UsersKeyed; rw [this]; exact hk
    · unfold BarFree; rw [this]; exact hb

theorem selectedIn_eq_selectedBy (r : RoundIn) (st : DB) (u : UserAd) :
    selectedIn (roundBatch r st).1 u = selectedBy r st u.ID u.ADS_ID := rfl

theorem round_absent (r : RoundIn) (st : DB) (uid aid : String) (hk : UsersKeyed st)
    (hb : BarFree st) (ha : Absent st uid aid) :
    Absent (runDistributionRound r st) uid aid ∧ selectedBy r st uid aid = false := by
  constructor
  · intro y hy hid
    rw [round_users_code r st hk hb, List.mem_filterMap] at hy
    obtain ⟨x, hx, hxy⟩ := hy
    apply ha x hx
    split at hxy
    · have := decRow_ids hxy
      rw [← this.1, ← this.2]; exact hid
    · simp only [Option.some.injEq] at hxy; rw [hxy]; exact hid
  · cases hs : selectedBy r st uid aid with
    | false => rfl
    | true =>
      exfalso
      unfold selectedBy at hs
      rw [List.any_eq_true] at hs
      obtain ⟨j, hj, hid⟩ := hs
      simp only [Bool.and_eq_true, beq_iff_eq] at hid
      obtain ⟨_, _, ad, had, _, h1, h2, _⟩ := mem_roundBatch_ads hj
      exact ha ad had ⟨h1.symm.trans hid.1, h2.symm.trans hid.2⟩

theorem absent_forever (uid aid : String) (es : List Event) :
    ∀ st : DB, UsersKeyed st → BarFree st → Absent st uid aid →
      selectedRounds uid aid es st = 0 ∧ Absent (runEvents es st) uid aid ∧
      UsersKeyed (runEvents es st) ∧ BarFree (runEvents es st) := by
  induction es with
  | nil => intro st hk hb ha; exact ⟨rfl, ha, hk, hb⟩
  | cons e rest ih =>
    intro st hk hb ha
    obtain ⟨hk2, hb2⟩ := step_keeps_users_wf e st hk hb
    cases e with
    | worker o =>
      have ha2 : Absent (stepEvent st (Event.worker o)) uid aid := by
        unfold Absent
        simp only [stepEvent]
        rw [(worker_fields o st).2.1]
        exact ha
      obtain ⟨h1, h2, h3, h4⟩ := ih _ hk2 hb2 ha2
      exact ⟨by simp only [selectedRounds]; exact h1, h2, h3, h4⟩
    | round r =>
      obtain ⟨ha2, hsel⟩ := round_absent r st uid aid hk hb ha
      obtain ⟨h1, h2, h3, h4⟩ := ih (stepEvent st (Event.round r)) hk2 hb2 ha2
      refine ⟨?_, h2, h3, h4⟩
      simp only [selectedRounds, hsel, h1]
      rfl

theorem round_budget (r : RoundIn) (st : DB) (uid aid : String) (t : Int) (hk : UsersKeyed st)
    (hb : BarFree st) (hrow : HasBudget st uid aid t) :
    (selectedBy r st uid aid = false → HasBudget (runDistributionRound r st) uid aid t) ∧
    (selectedBy r st uid aid = true → 0 < jsSub t 1 →
      HasBudget (runDistributionRound r st) uid aid (jsSub t 1)) ∧
    (selectedBy r st uid aid = true → jsSub t 1 ≤ 0 →
      Absent (runDistributionRound r st) uid aid) := by
  obtain ⟨u, hu, h1, h2, h3⟩ := hrow
  have hcode := round_users_code r st hk hb
  have hsel : selectedIn (roundBatch r st).1 u = selectedBy r st uid aid := by
    rw [selectedIn_eq_selectedBy, h1, h2]
  refine ⟨?_, ?_, ?_⟩
  · intro hs
    refine ⟨u, ?_, h1, h2, h3⟩
    rw [hcode, List.mem_filterMap]
    exact ⟨u, hu, by rw [hsel, hs]; simp⟩
  · intro hs ht
    refine ⟨{ u with times := some (jsSub t 1) }, ?_, h1, h2, rfl⟩
    rw [hcode, List.mem_filterMap]
    refine ⟨u, hu, ?_⟩
    rw [hsel, hs, if_pos rfl]
    unfold decRow
    rw [h3]
    simp only
    rw [if_neg (by omega)]
  · intro hs ht y hy hid
    rw [hcode, List.mem_filterMap] at hy
    obtain ⟨x, hx, hxy⟩ := hy
    have hxid : x.ID = uid ∧ x.ADS_ID = aid := by
      split at hxy
      · have := decRow_ids hxy
        rw [← this.1, ← this.2]; exact hid
      · simp only [Option.some.injEq] at hxy; rw [hxy]; exact hid
    have hxu : x = u := users_key_unique hk hx hu (hxid.1.trans h1.symm) (hxid.2.trans h2.symm)
    subst hxu
    rw [hsel, hs, if_pos rfl] at hxy
    unfold decRow at hxy
    rw [h3] at hxy
    simp only at hxy
    rw [if_pos ht] at hxy
    cases hxy

theorem budget_run (uid aid : String) (es : List Event) :
    ∀ (st : DB) (N : Int), UsersKeyed st → BarFree st → 1 ≤ N → N ≤ 9007199254740992 →
      HasBudget st uid aid N →
      (selectedRounds uid aid es st : Int) ≤ N ∧
      ((selectedRounds uid aid es st : Int) < N →
        HasBudget (runEvents es st) uid aid (N - selectedRounds uid aid es st)) ∧
      ((selectedRounds uid aid es st : Int) = N →
        Absent (runEvents es st) uid aid) ∧
      UsersKeyed (runEvents es st) ∧ BarFree (runEvents es st) := by
  induction es with
  | nil =>
    intro st N hk hb hN hN53 hrow
    simp only [selectedRounds, runEvents, List.foldl_nil, Nat.cast_zero, sub_zero]
    exact ⟨by omega, fun _ => hrow, fun h => by omega, hk, hb⟩
  | cons e rest ih =>
    intro st N hk hb hN hN53 hrow
    have hsub := jsSub_one_exact N hN hN53
    obtain ⟨hk2, hb2⟩ := step_keeps_users_wf e st hk hb
    cases e with
    | worker o =>
      have hrow2 : HasBudget (stepEvent st (Event.worker o)) uid aid N := by
        unfold HasBudget
        simp only [stepEvent]
        rw [(worker_fields o st).2.1]
        exact hrow
      simp only [selectedRounds, runEvents, List.foldl_cons]
      exact ih _ N hk2 hb2 hN hN53 hrow2
    | round r =>
      obtain ⟨hno, hyes, hdel⟩ := round_budget r st uid aid N hk hb hrow
      simp only [selectedRounds, runEvents, List.foldl_cons]
      cases hs : selectedBy r st uid aid with
      | false =>
        have := ih _ N hk2 hb2 hN hN53 (hno hs)
        simp only [runEvents] at this
        simpa using this
      | true =>
        by_cases hN1 : 1 < N
        · have hrow3 : HasBudget (runDistributionRound r st) uid aid (N - 1) := by
            rw [← hsub]; exact hyes hs (by rw [hsub]; omega)
          obtain ⟨i1, i2, i3, i4, i5⟩ := ih _ (N - 1) hk2 hb2 (by omega) (by omega) hrow3
          simp only [runEvents] at i2 i3 i4 i5
          simp only [if_true, Nat.cast_add, Nat.cast_one]
          refine ⟨by omega, ?_, ?_, i4, i5⟩
          · intro h
            have := i2 (by omega)
            have e : N - 1 - ↑(selectedRounds uid aid rest (stepEvent st (Event.round r))) =
                N - (1 + ↑(selectedRounds uid aid rest (stepEvent st (Event.round r)))) := by
              omega
            rw [← e]; exact this
          · intro h
            exact i3 (by omega)
        · have hN2 : N = 1 := by omega
          have habs := hdel hs (by rw [hsub]; omega)
          obtain ⟨j1, j2, j3, j4⟩ := absent_forever uid aid rest _ hk2 hb2 habs
          simp only [runEvents] at j2 j3 j4
          simp only [if_true, j1, Nat.cast_add, Nat.cast_one, Nat.cast_zero, add_zero]
          refine ⟨by omega, fun h => by omega, fun _ => j2, j3, j4⟩

/-- Where the subtraction of line 123 is exact: a campaign with a finite budget `N` between 1
and 2^53 (in a `users` table keyed by advertiser and campaign id, ids free of the separator),
along any run of complete rounds and worker passes, whatever the payment outcomes: the number
of rounds that selected it never exceeds `N`; while that number `k` is below `N` the row exists
with remaining budget `N - k`; once it is `N` the row no longer exists, and from then on,
whatever runs next, the row stays absent and no round puts the campaign in a job. -/
theorem budget_exhausts_exact (st : DB) (uid aid : String) (N : Int) (hk : UsersKeyed st)
    (hb : BarFree st) (hN : 1 ≤ N) (hN53 : N ≤ 9007199254740992)
    (hrow : HasBudget st uid aid N) (es : List Event) :
    (selectedRounds uid aid es st : Int) ≤ N ∧
    ((selectedRounds uid aid es st : Int) < N →
      HasBudget (runEvents es st) uid aid (N - selectedRounds uid aid es st)) ∧
    ((selectedRounds uid aid es st : Int) = N →
      ∀ later : List Event,
        Absent (runEvents later (runEvents es st)) uid aid ∧
        ∀ r : RoundIn, selectedBy r (runEvents later (runEvents es st)) uid aid = false) := by
  obtain ⟨h1, h2, h3, h4, h5⟩ := budget_run uid aid es st N hk hb hN hN53 hrow
  refine ⟨h1, h2, ?_⟩
  intro hk later
  obtain ⟨_, j2, j3, j4⟩ := absent_forever uid aid later _ h4 h5 (h3 hk)
  exact ⟨j2, fun r => (round_absent r _ uid aid j3 j4 j2).2⟩

end AdsBot

namespace AdsBot

/-! ## The well-formedness conditions are invariants -/

theorem clampCooldown_range (x : Int) : 300 ≤ clampCooldown x ∧ clampCooldown x ≤ 86400 := by
  unfold clampCooldown; omega

theorem upsertServer_keyed (g : String) (o p c : Option String) (cd : Option Int) (st : DB)
    (hk : ServersKeyed st) : ServersKeyed (upsertServer g o p c cd st) := by
  unfold upsertServer ServersKeyed
  cases hf : st.servers.find? (fun s => s.ID == g) with
  | none =>
    simp only [List.map_append, List.map_cons, List.map_nil]
    rw [List.nodup_append]
    refine ⟨hk, by simp, ?_⟩
    intro a ha hb
    simp only [List.mem_singleton] at hb
    subst hb
    rw [List.mem_map] at ha
    obtain ⟨s, hs, hid⟩ := ha
    have := List.find?_eq_none.mp hf s hs
    simp [hid] at this
  | some s0 =>
    simp only [List.map_map]
    have : ((fun s : Server => s.ID) ∘ fun s : Server =>
        if s.ID = g then
          { s with Owner := coalesce o s.Owner, Panel := coalesce p s.Panel,
                   channel := coalesce c s.channel, cooldown := coalesce cd s.cooldown }
        else s) = fun s : Server => s.ID := by
      funext s
      simp only [Function.comp]
      split <;> rfl
    rw [this]
    exact hk

theorem upsertServer_cooldowns (g : String) (o p c : Option String) (cd : Option Int) (st : DB)
    (hcd : ∀ x ∈ cd, -2147483648 ≤ x ∧ x < 2147483648) (hst : CooldownsStored st) :
    CooldownsStored (upsertServer g o p c cd st) := by
  unfold upsertServer
  cases hf : st.servers.find? (fun s => s.ID == g) with
  | none =>
    intro s hs
    simp only [List.mem_append, List.mem_singleton] at hs
    rcases hs with hs | hs
    · exact hst s hs
    · subst hs; exact hcd
  | some s0 =>
    intro s hs
    simp only [List.mem_map] at hs
    obtain ⟨s1, hs1, rfl⟩ := hs
    split
    · intro x hx
      simp only at hx
      cases hcd1 : cd with
      | none => rw [hcd1] at hx; exact hst s1 hs1 x hx
      | some y =>
        rw [hcd1] at hx
        simp only [coalesce, Option.mem_def, Option.some.injEq] at hx
        subst hx
        exact hcd y (by rw [hcd1]; rfl)
    · exact hst s1 hs1

/-- What `/setup` stores keeps `servers` keyed and every stored cooldown between 300 and 86400,
hence within 32 bits, whatever integer the user typed. -/
theorem setupCommand_wf (g : String) (o p c : Option String) (cd : Option Int) (st : DB)
    (hk : ServersKeyed st) (hst : CooldownsStored st) :
    ServersKeyed (setupCommand g o p c cd st) ∧ CooldownsStored (setupCommand g o p c cd st) := by
  unfold setupCommand
  refine ⟨upsertServer_keyed _ _ _ _ _ _ hk, upsertServer_cooldowns _ _ _ _ _ _ ?_ hst⟩
  intro x hx
  simp only [Option.mem_def, Option.map_eq_some'] at hx
  obtain ⟨y, _, rfl⟩ := hx
  have := clampCooldown_range y
  omega

theorem step_keeps_servers_wf (e : Event) (st : DB) (hk : ServersKeyed st)
    (hst : CooldownsStored st) :
    ServersKeyed (stepEvent st e) ∧ CooldownsStored (stepEvent st e) := by
  cases e with
  | worker o =>
    simp only [stepEvent]
    unfold ServersKeyed CooldownsStored
    rw [(worker_fields o st).1]
    exact ⟨hk, hst⟩
  | round r =>
    simp only [stepEvent]
    unfold ServersKeyed CooldownsStored
    rw [round_servers]
    constructor
    · simp only [List.map_map]
      have : ((fun s : Server => s.ID) ∘ stamp (roundTargets r st) r.now) =
          fun s : Server => s.ID := by
        funext s; simp [Function.comp, stamp_ID]
      rw [this]; exact hk
    · intro s hs
      rw [List.mem_map] at hs
      obtain ⟨s1, hs1, rfl⟩ := hs
      unfold stamp
      split
      · exact hst s1 hs1
      · exact hst s1 hs1

/-! ### Queue numbers stay distinct -/

theorem le_maxQueue {q : Nat} {qs : List Nat} (h : q ∈ qs) : q ≤ maxQueue qs := by
  induction qs with
  | nil => simp at h
  | cons a rest ih =>
    simp only [maxQueue, List.foldr_cons]
    rcases List.mem_cons.mp h with rfl | h
    · exact Nat.le_max_left _ _
    · exact le_trans (ih h) (Nat.le_max_right _ _)

theorem nextRowid_fresh (seq : Nat) (qs : List Nat) : nextRowid seq qs ∉ qs := by
  intro h
  have := le_maxQueue h
  unfold nextRowid at this
  have h2 : maxQueue qs ≤ max seq (maxQueue qs) := Nat.le_max_right _ _
  omega

theorem insertAdsRow_keyed (st : DB) (j : AdJob) (hq : QueuesKeyed st) :
    QueuesKeyed (insertAdsRow st j) := by
  unfold QueuesKeyed insertAdsRow
  refine ⟨?_, hq.2⟩
  simp only [List.map_append, List.map_cons, List.map_nil]
  rw [List.nodup_append]
  refine ⟨hq.1, by simp, ?_⟩
  intro a ha hb
  simp only [List.mem_singleton] at hb
  subst hb
  exact nextRowid_fresh _ _ ha

theorem insertPayRow_keyed (st : DB) (j : PayJob) (hq : QueuesKeyed st) :
    QueuesKeyed (insertPayRow st j) := by
  unfold QueuesKeyed insertPayRow
  refine ⟨hq.1, ?_⟩
  simp only [List.map_append, List.map_cons, List.map_nil]
  rw [List.nodup_append]
  refine ⟨hq.2, by simp, ?_⟩
  intro a ha hb
  simp only [List.mem_singleton] at hb
  subst hb
  exact nextRowid_fresh _ _ ha

theorem addToAdsQueue_keyed (rows : List AdJob) :
    ∀ st : DB, QueuesKeyed st → QueuesKeyed (addToAdsQueue rows st) := by
  induction rows with
  | nil => intro st h; exact h
  | cons j rest ih =>
    intro st h
    simp only [addToAdsQueue, List.foldl_cons]
    exact ih _ (insertAdsRow_keyed st j h)

theorem addToPaymentQueue_keyed (rows : List PayJob) :
    ∀ st : DB, QueuesKeyed st → QueuesKeyed (addToPaymentQueue rows st) := by
  induction rows with
  | nil => intro st h; exact h
  | cons j rest ih =>
    intro st h
    simp only [addToPaymentQueue, List.foldl_cons]
    exact ih _ (insertPayRow_keyed st j h)

theorem round_keeps_queues_keyed (r : RoundIn) (st : DB) (hq : QueuesKeyed st) :
    QueuesKeyed (runDistributionRound r st) := by
  rw [runDistributionRound_eq]
  split
  · exact hq
  · have h1 := addToPaymentQueue_keyed (roundBatch r st).2 _
      (addToAdsQueue_keyed (roundBatch r st).1 st hq)
    have hd := foldl_decrementKey_fields (jsSet ((roundBatch r st).1.map adKey))
      ((roundBatch r st).1.foldl (fun s q => setLatest q.Server r.now s)
        (addToPaymentQueue (roundBatch r st).2 (addToAdsQueue (roundBatch r st).1 st)))
    have hs := foldl_setLatest_fields r.now (roundBatch r st).1
      (addToPaymentQueue (roundBatch r st).2 (addToAdsQueue (roundBatch r st).1 st))
    unfold QueuesKeyed at h1 ⊢
    rw [hd.2.2.1, hd.2.2.2.1, hs.2.2.1, hs.2.2.2.1]
    exact h1

theorem worker_keeps_queues_keyed (o : ChargeOutcome) (st : DB) (hq : QueuesKeyed st) :
    QueuesKeyed (runPaymentWorkerBody o st).1 := by
  unfold runPaymentWorkerBody
  cases popNextPayment st with
  | none =>
    simp only [cleanupSequencesIfEmpty]
    split
    · exact hq
    · exact hq
  | some job =>
    have h1 : QueuesKeyed (deletePayment job.queue st) :=
      ⟨hq.1, List.Nodup.sublist ((List.filter_sublist _).map _) hq.2⟩
    have h2 : ∀ q, QueuesKeyed (deleteAdsQueue q (deletePayment job.queue st)) := fun q =>
      ⟨List.Nodup.sublist ((List.filter_sublist _).map _) h1.1, h1.2⟩
    simp only
    split
    · split
      · exact h2 _
      · exact h1
    · split
      · exact h2 _
      · exact h1

/-- Every complete round and every complete worker pass keeps all PRIMARY KEYs, the stored
cooldowns and the shape of the ids. -/
theorem step_keeps_wf (e : Event) (st : DB)
    (h : ServersKeyed st ∧ UsersKeyed st ∧ QueuesKeyed st ∧ BarFree st ∧ CooldownsStored st) :
    ServersKeyed (stepEvent st e) ∧ UsersKeyed (stepEvent st e) ∧ QueuesKeyed (stepEvent st e) ∧
      BarFree (stepEvent st e) ∧ CooldownsStored (stepEvent st e) := by
  obtain ⟨h1, h2, h3, h4, h5⟩ := h
  obtain ⟨a1, a2⟩ := step_keeps_servers_wf e st h1 h5
  obtain ⟨b1, b2⟩ := step_keeps_users_wf e st h2 h4
  refine ⟨a1, b1, ?_, b2, a2⟩
  cases e with
  | round r => exact round_keeps_queues_keyed r st h3
  | worker o => exact worker_keeps_queues_keyed o st h3

end AdsBot

namespace AdsBot

/-! ## The theorems at the sample data -/

/-- The exact decrement on the sample data: the only campaign has budget 1 and is selected, so
the round deletes its row. -/
theorem round_decrements_exact_sample :
    UsersKeyed sampleDb ∧ BarFree sampleDb ∧
    (∀ u ∈ sampleDb.users, ∀ t ∈ u.times, 1 ≤ t ∧ t ≤ 9007199254740992) ∧
    (runDistributionRound sampleRound sampleDb).users =
      sampleDb.users.filterMap (specAfterRound (roundBatch sampleRound sampleDb).1) ∧
    (runDistributionRound sampleRound sampleDb).users = [] :=
  ⟨by decide, by decide, by decide,
    (round_decrements_exact sampleRound sampleDb (by decide) (by decide) (by decide)).1, by decide⟩

/-- Witness of C4: server `g1` is a target at time 1000 and again, after a worker pass, at time
1300, which is 300 seconds later. -/
theorem cooldown_respected_witness :
    ServersKeyed sampleDbUnlimited ∧ CooldownsStored sampleDbUnlimited ∧
    "g1" ∈ roundTargets sampleRound sampleDbUnlimited ∧
    "g1" ∈ roundTargets sampleRoundLater
      (runEvents [Event.worker (ChargeOutcome.response true)]
        (runDistributionRound sampleRound sampleDbUnlimited)) ∧
    (sampleRoundLater.clk "g1" - sampleRound.now ≥ clamp ((some 300 : Option Int).getD 300) 300 86400 ∧
     sampleRoundLater.now - sampleRound.now ≥ clamp ((some 300 : Option Int).getD 300) 300 86400) :=
  ⟨by decide, by decide, by decide, by decide,
    (cooldown_respected sampleDbUnlimited (by decide) (by decide)).2 sampleRound sampleRoundLater
      [Event.worker (ChargeOutcome.response true)] "g1" (sampleServer "g1" (some 300) (some 699))
      (by decide)
      ⟨fun _ => by show (1000 : Int) ≤ 1300; decide, fun _ => by show (1300 : Int) ≤ 1300; decide,
        trivial⟩
      (by decide) (by decide)⟩

/-- Witness of C5: after the sample round both queues hold two rows; a pass whose charge
request throws leaves one row in each and posts nothing. -/
theorem failed_charge_discards_witness :
    QueuesKeyed (runDistributionRound sampleRound sampleDb) ∧
    (runDistributionRound sampleRound sampleDb).paymentqueue ≠ [] ∧
    (∃ job ∈ (runDistributionRound sampleRound sampleDb).paymentqueue,
      (∀ p ∈ (runDistributionRound sampleRound sampleDb).paymentqueue, job.queue ≤ p.queue) ∧
      (runPaymentWorkerBody ChargeOutcome.transportError
        (runDistributionRound sampleRound sampleDb)).1.paymentqueue =
        (runDistributionRound sampleRound sampleDb).paymentqueue.filter
          (fun p => decide (p ≠ job))) ∧
    postCalls (runPaymentWorkerBody ChargeOutcome.transportError
      (runDistributionRound sampleRound sampleDb)).2 = [] :=
  ⟨by decide, by decide,
    (failed_charge_discards ChargeOutcome.transportError (runDistributionRound sampleRound sampleDb)
      (by decide) (by decide) (Or.inl rfl)).imp
      (fun _ h => ⟨h.1, h.2.1, h.2.2.1⟩),
    by decide⟩

/-- Witness of C6: the general part at the database after the sample round, and the scenario
at the database with one server and one unlimited campaign. -/
theorem successful_charge_posts_witness :
    (postCalls (runPaymentWorkerBody (ChargeOutcome.response true)
      (runDistributionRound sampleRound sampleDb)).2).length = 1 ∧
    (∃ job ∈ (runDistributionRound sampleRound sampleDb).paymentqueue,
      (runPaymentWorkerBody (ChargeOutcome.response true)
        (runDistributionRound sampleRound sampleDb)).1.paymentqueue =
        (runDistributionRound sampleRound sampleDb).paymentqueue.filter
          (fun p => decide (p ≠ job))) ∧
    ((runDistributionRound sampleRound sampleDbUnlimited).adsqueue.length = 1 ∧
      (runDistributionRound sampleRound sampleDbUnlimited).paymentqueue.length = 1 ∧
      (postCalls (runPaymentWorkerBody (ChargeOutcome.response true)
        (runDistributionRound sampleRound sampleDbUnlimited)).2).length = 1 ∧
      (runPaymentWorkerBody (ChargeOutcome.response true)
        (runDistributionRound sampleRound sampleDbUnlimited)).1.adsqueue = [] ∧
      (runPaymentWorkerBody (ChargeOutcome.response true)
        (runDistributionRound sampleRound sampleDbUnlimited)).1.paymentqueue = []) :=
  ⟨by decide,
    (successful_charge_posts.1 (runDistributionRound sampleRound sampleDb) (by decide)
      (by decide)).imp (fun _ h => ⟨h.1, h.2.2.1⟩),
    successful_charge_posts.2 sampleRound sampleDbUnlimited
      (sampleServer "g1" (some 300) (some 699))
      { ID := "u1", ADS_ID := "u1:1", times := none, card := "card-1" }
      { AD_ID := "u1:1", User := "u1", ad := "hello", link := none, msg := none }
      rfl rfl (by decide) (by decide) rfl (by decide) rfl (by decide) rfl rfl⟩

/-- Witness of C7 as amended, on the sample data. -/
theorem budget_one_serves_both_witness :
    (roundEligibles sampleRound sampleDb).length = 2 ∧
    ((appendedAds sampleRound sampleDb).length = 2 ∧
      (appendedPay sampleRound sampleDb).length = 2 ∧
      (roundTargets sampleRound sampleDb).Perm
        ((roundEligibles sampleRound sampleDb).map (fun s => s.ID)) ∧
      (∀ a ∈ appendedAds sampleRound sampleDb, a.User = "u1" ∧ a.AD_ID = "u1:1") ∧
      (runDistributionRound sampleRound sampleDb).users = []) :=
  ⟨by decide,
    budget_one_serves_both sampleRound sampleDb
      { ID := "u1", ADS_ID := "u1:1", times := some 1, card := "card-1" }
      { AD_ID := "u1:1", User := "u1", ad := "hello", link := none, msg := none }
      (by decide) rfl rfl (by decide) (by decide)⟩

/-- Witness of C8: on the sample data there are two eligible servers and one campaign, and the
round enqueues two rows in each queue, both for the campaign at position 0. -/
theorem pairing_by_index_witness :
    (∀ ad ∈ sampleDb.users, (∀ t ∈ ad.times, 0 < t) ∧ (getAdMeta sampleDb ad.ADS_ID).isSome) ∧
    sampleDb.users ≠ [] ∧
    (appendedAds sampleRound sampleDb).length = (roundEligibles sampleRound sampleDb).length ∧
    (appendedPay sampleRound sampleDb).length = (roundEligibles sampleRound sampleDb).length :=
  ⟨by decide, by decide,
    ((pairing_by_index sampleRound sampleDb).2 (by decide) (by decide)).1,
    ((pairing_by_index sampleRound sampleDb).2 (by decide) (by decide)).2.1⟩

/-- The exact budget rule on the sample data: the campaign has budget 1; after the one round
that selects it the row is gone for good. -/
theorem budget_exhausts_exact_sample :
    UsersKeyed sampleDb ∧ BarFree sampleDb ∧
    selectedRounds "u1" "u1:1" [Event.round sampleRound] sampleDb = 1 ∧
    ∀ later : List Event,
      Absent (runEvents later (runEvents [Event.round sampleRound] sampleDb)) "u1" "u1:1" ∧
      ∀ r : RoundIn,
        selectedBy r (runEvents later (runEvents [Event.round sampleRound] sampleDb))
          "u1" "u1:1" = false :=
  ⟨by decide, by decide, by decide,
    (budget_exhausts_exact sampleDb "u1" "u1:1" 1 (by decide) (by decide) (by decide) (by decide)
      ⟨{ ID := "u1", ADS_ID := "u1:1", times := some 1, card := "card-1" }, by decide, rfl, rfl,
        rfl⟩
      [Event.round sampleRound]).2.2 (by decide)⟩

/-- Witness of C10: on the sample data both servers are targets and both are stamped 1000. -/
theorem round_stamps_targets_witness :
    ServersKeyed sampleDb ∧
    (runDistributionRound sampleRound sampleDb).servers =
      sampleDb.servers.map (stamp (roundTargets sampleRound sampleDb) sampleRound.now) ∧
    (runDistributionRound sampleRound sampleDb).servers.map (fun s => s.latest) =
      [some 1000, some 1000] :=
  ⟨by decide, (round_stamps_targets sampleRound sampleDb (by decide)
      (fun _ => by show (1000 : Int) ≤ 1000; decide)).1,
    by decide⟩

end AdsBot

namespace AdsBot

/-! ## The clamp of the cooldown -/

theorem clampCooldown_samples :
    clampCooldown 86400 = clamp 86400 300 86400 ∧ clampCooldown 299 = clamp 299 300 86400 ∧
    clampCooldown (-5) = clamp (-5) 300 86400 ∧ clampCooldown 2147483647 = 86400 := by
  decide

/-- C12 fails at `sec = 2147483648`, a value the integer option of `/setup` accepts: `sec | 0`
wraps it to `-2147483648`, so `clampCooldown` answers 300 where `min(86400, max(300, sec))` is
86400, and `/setup` stores 300; at `sec = 4294967696` the answer is 400, neither bound. The
result still lies between 300 and 86400 (`clampCooldown_range`) and is the clamp for every
`sec` that fits in 32 bits (`clampCooldown_of_fits`). -/
theorem clampCooldown_wraps :
    clampCooldown 2147483648 = 300 ∧ clamp 2147483648 300 86400 = 86400 ∧
    clampCooldown 4294967696 = 400 ∧ clamp 4294967696 300 86400 = 86400 ∧
    (setupCommand "g1" (some "owner-1") none (some "chan-1") (some 2147483648) emptyDb).servers.map
      (fun s => s.cooldown) = [some 300] := by
  decide

end AdsBot

namespace AdsBot

/-! ## The two queues stay aligned -/

theorem oldestBy_sorted {α : Type} (q : α → Nat) (x : α) (xs : List α)
    (h : (x :: xs).Pairwise (fun a b => q a < q b)) : oldestBy q (x :: xs) = some x := by
  simp only [oldestBy]
  cases hr : oldestBy q xs with
  | none => rfl
  | some y =>
    have hy := (oldestBy_some q xs y hr).1
    have hlt : q x < q y := (List.pairwise_cons.mp h).1 y hy
    simp only
    rw [if_pos (Nat.le_of_lt hlt)]

theorem filter_head_sorted {α : Type} (q : α → Nat) (x : α) (xs : List α)
    (h : (x :: xs).Pairwise (fun a b => q a < q b)) :
    (x :: xs).filter (fun y => q y != q x) = xs := by
  rw [List.filter_cons]
  simp only [bne_self_eq_false, Bool.false_eq_true, if_false]
  rw [List.filter_eq_self]
  intro y hy
  have hlt : q x < q y := (List.pairwise_cons.mp h).1 y hy
  simp only [bne_iff_ne, ne_eq]
  omega

theorem insertAdsRow_sorted (st : DB) (j : AdJob) (h : QueuesSorted st) :
    QueuesSorted (insertAdsRow st j) := by
  unfold QueuesSorted insertAdsRow
  refine ⟨?_, h.2⟩
  simp only
  rw [List.pairwise_append]
  refine ⟨h.1, List.pairwise_singleton _ _, ?_⟩
  intro a ha b hb
  simp only [List.mem_singleton] at hb
  subst hb
  have h1 : a.queue ≤ maxQueue (st.adsqueue.map (fun x => x.queue)) :=
    le_maxQueue (List.mem_map_of_mem _ ha)
  have h2 : maxQueue (st.adsqueue.map (fun x => x.queue)) ≤
      max st.adsSeq (maxQueue (st.adsqueue.map (fun x => x.queue))) := Nat.le_max_right _ _
  simp only [nextRowid]
  omega

theorem insertPayRow_sorted (st : DB) (j : PayJob) (h : QueuesSorted st) :
    QueuesSorted (insertPayRow st j) := by
  unfold QueuesSorted insertPayRow
  refine ⟨h.1, ?_⟩
  simp only
  rw [List.pairwise_append]
  refine ⟨h.2, List.pairwise_singleton _ _, ?_⟩
  intro a ha b hb
  simp only [List.mem_singleton] at hb
  subst hb
  have h1 : a.queue ≤ maxQueue (st.paymentqueue.map (fun x => x.queue)) :=
    le_maxQueue (List.mem_map_of_mem _ ha)
  have h2 : maxQueue (st.paymentqueue.map (fun x => x.queue)) ≤
      max st.paySeq (maxQueue (st.paymentqueue.map (fun x => x.queue))) := Nat.le_max_right _ _
  simp only [nextRowid]
  omega

theorem addToAdsQueue_sorted (rows : List AdJob) :
    ∀ st : DB, QueuesSorted st → QueuesSorted (addToAdsQueue rows st) := by
  induction rows with
  | nil => intro st h; exact h
  | cons j rest ih =>
    intro st h
    simp only [addToAdsQueue, List.foldl_cons]
    exact ih _ (insertAdsRow_sorted st j h)

theorem addToPaymentQueue_sorted (rows : List PayJob) :
    ∀ st : DB, QueuesSorted st → QueuesSorted (addToPaymentQueue rows st) := by
  induction rows with
  | nil => intro st h; exact h
  | cons j rest ih =>
    intro st h
    simp only [addToPaymentQueue, List.foldl_cons]
    exact ih _ (insertPayRow_sorted st j h)

theorem round_keeps_sorted (r : RoundIn) (st : DB) (h : QueuesSorted st) :
    QueuesSorted (runDistributionRound r st) := by
  rw [runDistributionRound_eq]
  split
  · exact h
  · have h1 := addToPaymentQueue_sorted (roundBatch r st).2 _
      (addToAdsQueue_sorted (roundBatch r st).1 st h)
    have hd := foldl_decrementKey_fields (jsSet ((roundBatch r st).1.map adKey))
      ((roundBatch r st).1.foldl (fun s q => setLatest q.Server r.now s)
        (addToPaymentQueue (roundBatch r st).2 (addToAdsQueue (roundBatch r st).1 st)))
    have hs := foldl_setLatest_fields r.now (roundBatch r st).1
      (addToPaymentQueue (roundBatch r st).2 (addToAdsQueue (roundBatch r st).1 st))
    unfold QueuesSorted at h1 ⊢
    rw [hd.2.2.1, hd.2.2.2.1, hs.2.2.1, hs.2.2.2.1]
    exact h1

theorem step_keeps_servers_keyed (e : Event) (st : DB) (hk : ServersKeyed st) :
    ServersKeyed (stepEvent st e) := by
  cases e with
  | worker o =>
    simp only [stepEvent]
    unfold ServersKeyed
    rw [(worker_fields o st).1]
    exact hk
  | round r =>
    simp only [stepEvent]
    unfold ServersKeyed
    rw [round_servers]
    simp only [List.map_map]
    have : ((fun s : Server => s.ID) ∘ stamp (roundTargets r st) r.now) =
        fun s : Server => s.ID := by
      funext s; simp [Function.comp, stamp_ID]
    rw [this]; exact hk

theorem forall₂_of_maps {α β γ δ : Type} (R : γ → δ → Prop) (f : α → γ) (g : β → δ) :
    ∀ (L : List (γ × δ)) (A : List α) (P : List β),
      A.map f = L.map Prod.fst → P.map g = L.map Prod.snd → (∀ x ∈ L, R x.1 x.2) →
      List.Forall₂ (fun a p => R (f a) (g p)) A P := by
  intro L
  induction L with
  | nil =>
    intro A P hA hP _
    simp only [List.map_nil, List.map_eq_nil_iff] at hA hP
    subst hA; subst hP
    exact List.Forall₂.nil
  | cons x rest ih =>
    intro A P hA hP hR
    cases A with
    | nil => simp at hA
    | cons a A2 =>
      cases P with
      | nil => simp at hP
      | cons p P2 =>
        simp only [List.map_cons, List.cons.injEq] at hA hP
        refine List.Forall₂.cons ?_ (ih A2 P2 hA.2 hP.2 (fun y hy => hR y (List.mem_cons_of_mem _ hy)))
        rw [hA.1, hP.1]
        exact hR x (List.mem_cons_self _ _)

theorem pairedRows_round (r : RoundIn) (st : DB) (a : AdsRow) (p : PayRow)
    (h : PairedRows st a p) : PairedRows (runDistributionRound r st) a p := by
  obtain ⟨h1, h2, s, hs, h3, h4⟩ := h
  refine ⟨h1, h2, stamp (roundTargets r st) r.now s, ?_, ?_, ?_⟩
  · rw [round_servers]; exact List.mem_map_of_mem _ hs
  · rw [stamp_ID]; exact h3
  · unfold stamp; split
    · exact h4
    · exact h4

theorem round_keeps_aligned (r : RoundIn) (st : DB) (h : Aligned st) :
    Aligned (runDistributionRound r st) := by
  unfold Aligned
  obtain ⟨hA, hAm, hP, hPm⟩ := round_queues r st
  rw [hA, hP]
  apply List.rel_append
  · exact h.imp (fun a p hap => pairedRows_round r st a p hap)
  · rw [roundBatch_pairs] at hAm hPm
    have key := forall₂_of_maps
      (fun (j : AdJob) (q : PayJob) => j.AD_ID = q.AD_ID ∧ j.User = q.ID ∧
        ∃ s ∈ st.servers, s.ID = j.Server ∧ s.Owner = q.server_owner_id)
      AdsRow.job PayRow.job (roundPairs r st) (appendedAds r st) (appendedPay r st) hAm hPm
      (by
        intro x hx
        obtain ⟨k, s, ad, copy, hs, _, _, _, h5, h6⟩ := mem_roundPairs hx
        have hsm : s ∈ st.servers := by
          have : s ∈ roundEligibles r st := (mem_shuffle _ _ _).mp (List.getElem?_mem hs)
          unfold roundEligibles at this
          exact (List.mem_filter.mp this).1
        rw [h5, h6]
        exact ⟨rfl, rfl, s, hsm, rfl, rfl⟩)
    exact key.imp (fun a p hap => pairedRows_round r st a p hap)

/-- On aligned queues in `queue` order, the worker reads the first payment row, finds the first
delivery row, and removes both. -/
theorem worker_pass_aligned (o : ChargeOutcome) (st : DB) (hs : QueuesSorted st)
    (ha : Aligned st) (job : PayRow) (hpop : popNextPayment st = some job) :
    ∃ row arest prest, st.adsqueue = row :: arest ∧ st.paymentqueue = job :: prest ∧
      PairedRows st row job ∧
      oldestBy (fun a => a.queue)
        ((deletePayment job.queue st).adsqueue.filter (fun a => a.AD_ID == job.AD_ID)) = some row ∧
      (runPaymentWorkerBody o st).1.adsqueue = arest ∧
      (runPaymentWorkerBody o st).1.paymentqueue = prest ∧
      (runPaymentWorkerBody o st).2 =
        if o = ChargeOutcome.response true then
          [Call.charge job.card job.server_owner_id, Call.postAd row.Server row]
        else [Call.charge job.card job.server_owner_id] := by
  unfold Aligned at ha
  cases hq : st.paymentqueue with
  | nil =>
    unfold popNextPayment at hpop
    rw [hq] at hpop
    simp [oldestBy] at hpop
  | cons p prest =>
    have hsp : (p :: prest).Pairwise (fun a b => a.queue < b.queue) := by rw [← hq]; exact hs.2
    have hjob : job = p := by
      unfold popNextPayment at hpop
      rw [hq, oldestBy_sorted (fun x : PayRow => x.queue) p prest hsp] at hpop
      exact (Option.some.inj hpop).symm
    subst hjob
    cases hqa : st.adsqueue with
    | nil => rw [hq, hqa] at ha; cases ha
    | cons row arest =>
      rw [hq, hqa] at ha
      have hpair : PairedRows st row job := by
        cases ha with
        | cons h _ => exact h
      have hsa : (row :: arest).Pairwise (fun a b => a.queue < b.queue) := by
        rw [← hqa]; exact hs.1
      have hfilt : (row :: arest).filter (fun a => a.AD_ID == job.AD_ID) =
          row :: arest.filter (fun a => a.AD_ID == job.AD_ID) := by
        rw [List.filter_cons]
        simp [hpair.1]
      have hfound : oldestBy (fun a : AdsRow => a.queue)
          ((row :: arest).filter (fun a => a.AD_ID == job.AD_ID)) = some row := by
        rw [hfilt]
        apply oldestBy_sorted
        rw [← hfilt]
        exact hsa.filter _
      have hdelp : (job :: prest).filter (fun y => y.queue != job.queue) = prest :=
        filter_head_sorted (fun x : PayRow => x.queue) job prest hsp
      have hdela : (row :: arest).filter (fun y => y.queue != row.queue) = arest :=
        filter_head_sorted (fun x : AdsRow => x.queue) row arest hsa
      refine ⟨row, arest, prest, rfl, rfl, hpair, ?_, ?_⟩
      · simp only [deletePayment, hqa]
        exact hfound
      · unfold runPaymentWorkerBody
        rw [hpop]
        simp only [deletePayment, hqa, hq, hfound, deleteAdsQueue, hdelp, hdela]
        cases o with
        | transportError => simp [payFromCard]
        | response success => cases success <;> simp [payFromCard]

theorem worker_keeps_aligned (o : ChargeOutcome) (st : DB) (hs : QueuesSorted st)
    (ha : Aligned st) :
    QueuesSorted (runPaymentWorkerBody o st).1 ∧ Aligned (runPaymentWorkerBody o st).1 := by
  cases hpop : popNextPayment st with
  | none =>
    have : (runPaymentWorkerBody o st).1 = cleanupSequencesIfEmpty st := by
      unfold runPaymentWorkerBody; rw [hpop]
    rw [this]
    unfold cleanupSequencesIfEmpty
    split
    · exact ⟨hs, ha⟩
    · exact ⟨hs, ha⟩
  | some job =>
    obtain ⟨row, arest, prest, h1, h2, _, _, h5, h6, _⟩ :=
      worker_pass_aligned o st hs ha job hpop
    have hsv := (worker_fields o st).1
    constructor
    · unfold QueuesSorted
      rw [h5, h6]
      have ha1 := hs.1
      have ha2 := hs.2
      rw [h1] at ha1
      rw [h2] at ha2
      exact ⟨(List.pairwise_cons.mp ha1).2, (List.pairwise_cons.mp ha2).2⟩
    · unfold Aligned at ha ⊢
      rw [h5, h6]
      rw [h1, h2] at ha
      cases ha with
      | cons _ hrest =>
        apply hrest.imp
        intro a p hap
        obtain ⟨e1, e2, s, hsm, e3, e4⟩ := hap
        exact ⟨e1, e2, s, by rw [hsv]; exact hsm, e3, e4⟩

theorem run_keeps_aligned (es : List Event) :
    ∀ st : DB, ServersKeyed st → QueuesSorted st → Aligned st →
      ServersKeyed (runEvents es st) ∧ QueuesSorted (runEvents es st) ∧
        Aligned (runEvents es st) := by
  induction es with
  | nil => intro st h1 h2 h3; exact ⟨h1, h2, h3⟩
  | cons e rest ih =>
    intro st h1 h2 h3
    simp only [runEvents, List.foldl_cons]
    have hk := step_keeps_servers_keyed e st h1
    cases e with
    | round r =>
      exact ih _ hk (round_keeps_sorted r st h2) (round_keeps_aligned r st h3)
    | worker o =>
      obtain ⟨a, b⟩ := worker_keeps_aligned o st h2 h3
      exact ih _ hk a b

end AdsBot

namespace AdsBot

/-- C13: from a database with empty queues (and `servers` keyed by id), after any run of
complete rounds and complete worker passes, `adsqueue` and `paymentqueue` are equally long,
both stand in `queue` order (position `k` is the `k`-th oldest row), and are aligned row by
row: same campaign id, same advertiser id, and the payout destination of the payment row is
the owner of the server of the delivery row. Hence the payment row the worker reads is the
first payment row, the delivery row it finds by campaign id is the first delivery row, the one
created with it, and whenever the pass posts, it posts that row to its server and the charge
request of the pass names the owner of that server. -/
theorem queues_stay_aligned (st0 : DB) (hk : ServersKeyed st0) (ha : st0.adsqueue = [])
    (hp : st0.paymentqueue = []) (es : List Event) :
    (runEvents es st0).adsqueue.length = (runEvents es st0).paymentqueue.length ∧
    QueuesSorted (runEvents es st0) ∧
    Aligned (runEvents es st0) ∧
    (∀ (o : ChargeOutcome) (job : PayRow), popNextPayment (runEvents es st0) = some job →
      ∃ row, (runEvents es st0).adsqueue.head? = some row ∧
        (runEvents es st0).paymentqueue.head? = some job ∧
        oldestBy (fun a => a.queue)
          ((deletePayment job.queue (runEvents es st0)).adsqueue.filter
            (fun a => a.AD_ID == job.AD_ID)) = some row ∧
        PairedRows (runEvents es st0) row job ∧
        (∀ g sent, (g, sent) ∈ postCalls (runPaymentWorkerBody o (runEvents es st0)).2 →
          sent = row ∧ g = row.Server ∧
          Call.charge job.card job.server_owner_id ∈
            (runPaymentWorkerBody o (runEvents es st0)).2 ∧
          ∃ s, getServer (runEvents es st0) g = some s ∧ s.Owner = job.server_owner_id)) := by
  have hs0 : QueuesSorted st0 := by
    unfold QueuesSorted; rw [ha, hp]; exact ⟨List.Pairwise.nil, List.Pairwise.nil⟩
  have ha0 : Aligned st0 := by
    unfold Aligned; rw [ha, hp]; exact List.Forall₂.nil
  obtain ⟨hk1, hs1, ha1⟩ := run_keeps_aligned es st0 hk hs0 ha0
  refine ⟨List.Forall₂.length_eq ha1, hs1, ha1, ?_⟩
  intro o job hpop
  obtain ⟨row, arest, prest, h1, h2, h3, h4, _, _, h7⟩ :=
    worker_pass_aligned o (runEvents es st0) hs1 ha1 job hpop
  refine ⟨row, by rw [h1]; rfl, by rw [h2]; rfl, h4, h3, ?_⟩
  intro g sent hmem
  rw [h7] at hmem ⊢
  obtain ⟨_, _, s, hsm, e3, e4⟩ := h3
  by_cases ho : o = ChargeOutcome.response true
  · rw [if_pos ho] at hmem ⊢
    simp only [postCalls, List.filterMap_cons, List.filterMap_nil, List.mem_singleton,
      Prod.mk.injEq] at hmem
    obtain ⟨rfl, rfl⟩ := hmem
    refine ⟨rfl, rfl, List.mem_cons_self _ _, s, ?_, e4⟩
    rw [← e3]
    exact getServer_of_mem hk1 hsm
  · rw [if_neg ho] at hmem
    simp [postCalls] at hmem

/-- Witness of C13: after the sample round the two queues hold two aligned rows each. -/
theorem queues_stay_aligned_witness :
    ServersKeyed sampleDb ∧ sampleDb.adsqueue = [] ∧ sampleDb.paymentqueue = [] ∧
    (runEvents [Event.round sampleRound] sampleDb).adsqueue.length = 2 ∧
    Aligned (runEvents [Event.round sampleRound] sampleDb) ∧
    QueuesSorted (runEvents [Event.round sampleRound] sampleDb) :=
  ⟨by decide, rfl, rfl, by decide,
    (queues_stay_aligned sampleDb (by decide) rfl rfl [Event.round sampleRound]).2.2.1,
    (queues_stay_aligned sampleDb (by decide) rfl rfl [Event.round sampleRound]).2.1⟩

end AdsBot

namespace AdsBot

/-! ## The worker step by step -/

/-- The steps of one pass, taken without a stop, do what `runPaymentWorkerBody` does: six steps
are enough to be back at the top of the loop. -/
theorem runPass_eq (o : ChargeOutcome) (db : DB) (cs : List (PayRow × Bool))
    (ps : List AdsRow) :
    (runPass o 6 { db := db, pc := .idle, charged := cs, posted := ps }).pc = .idle ∧
    (runPass o 6 { db := db, pc := .idle, charged := cs, posted := ps }).db =
      (runPaymentWorkerBody o db).1 ∧
    (runPass o 6 { db := db, pc := .idle, charged := cs, posted := ps }).posted =
      ps ++ (postCalls (runPaymentWorkerBody o db).2).map Prod.snd := by
  unfold runPaymentWorkerBody
  cases hpop : popNextPayment db with
  | none => simp [runPass, workerStep, hpop, isIdle, postCalls]
  | some job =>
    cases hrow : oldestBy (fun a : AdsRow => a.queue)
        ((deletePayment job.queue db).adsqueue.filter (fun a => a.AD_ID == job.AD_ID)) with
    | none =>
      cases o with
      | transportError => simp [runPass, workerStep, hpop, hrow, isIdle, payFromCard, postCalls]
      | response success =>
        cases success <;> simp [runPass, workerStep, hpop, hrow, isIdle, payFromCard, postCalls]
    | some row =>
      cases o with
      | transportError => simp [runPass, workerStep, hpop, hrow, isIdle, payFromCard, postCalls]
      | response success =>
        cases success <;> simp [runPass, workerStep, hpop, hrow, isIdle, payFromCard, postCalls]

theorem workerStep_inv (o : ChargeOutcome) (w : WorkerState)
    (h : InFlightOnly w ∧ HoldsRows w ∧ (w.charged.map Prod.fst).Nodup ∧ w.posted.Nodup) :
    InFlightOnly (workerStep o w) ∧ HoldsRows (workerStep o w) ∧
      ((workerStep o w).charged.map Prod.fst).Nodup ∧ (workerStep o w).posted.Nodup := by
  obtain ⟨db, pc, cs, ps⟩ := w
  obtain ⟨⟨hA, hB⟩, ⟨hC, hD⟩, hN1, hN2⟩ := h
  simp only at hA hB hC hD hN1 hN2
  cases pc with
  | idle =>
    cases hpop : popNextPayment db with
    | none =>
      have hq1 : (cleanupSequencesIfEmpty db).paymentqueue = db.paymentqueue := by
        unfold cleanupSequencesIfEmpty; split <;> rfl
      have hq2 : (cleanupSequencesIfEmpty db).adsqueue = db.adsqueue := by
        unfold cleanupSequencesIfEmpty; split <;> rfl
      simp only [workerStep, hpop, InFlightOnly, HoldsRows, hq1, hq2]
      refine ⟨⟨hA, hB⟩, ⟨?_, ?_⟩, hN1, hN2⟩
      · intro job hj; cases hj
      · intro job row hj; cases hj
    | some job =>
      simp only [workerStep, hpop, InFlightOnly, HoldsRows]
      refine ⟨⟨?_, ?_⟩, ⟨?_, ?_⟩, hN1, hN2⟩
      · intro p hp hc
        obtain ⟨ok, hok⟩ := hA p hp hc
        cases hok
      · intro a ha hc
        obtain ⟨j, hj⟩ := hB a ha hc
        cases hj
      · intro j hj
        cases hj
        exact (oldestBy_some _ _ _ hpop).1
      · intro j row hj; cases hj
  | popped job =>
    have hjob : job ∈ db.paymentqueue := hC job rfl
    have hfresh : job ∉ cs.map Prod.fst := by
      intro hc
      obtain ⟨ok, hok⟩ := hA job hjob hc
      cases hok
    simp only [workerStep, InFlightOnly, HoldsRows, List.map_append, List.map_cons, List.map_nil]
    refine ⟨⟨?_, ?_⟩, ⟨?_, ?_⟩, ?_, hN2⟩
    · intro p hp hc
      rw [List.mem_append, List.mem_singleton] at hc
      rcases hc with hc | hc
      · obtain ⟨ok, hok⟩ := hA p hp hc
        cases hok
      · subst hc
        exact ⟨_, rfl⟩
    · intro a ha hc
      obtain ⟨j, hj⟩ := hB a ha hc
      cases hj
    · intro j hj; cases hj
    · intro j row hj; cases hj
    · rw [List.nodup_append]
      refine ⟨hN1, List.nodup_singleton _, ?_⟩
      intro x hx hy
      rw [List.mem_singleton] at hy
      subst hy
      exact hfresh hx
  | charged job ok =>
    simp only [workerStep, InFlightOnly, HoldsRows, deletePayment]
    refine ⟨⟨?_, ?_⟩, ⟨?_, ?_⟩, hN1, hN2⟩
    · intro p hp hc
      rw [List.mem_filter] at hp
      obtain ⟨ok2, hok⟩ := hA p hp.1 hc
      cases hok
      simp at hp
    · intro a ha hc
      obtain ⟨j, hj⟩ := hB a ha hc
      cases hj
    · intro j hj; cases hj
    · intro j row hj; cases hj
  | paid job ok =>
    simp only [workerStep, InFlightOnly, HoldsRows]
    refine ⟨⟨?_, ?_⟩, ⟨?_, ?_⟩, hN1, hN2⟩
    · intro p hp hc
      obtain ⟨ok2, hok⟩ := hA p hp hc
      cases hok
    · intro a ha hc
      obtain ⟨j, hj⟩ := hB a ha hc
      cases hj
    · intro j hj; cases hj
    · intro j row hj
      simp only [WorkerPc.found.injEq] at hj
      have := (oldestBy_some _ _ _ hj.2.2).1
      exact (List.mem_filter.mp this).1
  | found job ok adsRow =>
    cases adsRow with
    | none =>
      simp only [workerStep, InFlightOnly, HoldsRows]
      refine ⟨⟨?_, ?_⟩, ⟨?_, ?_⟩, hN1, hN2⟩
      · intro p hp hc
        obtain ⟨ok2, hok⟩ := hA p hp hc
        cases hok
      · intro a ha hc
        obtain ⟨j, hj⟩ := hB a ha hc
        cases hj
      · intro j hj; cases hj
      · intro j row hj; cases hj
    | some row =>
      cases ok with
      | false =>
        simp only [workerStep, InFlightOnly, HoldsRows, deleteAdsQueue]
        refine ⟨⟨?_, ?_⟩, ⟨?_, ?_⟩, hN1, hN2⟩
        · intro p hp hc
          obtain ⟨ok2, hok⟩ := hA p hp hc
          cases hok
        · intro a ha hc
          rw [List.mem_filter] at ha
          obtain ⟨j, hj⟩ := hB a ha.1 hc
          cases hj
        · intro j hj; cases hj
        · intro j row2 hj; cases hj
      | true =>
        have hrow : row ∈ db.adsqueue := hD job row rfl
        have hfresh : row ∉ ps := by
          intro hc
          obtain ⟨j, hj⟩ := hB row hrow hc
          cases hj
        simp only [workerStep, InFlightOnly, HoldsRows]
        refine ⟨⟨?_, ?_⟩, ⟨?_, ?_⟩, hN1, ?_⟩
        · intro p hp hc
          obtain ⟨ok2, hok⟩ := hA p hp hc
          cases hok
        · intro a ha hc
          rw [List.mem_append, List.mem_singleton] at hc
          rcases hc with hc | hc
          · obtain ⟨j, hj⟩ := hB a ha hc
            cases hj
          · subst hc
            exact ⟨_, rfl⟩
        · intro j hj; cases hj
        · intro j row2 hj; cases hj
        · rw [List.nodup_append]
          refine ⟨hN2, List.nodup_singleton _, ?_⟩
          intro x hx hy
          rw [List.mem_singleton] at hy
          subst hy
          exact hfresh hx
  | posted job row =>
    simp only [workerStep, InFlightOnly, HoldsRows, deleteAdsQueue]
    refine ⟨⟨?_, ?_⟩, ⟨?_, ?_⟩, hN1, hN2⟩
    · intro p hp hc
      obtain ⟨ok2, hok⟩ := hA p hp hc
      cases hok
    · intro a ha hc
      rw [List.mem_filter] at ha
      obtain ⟨j, hj⟩ := hB a ha.1 hc
      cases hj
      simp at ha
    · intro j hj; cases hj
    · intro j row2 hj; cases hj

theorem stop_inv (w : WorkerState) (hsafe : StopSafe w.pc)
    (h : InFlightOnly w ∧ HoldsRows w ∧ (w.charged.map Prod.fst).Nodup ∧ w.posted.Nodup) :
    InFlightOnly (actWorker w WorkerAction.stop) ∧ HoldsRows (actWorker w WorkerAction.stop) ∧
      ((actWorker w WorkerAction.stop).charged.map Prod.fst).Nodup ∧
      (actWorker w WorkerAction.stop).posted.Nodup := by
  obtain ⟨⟨hA, hB⟩, _, hN1, hN2⟩ := h
  simp only [actWorker, InFlightOnly, HoldsRows]
  refine ⟨⟨?_, ?_⟩, ⟨?_, ?_⟩, hN1, hN2⟩
  · intro p hp hc
    obtain ⟨ok, hok⟩ := hA p hp hc
    rw [hok] at hsafe
    exact absurd hsafe (by simp [StopSafe])
  · intro a ha hc
    obtain ⟨j, hj⟩ := hB a ha hc
    rw [hj] at hsafe
    exact absurd hsafe (by simp [StopSafe])
  · intro j hj; cases hj
  · intro j row hj; cases hj

theorem runWorker_inv (acts : List WorkerAction) :
    ∀ w : WorkerState, StopsSafe acts w →
      (InFlightOnly w ∧ HoldsRows w ∧ (w.charged.map Prod.fst).Nodup ∧ w.posted.Nodup) →
      InFlightOnly (runWorker acts w) ∧ HoldsRows (runWorker acts w) ∧
        ((runWorker acts w).charged.map Prod.fst).Nodup ∧ (runWorker acts w).posted.Nodup := by
  induction acts with
  | nil => intro w _ h; exact h
  | cons a rest ih =>
    intro w hs h
    simp only [runWorker, List.foldl_cons]
    cases a with
    | step o =>
      simp only [StopsSafe] at hs
      exact ih _ hs (workerStep_inv o w h)
    | stop =>
      simp only [StopsSafe] at hs
      exact ih _ hs.2 (stop_inv w hs.1 h)

end AdsBot

namespace AdsBot

/-- The claim of C11 fails on the database after the sample round (two payment rows and two
delivery rows of one campaign, every charge succeeding). After the steps read and charge, the
first payment row is debited and still in `paymentqueue`; a stop there and two more steps
charge the same row again. After the steps read, charge, delete, find and post, a stop
followed by the same five steps for the second payment row posts the first delivery row a
second time. -/
theorem stop_after_charge_repeats :
    (∃ p ∈ (runWorker [stepOk, stepOk] (startWorker sampleQueued)).db.paymentqueue,
      (p, true) ∈ (runWorker [stepOk, stepOk] (startWorker sampleQueued)).charged) ∧
    ((runWorker [stepOk, stepOk, WorkerAction.stop, stepOk, stepOk]
        (startWorker sampleQueued)).charged.map (fun c => c.1.queue) = [1, 1]) ∧
    ¬ ((runWorker [stepOk, stepOk, WorkerAction.stop, stepOk, stepOk]
        (startWorker sampleQueued)).charged.map Prod.fst).Nodup ∧
    ((runWorker [stepOk, stepOk, stepOk, stepOk, stepOk, WorkerAction.stop,
        stepOk, stepOk, stepOk, stepOk, stepOk]
        (startWorker sampleQueued)).posted.map (fun a => a.queue) = [1, 1]) ∧
    ¬ (runWorker [stepOk, stepOk, stepOk, stepOk, stepOk, WorkerAction.stop,
        stepOk, stepOk, stepOk, stepOk, stepOk]
        (startWorker sampleQueued)).posted.Nodup := by
  decide

/-- C11, amended: with one pass of `runPaymentWorker` taken as its steps (read the oldest
payment row, charge, delete the payment row, find the delivery row, post, delete the delivery
row) and a stop possible after any step except between the charge and the deletion of the
payment row and between the post and the deletion of the delivery row, in every state reached
from a start of the worker the only charged payment row still in `paymentqueue` is the one
the worker deletes in its next step, the only posted delivery row still in `adsqueue` is the
one the worker deletes in its next step, no payment row has been charged twice and no
delivery row has been posted twice. -/
theorem safe_stops_no_repeat (db : DB) (acts : List WorkerAction)
    (hsafe : StopsSafe acts (startWorker db)) :
    InFlightOnly (runWorker acts (startWorker db)) ∧
    ((runWorker acts (startWorker db)).charged.map Prod.fst).Nodup ∧
    (runWorker acts (startWorker db)).posted.Nodup := by
  have h0 : InFlightOnly (startWorker db) ∧ HoldsRows (startWorker db) ∧
      ((startWorker db).charged.map Prod.fst).Nodup ∧ (startWorker db).posted.Nodup := by
    simp only [startWorker, InFlightOnly, HoldsRows, List.map_nil, List.not_mem_nil,
      List.nodup_nil, and_true]
    refine ⟨⟨fun _ _ h => h.elim, fun _ _ h => h.elim⟩, ?_, ?_⟩
    · intro j hj; cases hj
    · intro j row hj; cases hj
  obtain ⟨h1, _, h3, h4⟩ := runWorker_inv acts (startWorker db) hsafe h0
  exact ⟨h1, h3, h4⟩

/-- Witness of C11 as amended: on the database after the sample round, a stop after the read
and a stop after the first complete pass; both payment rows are charged once and both delivery
rows are posted once. -/
theorem safe_stops_no_repeat_witness :
    (runWorker [stepOk, WorkerAction.stop, stepOk, stepOk, stepOk, stepOk, stepOk, stepOk,
        WorkerAction.stop, stepOk, stepOk, stepOk, stepOk, stepOk, stepOk]
        (startWorker sampleQueued)).charged.map (fun c => c.1.queue) = [1, 2] ∧
    (runWorker [stepOk, WorkerAction.stop, stepOk, stepOk, stepOk, stepOk, stepOk, stepOk,
        WorkerAction.stop, stepOk, stepOk, stepOk, stepOk, stepOk, stepOk]
        (startWorker sampleQueued)).posted.map (fun a => a.queue) = [1, 2] ∧
    (InFlightOnly (runWorker [stepOk, WorkerAction.stop, stepOk, stepOk, stepOk, stepOk, stepOk,
        stepOk, WorkerAction.stop, stepOk, stepOk, stepOk, stepOk, stepOk, stepOk]
        (startWorker sampleQueued)) ∧
      ((runWorker [stepOk, WorkerAction.stop, stepOk, stepOk, stepOk, stepOk, stepOk, stepOk,
        WorkerAction.stop, stepOk, stepOk, stepOk, stepOk, stepOk, stepOk]
        (startWorker sampleQueued)).charged.map Prod.fst).Nodup ∧
      (runWorker [stepOk, WorkerAction.stop, stepOk, stepOk, stepOk, stepOk, stepOk, stepOk,
        WorkerAction.stop, stepOk, stepOk, stepOk, stepOk, stepOk, stepOk]
        (startWorker sampleQueued)).posted.Nodup) :=
  ⟨by decide, by decide,
    safe_stops_no_repeat sampleQueued
      [stepOk, WorkerAction.stop, stepOk, stepOk, stepOk, stepOk, stepOk, stepOk,
        WorkerAction.stop, stepOk, stepOk, stepOk, stepOk, stepOk, stepOk]
      (by simp only [StopsSafe, stepOk]; decide)⟩

end AdsBot

namespace AdsBot

/-! ## The writer of `users` keeps the key and the separator condition -/

theorem ite_ne_bar (c : Prop) [Decidable c] (a b : Char) (ha : a ≠ '|') (hb : b ≠ '|') :
    (if c then a else b) ≠ '|' := by
  split <;> assumption

theorem digitChar_ne_bar (d : Nat) : Nat.digitChar d ≠ '|' := by
  unfold Nat.digitChar
  repeat (refine ite_ne_bar _ _ _ (by decide) ?_)
  decide

theorem toDigitsCore_no_bar (fuel : Nat) :
    ∀ (n : Nat) (ds : List Char), '|' ∉ ds → '|' ∉ Nat.toDigitsCore 10 fuel n ds := by
  induction fuel with
  | zero => intro n ds h; simpa [Nat.toDigitsCore] using h
  | succ f ih =>
    intro n ds h
    have hcons : '|' ∉ Nat.digitChar (n % 10) :: ds := by
      intro hm
      rcases List.mem_cons.1 hm with h1 | h1
      · exact digitChar_ne_bar _ h1.symm
      · exact h h1
    simp only [Nat.toDigitsCore]
    split_ifs
    · exact hcons
    · exact ih _ _ hcons

theorem toString_no_bar (n : Nat) : '|' ∉ (toString n).data := by
  show '|' ∉ (Nat.toDigits 10 n).asString.data
  exact toDigitsCore_no_bar _ _ _ (by simp)

theorem snowflake_no_bar (s : String) (h : Snowflake s) : '|' ∉ s.data := by
  intro hm
  have := h _ hm
  revert this
  decide

theorem adsId_no_bar (userId : String) (nowMs : Nat) (h : Snowflake userId) :
    '|' ∉ (userId ++ ":" ++ toString nowMs).data := by
  have h1 := snowflake_no_bar userId h
  have h2 := toString_no_bar nowMs
  simp only [String.data_append, List.mem_append, not_or]
  exact ⟨⟨h1, by decide⟩, h2⟩

theorem upsertAdMeta_users (AD_ID User ad : String) (link msg : Option String) (st : DB) :
    (upsertAdMeta AD_ID User ad link msg st).users = st.users := by
  unfold upsertAdMeta
  split <;> rfl

theorem insertUserAd_wf (userId adsId : String) (times : Option Int) (card : String) (st : DB)
    (hk : UsersKeyed st) (hb : BarFree st) (h1 : '|' ∉ userId.data) (h2 : '|' ∉ adsId.data) :
    UsersKeyed (insertUserAd userId adsId times card st) ∧
    BarFree (insertUserAd userId adsId times card st) := by
  constructor
  · unfold UsersKeyed insertUserAd
    simp only [List.map_append, List.map_cons, List.map_nil]
    rw [List.nodup_append]
    refine ⟨?_, by simp, ?_⟩
    · exact List.Nodup.sublist (List.Sublist.map _ (List.filter_sublist _)) hk
    · intro k hk1 hk2
      simp only [List.mem_singleton] at hk2
      subst hk2
      obtain ⟨u, hu, hue⟩ := List.mem_map.1 hk1
      obtain ⟨_, hf⟩ := List.mem_filter.1 hu
      simp only [Prod.mk.injEq] at hue
      simp [hue.1, hue.2] at hf
  · intro u hu
    unfold insertUserAd at hu
    simp only [List.mem_append, List.mem_singleton] at hu
    rcases hu with hu | hu
    · exact hb u (List.mem_filter.1 hu).1
    · subst hu
      exact ⟨h1, h2⟩

/-- The modal submit handler keeps `(ID, ADS_ID)` a key of `users` and writes no id with the
separator of line 313, when the submitting user's id is a Discord snowflake. -/
theorem submitAd_wf (guildId userId : String) (nowMs : Nat) (content link word card : String)
    (maxtimes : MaxTimes) (st : DB) (hs : Snowflake userId) (hk : UsersKeyed st)
    (hb : BarFree st) :
    UsersKeyed (submitAd guildId userId nowMs content link word card maxtimes st) ∧
    BarFree (submitAd guildId userId nowMs content link word card maxtimes st) := by
  unfold submitAd
  split_ifs
  · exact ⟨hk, hb⟩
  · split
    · exact ⟨hk, hb⟩
    · split
      · exact ⟨hk, hb⟩
      · split_ifs
        · exact ⟨hk, hb⟩
        · have := insertUserAd_wf userId (userId ++ ":" ++ toString nowMs) ‹_› card st hk hb
            (snowflake_no_bar userId hs) (adsId_no_bar userId nowMs hs)
          unfold UsersKeyed BarFree at *
          simp only [upsertAdMeta_users]
          exact this

/-- The empty database has the key and no separator. -/
theorem emptyDb_users_wf : UsersKeyed emptyDb ∧ BarFree emptyDb := by
  constructor
  · decide
  · intro u hu
    cases hu

end AdsBot

namespace AdsBot

/-! ## Budgets above 2^53 -/

/-- A budget that the subtraction of line 123 maps to itself is never lowered and its row is
never removed, whatever rounds and worker passes run. -/
theorem budget_stuck (uid aid : String) (t : Int) (h0 : 0 < t) (hfix : jsSub t 1 = t)
    (es : List Event) :
    ∀ st : DB, UsersKeyed st → BarFree st → HasBudget st uid aid t →
      HasBudget (runEvents es st) uid aid t := by
  induction es with
  | nil => intro st _ _ h; exact h
  | cons e rest ih =>
    intro st hk hb hrow
    simp only [runEvents, List.foldl_cons]
    obtain ⟨hk2, hb2⟩ := step_keeps_users_wf e st hk hb
    apply ih _ hk2 hb2
    cases e with
    | worker o =>
      unfold HasBudget
      simp only [stepEvent]
      rw [(worker_fields o st).2.1]
      exact hrow
    | round r =>
      obtain ⟨hno, hyes, _⟩ := round_budget r st uid aid t hk hb hrow
      simp only [stepEvent]
      cases hs : selectedBy r st uid aid with
      | false => exact hno hs
      | true =>
        have := hyes hs (by rw [hfix]; exact h0)
        rw [hfix] at this
        exact this

/-- C3 fails for a budget above 2^53. A campaign is submitted through the modal with Max Times
18014398509481984 (2^54, which lines 225-227 accept); the round at time 1000 pairs it with the
server, so it is selected; `row.times - 1` is computed in doubles and is 2^54 again, so the
round leaves the `users` table as it was, where lowering by exactly 1 gives
18014398509481983. -/
theorem big_budget_not_lowered :
    sampleBig.users =
      [{ ID := "111", ADS_ID := "111:1", times := some 18014398509481984, card := "card-1" }] ∧
    (roundBatch (roundAt 1000) sampleBig).1.map (fun j => (j.User, j.AD_ID, j.Server)) =
      [("111", "111:1", "g1")] ∧
    jsSub 18014398509481984 1 = 18014398509481984 ∧
    (runDistributionRound (roundAt 1000) sampleBig).users = sampleBig.users ∧
    sampleBig.users.filterMap (specAfterRound (roundBatch (roundAt 1000) sampleBig).1) =
      [{ ID := "111", ADS_ID := "111:1", times := some 18014398509481983, card := "card-1" }] := by
  decide

/-- C9 fails for the budget `N = 18014398509481984` (2^54) of the campaign submitted through the
modal: after three rounds that select it, 300 seconds apart, the row still holds `N`, not
`N - 3`; and after any run of rounds and worker passes whatever, the row exists with budget
`N`, so it is never removed. -/
theorem big_budget_never_spent :
    selectedRounds "111" "111:1"
      [Event.round (roundAt 1000), Event.worker (ChargeOutcome.response true),
        Event.round (roundAt 1300), Event.round (roundAt 1600)] sampleBig = 3 ∧
    (runEvents
      [Event.round (roundAt 1000), Event.worker (ChargeOutcome.response true),
        Event.round (roundAt 1300), Event.round (roundAt 1600)] sampleBig).users.map
      (fun u => (u.ID, u.ADS_ID, u.times)) = [("111", "111:1", some 18014398509481984)] ∧
    ∀ es : List Event, HasBudget (runEvents es sampleBig) "111" "111:1" 18014398509481984 :=
  ⟨by decide, by decide, fun es =>
    budget_stuck "111" "111:1" 18014398509481984 (by decide) (by decide) es sampleBig
      (by decide) (by decide)
      ⟨{ ID := "111", ADS_ID := "111:1", times := some 18014398509481984, card := "card-1" },
        by decide, rfl, rfl, rfl⟩⟩

end AdsBot
